import Mathlib

/-!
# JSTS: percentile scoring engine (`scores.js`) and aggregates (`metrics.js`)

A shallow embedding of `calcRank` and `calcScores` from `src/scores.js` and of
`Metrics.median` from `src/metrics.js`.

Numbers.  JavaScript numbers are IEEE doubles.  Here a finite double is idealised as
an exact rational (`ℚ`), `NaN` is an explicit value, and rounding, signed zeros and
the infinite doubles are not modelled.  The two divisions of `calcScores` divide by a
count (`length`, `total`); when that count is `0` the numerator is `0` or `NaN`, so
the only non-finite result they can produce is `NaN`.

Rounding.  Whether two scores differ depends on the rounding of `100 - accumulatedRank`.
For the claim about the order of the scores the arithmetic of `calcScores` is embedded a
second time (`calcScores64`), with every operation on doubles followed by the rounding
of binary64 (`round64`).
-/

namespace JSTS

/-! ## JavaScript values -/

/-- A computed JavaScript number: a finite value or `NaN`. -/
inductive JSNum where
  | fin (q : ℚ)
  | nan
  deriving DecidableEq

/-- A value stored in a metrics record: a number, `null` (what `Metrics.total`,
`average`, `median`, `min`, `max` return for an empty array) or an array of numbers
(the `values` field of an aggregate). -/
inductive JSVal where
  | number (n : JSNum)
  | null
  | array (xs : List ℚ)
  deriving DecidableEq

/-- The finite number `q` as a record value. -/
@[reducible] def JSVal.num (q : ℚ) : JSVal := JSVal.number (JSNum.fin q)

/-- ECMAScript `ToNumber` on a record value, `none` standing for `NaN`: `null` is `0`;
an array is first joined to a string, so `[]` is `0`, `[x]` is `x` and a longer array
is `NaN`. -/
def JSVal.toNumber : JSVal → Option ℚ
  | .number (.fin q) => some q
  | .number .nan => none
  | .null => some 0
  | .array [] => some 0
  | .array [x] => some x
  | .array (_ :: _ :: _) => none

/-- Strict equality `r === v` of a reference number `r` with a record value `v`: true
only for the same number (never for `NaN`, `null` or an array). -/
def strictEq (r : ℚ) (v : JSVal) : Bool :=
  match v with
  | .number (.fin q) => decide (r = q)
  | _ => false

/-- The relational comparison `r > v` of a reference number `r` with a record value
`v`: `v` is converted with `ToNumber`, and every comparison with `NaN` is false. -/
def jsGt (r : ℚ) (v : JSVal) : Bool :=
  match v.toNumber with
  | some q => decide (q < r)
  | none => false

/-! ## `calcRank` (scores.js, lines 3-10) -/

/-- The scan of `Array.prototype.indexOf`: `xs` is the part of the array from index
`i` on; the result is the first index whose element is strictly equal to `v`, or `-1`. -/
def indexOfFrom (xs : List ℚ) (v : JSVal) (i : Nat) : Int :=
  match xs with
  | [] => -1
  | x :: rest => if strictEq x v then (i : Int) else indexOfFrom rest v (i + 1)

/-- The call `allValues.indexOf(value)`. -/
def indexOf (allValues : List ℚ) (value : JSVal) : Int :=
  indexOfFrom allValues value 0

/-- The loop `for (let i = 0; i < allValues.length; i++) if (allValues[i] > value) return i;`
followed by `return allValues.length;`: `xs` is the part of the array from index `i` on. -/
def firstGreaterFrom (xs : List ℚ) (v : JSVal) (i : Nat) : Int :=
  match xs with
  | [] => (i : Int)
  | x :: rest => if jsGt x v then (i : Int) else firstGreaterFrom rest v (i + 1)

/-- The function `calcRank(allValues, value)`. -/
def calcRank (allValues : List ℚ) (value : JSVal) : Int :=
  let index := indexOf allValues value
  if index ≠ -1 then index + 1
  else firstGreaterFrom allValues value 0

/-! ## Arithmetic of `calcScores` -/

/-- The sum `a + b` of two numbers. -/
def JSNum.add : JSNum → JSNum → JSNum
  | .fin a, .fin b => .fin (a + b)
  | _, _ => .nan

/-- The difference `a - b` of two numbers. -/
def JSNum.sub : JSNum → JSNum → JSNum
  | .fin a, .fin b => .fin (a - b)
  | _, _ => .nan

/-- The product `a * b` of two numbers. -/
def JSNum.mul : JSNum → JSNum → JSNum
  | .fin a, .fin b => .fin (a * b)
  | _, _ => .nan

/-- The quotient `a / n` of a number by a count (`length` or `total`).  `0 / 0` is
`NaN`.  In `calcScores` the numerator is `0` or `NaN` whenever the count is `0`
(`indexOf` on an empty array is `-1`, and `rankAcc` is `0` when nothing was added),
so the quotient of a non-zero number by `0` is never taken. -/
def JSNum.divCount : JSNum → Nat → JSNum
  | .fin a, n => if n = 0 then .nan else .fin (a / (n : ℚ))
  | .nan, _ => .nan

/-! ## Data model of `calcScores` (scores.js, lines 12-78) -/

/-- The value of one metric of a file record, as `calcScores` tells them apart with
`value instanceof Object`: a primitive (a number or `null`), or an object given by its
`Object.entries` in order.  An aggregate made by `Metrics.aggregatesFromArr` is the
object with the entries `total`, `avg`, `med`, `min`, `max`, `values`; an array left
in the record is the object of its index entries. -/
inductive MetricValue where
  | scalar (value : JSVal)
  | object (entries : List (String × JSVal))

/-- One entry of `data.values`: a sorted sequence (scalar metric) or an object of
sequences keyed by aggregate name. -/
inductive RefEntry where
  | flat (seq : List ℚ)
  | nested (fields : String → Option (List ℚ))

/-- The parsed `data.json`: `metrics`, `values` and `moduleRanks`. -/
structure ReferenceDataset where
  metrics : List String
  values : String → Option RefEntry
  moduleRanks : List ℚ

/-- The object pushed to `levels[file].ranks`. -/
structure RankedMetric where
  metric : String
  value : JSVal
  rank : Int
  normalizedRank : JSNum

/-- An element of the list returned by `calcScores`.  The field `relativeRank`
(`100 - accumulatedRank / maxRank * 100`) is left out: it is written once, read by
nothing in `calcScores`, and may be infinite. -/
structure FileScore where
  file : String
  rank : Int
  metricRanks : List RankedMetric
  accumulatedRank : JSNum
  score : JSNum

/-- The expression `ranks[metric]` used as an array (scalar branch); `none` when the
expression `ranks[metric].indexOf(...)` throws a `TypeError`. -/
def lookupFlat (data : ReferenceDataset) (metric : String) : Option (List ℚ) :=
  match data.values metric with
  | some (.flat seq) => some seq
  | _ => none

/-- The expression `ranks[metric][aggr]` (aggregate branch); `none` when evaluating it
or calling `indexOf` on it throws a `TypeError`. -/
def lookupNested (data : ReferenceDataset) (metric aggr : String) : Option (List ℚ) :=
  match data.values metric with
  | some (.nested fields) => fields aggr
  | _ => none

/-- The expression `(seq.indexOf(value) + 1) / seq.length * 100`. -/
def normalizedRank (seq : List ℚ) (value : JSVal) : JSNum :=
  ((JSNum.fin ((indexOf seq value + 1 : Int) : ℚ)).divCount seq.length).mul (JSNum.fin 100)

/-- The object literal pushed for the metric key `key`, reference sequence `seq` and
value `value`. -/
def rankedMetric (key : String) (seq : List ℚ) (value : JSVal) : RankedMetric :=
  { metric := key
    value := value
    rank := calcRank seq value
    normalizedRank := normalizedRank seq value }

/-- The body of the inner `forEach` over `Object.entries(value)` (lines 26-34):
`ranks` is `levels[file].ranks` so far; `none` is a thrown `TypeError`. -/
def aggrStep (data : ReferenceDataset) (metric : String) (ranks : List RankedMetric)
    (entry : String × JSVal) : Option (List RankedMetric) :=
  if entry.1 = "values" ∨ ¬ (metric ++ "_" ++ entry.1) ∈ data.metrics then some ranks
  else
    match lookupNested data metric entry.1 with
    | none => none
    | some seq => some (ranks ++ [rankedMetric (metric ++ "_" ++ entry.1) seq entry.2])

/-- The body of the `forEach` over `Object.entries(fileMetrics)` (lines 24-45). -/
def metricStep (data : ReferenceDataset) (ranks : List RankedMetric)
    (entry : String × MetricValue) : Option (List RankedMetric) :=
  match entry.2 with
  | .object entries => entries.foldlM (aggrStep data entry.1) ranks
  | .scalar value =>
    if ¬ entry.1 ∈ data.metrics then some ranks
    else
      match lookupFlat data entry.1 with
      | none => none
      | some seq => some (ranks ++ [rankedMetric entry.1 seq value])

/-- The list `levels[file].ranks` after the first pass over one file record. -/
def fileRanks (data : ReferenceDataset) (fileMetrics : List (String × MetricValue)) :
    Option (List RankedMetric) :=
  fileMetrics.foldlM (metricStep data) []

/-- The pair `(rankAcc, total)` after the loop of lines 51-54. -/
def accumulate (ranks : List RankedMetric) : JSNum × Nat :=
  ranks.foldl (fun acc rankInfo => (acc.1.add rankInfo.normalizedRank, acc.2 + 1))
    (JSNum.fin 0, 0)

/-- The value `rankAcc / total` stored in `fileData.accumulatedRank` (line 55). -/
def accumulatedRank (ranks : List RankedMetric) : JSNum :=
  (accumulate ranks).1.divCount (accumulate ranks).2

/-- The list element built for one file (lines 59-75). -/
def fileScore (data : ReferenceDataset) (file : String) (ranks : List RankedMetric) :
    FileScore :=
  { file := file
    rank := calcRank data.moduleRanks (JSVal.number (accumulatedRank ranks))
    metricRanks := ranks
    accumulatedRank := accumulatedRank ranks
    score := (JSNum.fin 100).sub (accumulatedRank ranks) }

/-- The object `levels` after the first pass (lines 19-46), as its entries in order;
`none` when a reference lookup throws for some file. -/
def calcLevels (data : ReferenceDataset) :
    List (String × List (String × MetricValue)) → Option (List (String × List RankedMetric))
  | [] => some []
  | entry :: rest =>
    match fileRanks data entry.2 with
    | none => none
    | some ranks =>
      match calcLevels data rest with
      | none => none
      | some levels => some ((entry.1, ranks) :: levels)

/-- The list of lines 65-75 before it is sorted. -/
def unsortedScores (data : ReferenceDataset) (levels : List (String × List RankedMetric)) :
    List FileScore :=
  levels.map (fun entry => fileScore data entry.1 entry.2)

/-- The function `calcScores(metrics)`, with the parsed `data.json` as a parameter.
`metrics` is given by its `Object.entries` (file path, then that file's
`Object.entries`).  `list.sort((a, b) => b.rank - a.rank)` is a stable sort by
descending `rank`. -/
def calcScores (data : ReferenceDataset)
    (metrics : List (String × List (String × MetricValue))) : Option (List FileScore) :=
  (calcLevels data metrics).map
    (fun levels => (unsortedScores data levels).insertionSort (fun a b => b.rank ≤ a.rank))

/-! ## `Metrics.median` (metrics.js, lines 53-57) -/

/-- The function `Metrics.median(arr)` on an array of finite numbers.
`[...arr].sort((a, b) => a - b)` sorts ascending.  The indices read are within the
array, so the default of `getD` is never used. -/
def Metrics.median (arr : List ℚ) : JSVal :=
  if arr.length = 0 then JSVal.null
  else
    let sorted := arr.insertionSort (· ≤ ·)
    if sorted.length % 2 = 1 then JSVal.num (sorted.getD (sorted.length / 2) 0)
    else JSVal.num ((sorted.getD (sorted.length / 2 - 1) 0 + sorted.getD (sorted.length / 2) 0) / 2)

/-! ## Aggregates (metrics.js, lines 28-77 and 152-166) -/

/-- The call `arr.reduce((prev, curr) => prev + curr, 0)`. -/
def sumReduce (arr : List ℚ) : ℚ :=
  arr.foldl (fun prev curr => prev + curr) 0

/-- The function `Metrics.total(arr)`. -/
def Metrics.total (arr : List ℚ) : JSVal :=
  if arr.length = 0 then JSVal.null
  else JSVal.num (sumReduce arr)

/-- The function `Metrics.average(arr)`. -/
def Metrics.average (arr : List ℚ) : JSVal :=
  if arr.length = 0 then JSVal.null
  else JSVal.num (sumReduce arr / (arr.length : ℚ))

/-- The call `Math.max(...arr)` on a non-empty array of finite numbers: the greatest
argument.  (On no argument `Math.max()` is `-Infinity`; `Metrics.max` never makes that
call, and the value `0` given here for `[]` is not used.) -/
def mathMax : List ℚ → ℚ
  | [] => 0
  | x :: rest => rest.foldl (fun best y => if best < y then y else best) x

/-- The call `Math.min(...arr)` on a non-empty array of finite numbers: the least
argument.  (The value given for `[]` is not used.) -/
def mathMin : List ℚ → ℚ
  | [] => 0
  | x :: rest => rest.foldl (fun best y => if y < best then y else best) x

/-- The function `Metrics.max(arr)`. -/
def Metrics.max (arr : List ℚ) : JSVal :=
  if arr.length = 0 then JSVal.null
  else JSVal.num (mathMax arr)

/-- The function `Metrics.min(arr)`. -/
def Metrics.min (arr : List ℚ) : JSVal :=
  if arr.length = 0 then JSVal.null
  else JSVal.num (mathMin arr)

/-- The object built by `Metrics.aggregatesFromArr`. -/
structure AggregateStat where
  total : JSVal
  avg : JSVal
  med : JSVal
  min : JSVal
  max : JSVal
  values : List ℚ
  deriving DecidableEq

/-- The function `Metrics.aggregatesFromArr(arr)`. -/
def Metrics.aggregatesFromArr (arr : List ℚ) : AggregateStat :=
  { total := Metrics.total arr
    avg := Metrics.average arr
    med := Metrics.median arr
    min := Metrics.min arr
    max := Metrics.max arr
    values := arr }

/-! ## Syntax trees and the walker (metrics.js, lines 96-150) -/

/-- The `value` of a literal node as far as `importsPerModule` can tell: a string, or
something that is neither a string nor `null` (a number, a boolean, a regular
expression).  An absent or `null` value is `none` where an `Option LitValue` is read. -/
inductive LitValue where
  | str (s : String)
  | nonString
  deriving DecidableEq

/-- What the callbacks read from one node besides its subtree: `node.type`,
`node.source.value`, `node.callee.name`, and `node.arguments[0].value` (`none` when
there is no first argument or it has no `value`). -/
structure NodeInfo where
  type : String
  sourceValue : Option LitValue
  calleeName : Option String
  argValue : Option LitValue
  deriving DecidableEq

/-- A syntax tree as `walk` of `estree-walker` sees it: a node, and in order the child
nodes the walker visits from it (the values of its properties that are nodes, and the
elements of its properties that are arrays of nodes). -/
inductive Node where
  | mk (info : NodeInfo) (children : List Node)

/-- The properties read from a node. -/
def Node.info : Node → NodeInfo
  | .mk info _ => info

/-- The children the walker visits from a node. -/
def Node.children : Node → List Node
  | .mk _ children => children

/-- The expression `node.type`. -/
def Node.type (node : Node) : String := node.info.type

mutual
/-- The call `walk(tree, \x7b enter, leave \x7d)`: `enter` is called on a node, then
its children are walked in order, then `leave` is called on it.  The state `σ` is
what the callbacks close over. -/
def walk {σ : Type} (enter leave : Node → σ → σ) : Node → σ → σ
  | .mk info children, s =>
    leave (.mk info children) (walkChildren enter leave children (enter (.mk info children) s))
/-- The walk over the children of a node, in order. -/
def walkChildren {σ : Type} (enter leave : Node → σ → σ) : List Node → σ → σ
  | [], s => s
  | child :: rest, s => walkChildren enter leave rest (walk enter leave child s)
end

/-- The array `blockTypes` of `Metrics.depth`. -/
def blockTypes : List String := ["BlockStatement", "ClassBody", "FunctionBody"]

/-- The variables `currentLevel` and `maxLevel` of `Metrics.depth`. -/
structure DepthState where
  currentLevel : Int
  maxLevel : Int
  deriving DecidableEq

/-- The callback `enter` of `Metrics.depth`. -/
def depthEnter (node : Node) (s : DepthState) : DepthState :=
  let currentLevel := if node.type ∈ blockTypes then s.currentLevel + 1 else s.currentLevel
  { currentLevel := currentLevel
    maxLevel := max currentLevel s.maxLevel }

/-- The callback `leave` of `Metrics.depth`. -/
def depthLeave (node : Node) (s : DepthState) : DepthState :=
  if node.type ∈ blockTypes then { s with currentLevel := s.currentLevel - 1 } else s

/-- The function `Metrics.depth(tree)`. -/
def Metrics.depth (tree : Node) : Int :=
  (walk depthEnter depthLeave tree { currentLevel := 0, maxLevel := 0 }).maxLevel

/-- The function `Metrics.calls(tree)`. -/
def Metrics.calls (tree : Node) : Int :=
  walk (fun node calls => if node.type = "CallExpression" then calls + 1 else calls)
    (fun _ calls => calls) tree 0

/-- The array `functionTypes` of `Metrics.eachFunction`. -/
def functionTypes : List String := ["FunctionExpression", "ArrowFunctionExpression"]

/-- The function `Metrics.eachFunction(tree, method)`; there is no `leave` callback. -/
def Metrics.eachFunction {α : Type} (tree : Node) (method : Node → α) : List α :=
  walk (fun node result => if node.type ∈ functionTypes then result ++ [method node] else result)
    (fun _ result => result) tree []

/-! ### Vocabulary for the claims about trees -/

mutual
/-- All nodes of a tree in pre-order (the order in which `walk` enters them). -/
def Node.preorder : Node → List Node
  | .mk info children => .mk info children :: preorderChildren children
/-- The nodes of a list of trees, tree after tree, each in pre-order. -/
def preorderChildren : List Node → List Node
  | [] => []
  | child :: rest => child.preorder ++ preorderChildren rest
end

mutual
/-- For every node of a tree, in pre-order, the number of block nodes on the path from
the root of the tree to that node, both ends included, counted from `above`. -/
def Node.blockCounts (above : Int) : Node → List Int
  | .mk info children =>
    (above + if info.type ∈ blockTypes then 1 else 0) ::
      blockCountsChildren (above + if info.type ∈ blockTypes then 1 else 0) children
/-- The block counts of the nodes of a list of trees hanging below `above` blocks. -/
def blockCountsChildren (above : Int) : List Node → List Int
  | [] => []
  | child :: rest => child.blockCounts above ++ blockCountsChildren above rest
end

mutual
/-- The nesting of a node computed bottom-up: its own contribution (`1` for a block
node, `0` otherwise) plus the greatest nesting among its children. -/
def Node.nesting : Node → Int
  | .mk info children => (if info.type ∈ blockTypes then 1 else 0) + maxNesting children
/-- The greatest nesting among a list of trees, `0` for the empty list. -/
def maxNesting : List Node → Int
  | [] => 0
  | child :: rest => max child.nesting (maxNesting rest)
end

/-- A node of a block type, with the children given. -/
def blockNode (children : List Node) : Node :=
  .mk { type := "BlockStatement", sourceValue := none, calleeName := none, argValue := none }
    children

/-- A node of the type given, without import data. -/
def plainNode (type : String) (children : List Node) : Node :=
  .mk { type := type, sourceValue := none, calleeName := none, argValue := none } children

/-! ## Vocabulary for the claims -/

/-- The reference sequence `seq` is consulted for the file record `fileMetrics`: it is
`ranks[metric]` for a scalar metric of the record whose key is in `data.metrics`, or
`ranks[metric][aggr]` for a field `aggr` other than `values` of an object metric of the
record whose composite key is in `data.metrics`. -/
def Consults (data : ReferenceDataset) (fileMetrics : List (String × MetricValue))
    (seq : List ℚ) : Prop :=
  (∃ metric value, (metric, MetricValue.scalar value) ∈ fileMetrics ∧
      metric ∈ data.metrics ∧ lookupFlat data metric = some seq) ∨
  (∃ metric entries aggr value, (metric, MetricValue.object entries) ∈ fileMetrics ∧
      (aggr, value) ∈ entries ∧ aggr ≠ "values" ∧
      (metric ++ "_" ++ aggr) ∈ data.metrics ∧ lookupNested data metric aggr = some seq)

/-- A ranked metric was pushed for the file record `fileMetrics`. -/
def PushedFor (data : ReferenceDataset) (fileMetrics : List (String × MetricValue))
    (rm : RankedMetric) : Prop :=
  rm.metric ∈ data.metrics ∧
    ∃ seq, Consults data fileMetrics seq ∧ rm = rankedMetric rm.metric seq rm.value

/-- A small reference dataset: a scalar metric `ccM`, an aggregate metric `ccF` scored
by its average, and three module ranks. -/
def sampleData : ReferenceDataset :=
  { metrics := ["ccM", "ccF_avg"]
    values := fun metric =>
      if metric = "ccM" then some (RefEntry.flat [1, 2, 4, 8])
      else if metric = "ccF" then
        some (RefEntry.nested (fun aggr => if aggr = "avg" then some [1, 2, 4] else none))
      else none
    moduleRanks := [10, 50, 90] }

/-- Two file records in the shape `Metrics.calcForDir` produces: `a.js` has one
function, `b.js` has none (its per-function array stays empty). -/
def sampleMetrics : List (String × List (String × MetricValue)) :=
  [("a.js", [("noF", MetricValue.scalar (JSVal.num 1)),
             ("ccF", MetricValue.object [("total", JSVal.num 2), ("avg", JSVal.num 2),
                ("med", JSVal.num 2), ("min", JSVal.num 2), ("max", JSVal.num 2),
                ("values", JSVal.array [2])]),
             ("ccM", MetricValue.scalar (JSVal.num 3))]),
   ("b.js", [("noF", MetricValue.scalar (JSVal.num 0)),
             ("ccF", MetricValue.object []),
             ("ccM", MetricValue.scalar (JSVal.num 8))])]

/-- The record that `Metrics.calcForDir` leaves for a file it could not parse (the
initial `values` object of lines 328-344); none of its keys is in `sampleData.metrics`. -/
def unparsedMetrics : List (String × List (String × MetricValue)) :=
  [("broken.js", [("noF", MetricValue.scalar (JSVal.num 0)),
                  ("locF", MetricValue.object []), ("loclF", MetricValue.object []),
                  ("ccF", MetricValue.object []), ("hbugsF", MetricValue.object []),
                  ("hdiffF", MetricValue.object []), ("heffortF", MetricValue.object []),
                  ("hlengthF", MetricValue.object []), ("htimeF", MetricValue.object []),
                  ("hvocabF", MetricValue.object []), ("hvolF", MetricValue.object []),
                  ("paramF", MetricValue.object []), ("dpF", MetricValue.object []),
                  ("ecM", MetricValue.scalar (JSVal.num 0)),
                  ("acM", MetricValue.scalar (JSVal.num 0))])]

/-! ## Objects and file records (metrics.js, lines 324-399) -/

/-- A JavaScript object with string keys: `keys` is `Object.keys` (insertion order) and
`get` reads a property (`none` for `undefined`).  Integer-like keys, which JavaScript
lists first, do not occur among file paths and metric names. -/
structure JSObject (α : Type) where
  keys : List String
  get : String → Option α

/-- The object `\x7b\x7d`. -/
def JSObject.empty {α : Type} : JSObject α :=
  { keys := [], get := fun _ => none }

/-- The assignment `o[key] = value`: a new key goes last, an old key keeps its place. -/
def JSObject.set {α : Type} (o : JSObject α) (key : String) (value : α) : JSObject α :=
  { keys := if key ∈ o.keys then o.keys else o.keys ++ [key]
    get := fun k => if k = key then some value else o.get k }

/-- The call `Object.entries(o)`. -/
def JSObject.entries {α : Type} (o : JSObject α) : List (String × α) :=
  o.keys.filterMap (fun k => (o.get k).map (fun v => (k, v)))

/-- An object literal with the entries given, in order. -/
def JSObject.ofEntries {α : Type} (entries : List (String × α)) : JSObject α :=
  entries.foldl (fun o entry => o.set entry.1 entry.2) JSObject.empty

/-- A value in a file record of `Metrics.calcForDir`: a number, an array of numbers, or
the aggregate that replaced an array. -/
inductive RecVal where
  | num (q : ℚ)
  | arr (xs : List ℚ)
  | aggr (a : AggregateStat)
  deriving DecidableEq

/-- A file record: the object `values` of `Metrics.calcForDir`. -/
abbrev Record := JSObject RecVal

/-- The object literal `values` of lines 328-344. -/
def initialValues : Record :=
  JSObject.ofEntries
    [("noF", RecVal.num 0), ("locF", RecVal.arr []), ("loclF", RecVal.arr []),
     ("ccF", RecVal.arr []), ("hbugsF", RecVal.arr []), ("hdiffF", RecVal.arr []),
     ("heffortF", RecVal.arr []), ("hlengthF", RecVal.arr []), ("htimeF", RecVal.arr []),
     ("hvocabF", RecVal.arr []), ("hvolF", RecVal.arr []), ("paramF", RecVal.arr []),
     ("dpF", RecVal.arr []), ("ecM", RecVal.num 0), ("acM", RecVal.num 0)]

/-- The statements `metrics.noF += 1`, `metrics[path].ecM++` and `metrics[tempPath].acM++`
on a property that holds a number (as `noF`, `ecM` and `acM` always do). -/
def increment (key : String) (record : Record) : Record :=
  match record.get key with
  | some (RecVal.num q) => record.set key (RecVal.num (q + 1))
  | _ => record

/-- The statement `metrics[key].push(x)` on a property that holds an array (as the
twelve per-function properties do while the methods are collected). -/
def pushTo (key : String) (x : ℚ) (record : Record) : Record :=
  match record.get key with
  | some (RecVal.arr xs) => record.set key (RecVal.arr (xs ++ [x]))
  | _ => record

/-! ### The external collaborators -/

/-- The `sloc` part of a report of `typhonjs-escomplex`. -/
structure Sloc where
  physical : ℚ
  logical : ℚ

/-- The `halstead` part of a report. -/
structure Halstead where
  bugs : ℚ
  difficulty : ℚ
  effort : ℚ
  length : ℚ
  time : ℚ
  vocabulary : ℚ
  volume : ℚ

/-- The fields read from `complex.aggregate` and from each `complex.methods[k]`. -/
structure FunctionReport where
  sloc : Sloc
  cyclomatic : ℚ
  halstead : Halstead
  paramCount : ℚ

/-- The fields read from the result of `escomplex.analyzeModuleAST(tree)`. -/
structure ModuleReport where
  aggregate : FunctionReport
  maintainability : ℚ
  methods : List FunctionReport

/-- What a run reads from outside `metrics.js`.  `babel path plugins` is
`Parser.parse(code, options)` for the code read at `path` and the plugin names in
`options.plugins`; it returns a tree or throws an error with the `reasonCode` given
(`none` when the error has none).  `complexity tree` is `escomplex.analyzeModuleAST`,
`none` when it throws.  `comments path` is `Metrics.comments(code)` for the code read at
`path`. -/
structure World where
  babel : String → List String → Except (Option String) Node
  complexity : Node → Option ModuleReport
  comments : String → ℚ

/-! ### `Metrics.parse` (lines 242-317) -/

/-- The characters after the last `c` of a string, all of it when `c` does not occur:
`s.split(c)` followed by taking the last element. -/
def lastSplitChars (c : Char) (s : List Char) : List Char :=
  s.foldl (fun acc x => if x = c then [] else acc ++ [x]) []

/-- The expression `s.split('/').at(-1)`, also written `pathArr[pathArr.length - 1]`. -/
def lastSegment (s : String) : String :=
  String.mk (lastSplitChars '/' s.data)

/-- The plugin names of the `options` object of `Metrics.parse` (the `typescript`
plugin, pushed with its options, is listed by its name). -/
def basePlugins : List String :=
  ["estree", "decorators", "asyncDoExpressions", "decimal", "decoratorAutoAccessors",
   "destructuringPrivate", "doExpressions", "explicitResourceManagement",
   "exportDefaultFrom", "functionBind", "functionSent", "importAssertions",
   "importReflection", "moduleBlocks", "partialApplication", "recordAndTuple",
   "regexpUnicodeSets", "throwExpressions"]

/-- The function `Metrics.parse(code, path)` for the code read at `path`; an error is a
thrown exception. -/
def Metrics.parse (w : World) (path : String) : Except (Option String) Node :=
  let filename := lastSegment path
  let extension := String.mk (lastSplitChars '.' filename.data)
  let isTs := decide (extension ∈ ["ts", "tsx"])
  let plugins :=
    if isTs then basePlugins ++ ["typescript"]
    else if extension ∈ ["jsx"] then basePlugins ++ ["jsx"]
    else basePlugins
  match w.babel path plugins with
  | .ok parsed => .ok parsed
  | .error e =>
    if e = some "MissingOneOfPlugins" then w.babel path (plugins ++ ["jsx"])
    else if e = some "UnexpectedToken" then
      if isTs then w.babel path (plugins ++ ["jsx"])
      else w.babel path (plugins ++ ["flow"])
    else .error e

/-! ### The first pass of `Metrics.calcForDir` (lines 327-391) -/

/-- The assignments of lines 351-363. -/
def setFileMetrics (w : World) (path : String) (complex : ModuleReport) (metrics : Record) :
    Record :=
  ((((((((((((metrics.set "locM" (RecVal.num complex.aggregate.sloc.physical)).set
    "loccM" (RecVal.num (w.comments path))).set
    "loclM" (RecVal.num complex.aggregate.sloc.logical)).set
    "ccM" (RecVal.num complex.aggregate.cyclomatic)).set
    "hbugsM" (RecVal.num complex.aggregate.halstead.bugs)).set
    "hdiffM" (RecVal.num complex.aggregate.halstead.difficulty)).set
    "heffortM" (RecVal.num complex.aggregate.halstead.effort)).set
    "hlengthM" (RecVal.num complex.aggregate.halstead.length)).set
    "htimeM" (RecVal.num complex.aggregate.halstead.time)).set
    "hvocabM" (RecVal.num complex.aggregate.halstead.vocabulary)).set
    "hvolM" (RecVal.num complex.aggregate.halstead.volume)).set
    "paramM" (RecVal.num complex.aggregate.paramCount)).set
    "maintainM" (RecVal.num complex.maintainability)

/-- The body of the loop over `complex.methods` (lines 365-377). -/
def methodStep (metrics : Record) (method : FunctionReport) : Record :=
  pushTo "paramF" method.paramCount
  (pushTo "hvolF" method.halstead.volume
  (pushTo "hvocabF" method.halstead.vocabulary
  (pushTo "htimeF" method.halstead.time
  (pushTo "hlengthF" method.halstead.length
  (pushTo "heffortF" method.halstead.effort
  (pushTo "hdiffF" method.halstead.difficulty
  (pushTo "hbugsF" method.halstead.bugs
  (pushTo "ccF" method.cyclomatic
  (pushTo "loclF" method.sloc.logical
  (pushTo "locF" method.sloc.physical
  (increment "noF" metrics)))))))))))

/-- The assignments of lines 379-382. -/
def setTreeMetrics (tree : Node) (complex : ModuleReport) (metrics : Record) : Record :=
  (((metrics.set "nofM" (RecVal.num (complex.methods.length : ℚ))).set
    "dpM" (RecVal.num (Metrics.depth tree : ℚ))).set
    "dpF" (RecVal.arr ((Metrics.eachFunction tree Metrics.depth).map (fun d => (d : ℚ))))).set
    "mcM" (RecVal.num (Metrics.calls tree : ℚ))

/-- The body of the loop of lines 383-385 for one entry. -/
def aggregateEntry (metrics : Record) (entry : String × RecVal) : Record :=
  match entry.2 with
  | RecVal.arr xs =>
    if xs.length > 0 then metrics.set entry.1 (RecVal.aggr (Metrics.aggregatesFromArr xs))
    else metrics
  | _ => metrics

/-- The loop `Object.entries(metrics).forEach(...)` of lines 383-385. -/
def aggregateArrays (metrics : Record) : Record :=
  metrics.entries.foldl aggregateEntry metrics

/-- The record stored at `result[paths[i]]` when the iteration for `path` is over: the
initial `values` when `this.parse` or `this.complexity` threw (the `catch` of line 387),
the completed record otherwise. -/
def analyseFile (w : World) (path : String) : Record :=
  match Metrics.parse w path with
  | .error _ => initialValues
  | .ok tree =>
    match w.complexity tree with
    | none => initialValues
    | some complex =>
      aggregateArrays (setTreeMetrics tree complex
        (complex.methods.foldl methodStep (setFileMetrics w path complex initialValues)))

/-- The object `result` after the loop of lines 327-391. -/
def firstPass (w : World) (paths : List String) : JSObject Record :=
  paths.foldl (fun result path => result.set path (analyseFile w path)) JSObject.empty

/-! ### `Metrics.importsPerModule` (lines 173-201) -/

/-- The call `hay.includes(needle)` on the characters of two strings. -/
def includesChars : List Char → List Char → Bool
  | [], needle => needle.isEmpty
  | c :: rest, needle => needle.isPrefixOf (c :: rest) || includesChars rest needle

/-- The call `hay.includes(needle)`. -/
def includes (hay needle : String) : Bool :=
  includesChars hay.data needle.data

/-- The value of `importPath` after lines 180-186 when it is neither `null` nor
`undefined`, `none` otherwise. -/
def importPathOf (node : Node) : Option LitValue :=
  if node.type = "ImportDeclaration" then node.info.sourceValue
  else if node.type = "CallExpression" ∧
      (node.info.calleeName = some "require" ∨ node.info.calleeName = some "import") then
    node.info.argValue
  else none

/-- The loop `Object.keys(metrics).forEach(...)` of lines 190-192. -/
def bumpAfferent (name : String) (metrics : JSObject Record) : JSObject Record :=
  metrics.keys.foldl
    (fun m tempPath =>
      if includes (lastSegment tempPath) name then
        match m.get tempPath with
        | some record => m.set tempPath (increment "acM" record)
        | none => m
      else m)
    metrics

/-- The object `metrics` during the walk of one file, and whether `enter` has thrown.
Once it has, the walk is abandoned, so the later calls of `enter` do nothing. -/
structure ImportState where
  metrics : JSObject Record
  thrown : Bool

/-- The callback `enter` of `Metrics.importsPerModule` for the file `path`.  It throws a
`TypeError` when `metrics[path]` is `undefined`, and when `importPath` is not a string
(`importPath.split` is not a function), after `ecM` was incremented. -/
def importEnter (path : String) (node : Node) (state : ImportState) : ImportState :=
  if state.thrown then state
  else
    match importPathOf node with
    | none => state
    | some importPath =>
      match state.metrics.get path with
      | none => { state with thrown := true }
      | some record =>
        match importPath with
        | LitValue.nonString =>
          { metrics := state.metrics.set path (increment "ecM" record), thrown := true }
        | LitValue.str s =>
          { metrics := bumpAfferent (lastSegment s)
              (state.metrics.set path (increment "ecM" record))
            thrown := false }

/-- The body of `filePaths.forEach` (lines 174-200): an exception of `this.parse` or of
the walk is caught, and what the walk did before it threw stays done. -/
def importsOfFile (w : World) (metrics : JSObject Record) (path : String) : JSObject Record :=
  match Metrics.parse w path with
  | .error _ => metrics
  | .ok tree =>
    (walk (importEnter path) (fun _ state => state) tree
      { metrics := metrics, thrown := false }).metrics

/-- The function `Metrics.importsPerModule(filePaths, metrics)`; the object `metrics`
it mutates is returned. -/
def Metrics.importsPerModule (w : World) (filePaths : List String)
    (metrics : JSObject Record) : JSObject Record :=
  filePaths.foldl (importsOfFile w) metrics

/-- The function `Metrics.calcForDir` from the paths that `getFilePaths` returned on.
Reading a discovered file does not fail, so the outer `catch` of line 395 is never
taken. -/
def calcForPaths (w : World) (paths : List String) : JSObject Record :=
  Metrics.importsPerModule w paths (firstPass w paths)

/-! ### From `calcForDir` to `calcScores` -/

/-- A record value as `calcScores` sees it: a number is a scalar, an array is the
object of its index entries, an aggregate is the object of its six fields. -/
def toMetricValue : RecVal → MetricValue
  | RecVal.num q => MetricValue.scalar (JSVal.num q)
  | RecVal.arr xs =>
    MetricValue.object (xs.enum.map (fun entry => (toString entry.1, JSVal.num entry.2)))
  | RecVal.aggr a =>
    MetricValue.object [("total", a.total), ("avg", a.avg), ("med", a.med), ("min", a.min),
      ("max", a.max), ("values", JSVal.array a.values)]

/-- The argument `metrics` of `calcScores` when it is the result of `calcForDir`. -/
def toScoresInput (result : JSObject Record) : List (String × List (String × MetricValue)) :=
  result.entries.map
    (fun entry => (entry.1, entry.2.entries.map (fun field => (field.1, toMetricValue field.2))))

/-! ### Vocabulary for the claims about records -/

/-- The expression `result[path][key]`. -/
def field (result : JSObject Record) (path key : String) : Option RecVal :=
  (result.get path).bind (fun record => record.get key)

/-- A syntax tree with a call `require(1)` followed by a call `require('x')`. -/
def twoRequires : Node :=
  plainNode "Program"
    [Node.mk { type := "CallExpression", sourceValue := none, calleeName := some "require",
               argValue := some LitValue.nonString } [],
     Node.mk { type := "CallExpression", sourceValue := none, calleeName := some "require",
               argValue := some (LitValue.str "x") } []]

/-- A syntax tree with the single call `require('./utils')`. -/
def requiresUtils : Node :=
  plainNode "Program"
    [Node.mk { type := "CallExpression", sourceValue := none, calleeName := some "require",
               argValue := some (LitValue.str "./utils") } []]

/-- A complexity report of a module without functions. -/
def emptyReport : ModuleReport :=
  { aggregate := { sloc := { physical := 1, logical := 1 }, cyclomatic := 1,
                   halstead := { bugs := 0, difficulty := 0, effort := 0, length := 0,
                                 time := 0, vocabulary := 0, volume := 0 },
                   paramCount := 0 }
    maintainability := 100
    methods := [] }

/-- A world in which every file parses to the tree given and is analysed to
`emptyReport`. -/
def worldOf (tree : Node) : World :=
  { babel := fun _ _ => Except.ok tree
    complexity := fun _ => some emptyReport
    comments := fun _ => 0 }

/-- A world in which no file parses. -/
def brokenWorld : World :=
  { babel := fun _ _ => Except.error (some "UnexpectedToken")
    complexity := fun _ => some emptyReport
    comments := fun _ => 0 }

/-- A syntax tree with the single dynamic import `import('./d')`: with the `estree`
plugin the parser gives the call as an `ImportExpression` node, whose `source` is the
literal. -/
def dynamicImport : Node :=
  plainNode "Program"
    [plainNode "ExpressionStatement"
      [Node.mk { type := "ImportExpression", sourceValue := some (LitValue.str "./d"),
                 calleeName := none, argValue := none }
        [plainNode "Literal" []]]]

/-- An import statement in the words of the specification: an import declaration, or a
`require` or `import` call, with a literal source argument.  An `import` call is an
`ImportExpression` node, or a call whose callee is named `import`. -/
def isImportStatement (node : Node) : Bool :=
  (node.type = "ImportDeclaration" && node.info.sourceValue.isSome) ||
  (node.type = "CallExpression" &&
    (node.info.calleeName = some "require" || node.info.calleeName = some "import") &&
    node.info.argValue.isSome) ||
  (node.type = "ImportExpression" && node.info.sourceValue.isSome)

/-- A syntax tree with a function expression that has a block body and an arrow
function without one. -/
def twoFunctions : Node :=
  plainNode "Program"
    [plainNode "FunctionExpression" [blockNode []],
     plainNode "ArrowFunctionExpression" []]

/-- A complexity report of a module with two functions. -/
def twoMethodReport : ModuleReport :=
  { aggregate := { sloc := { physical := 13, logical := 9 }, cyclomatic := 6,
                   halstead := { bugs := 1, difficulty := 4, effort := 80, length := 30,
                                 time := 5, vocabulary := 12, volume := 20 },
                   paramCount := 3 }
    maintainability := 90
    methods :=
      [{ sloc := { physical := 3, logical := 2 }, cyclomatic := 2,
         halstead := { bugs := 1, difficulty := 3, effort := 30, length := 10,
                       time := 2, vocabulary := 5, volume := 8 },
         paramCount := 1 },
       { sloc := { physical := 10, logical := 7 }, cyclomatic := 5,
         halstead := { bugs := 2, difficulty := 4, effort := 50, length := 20,
                       time := 3, vocabulary := 7, volume := 12 },
         paramCount := 2 }] }

/-- A world in which every file parses to the tree given and is analysed to the report
given. -/
def worldWith (tree : Node) (report : ModuleReport) : World :=
  { babel := fun _ _ => Except.ok tree
    complexity := fun _ => some report
    comments := fun _ => 0 }

/-- What the loop of lines 383-385 makes of one value: a non-empty array becomes its
aggregate, every other value stays. -/
def aggregated : RecVal → RecVal
  | RecVal.arr xs => if xs.length > 0 then RecVal.aggr (Metrics.aggregatesFromArr xs) else RecVal.arr xs
  | other => other

/-- The per-function properties filled from `complex.methods`, each with the field of a
method report that is pushed to it. -/
def methodColumns : List (String × (FunctionReport → ℚ)) :=
  [("locF", fun method => method.sloc.physical),
   ("loclF", fun method => method.sloc.logical),
   ("ccF", fun method => method.cyclomatic),
   ("hbugsF", fun method => method.halstead.bugs),
   ("hdiffF", fun method => method.halstead.difficulty),
   ("heffortF", fun method => method.halstead.effort),
   ("hlengthF", fun method => method.halstead.length),
   ("htimeF", fun method => method.halstead.time),
   ("hvocabF", fun method => method.halstead.vocabulary),
   ("hvolF", fun method => method.halstead.volume),
   ("paramF", fun method => method.paramCount)]

/-- The per-function arrays of a file that was parsed to `tree` and analysed to
`complex`, as collected before the aggregation: the eleven columns of the method
reports, and `dpF`, the depths of the function nodes. -/
def collectedArrays (tree : Node) (complex : ModuleReport) : List (String × List ℚ) :=
  methodColumns.map (fun column => (column.1, complex.methods.map column.2)) ++
    [("dpF", (Metrics.eachFunction tree Metrics.depth).map (fun d => (d : ℚ)))]

/-- The scalar file-level metrics assigned in the first pass to a file that was parsed
to `tree` and analysed to `complex`. -/
def assignedScalars (w : World) (path : String) (tree : Node) (complex : ModuleReport) :
    List (String × ℚ) :=
  [("noF", (complex.methods.length : ℚ)),
   ("locM", complex.aggregate.sloc.physical),
   ("loccM", w.comments path),
   ("loclM", complex.aggregate.sloc.logical),
   ("ccM", complex.aggregate.cyclomatic),
   ("hbugsM", complex.aggregate.halstead.bugs),
   ("hdiffM", complex.aggregate.halstead.difficulty),
   ("heffortM", complex.aggregate.halstead.effort),
   ("hlengthM", complex.aggregate.halstead.length),
   ("htimeM", complex.aggregate.halstead.time),
   ("hvocabM", complex.aggregate.halstead.vocabulary),
   ("hvolM", complex.aggregate.halstead.volume),
   ("paramM", complex.aggregate.paramCount),
   ("maintainM", complex.maintainability),
   ("nofM", (complex.methods.length : ℚ)),
   ("dpM", (Metrics.depth tree : ℚ)),
   ("mcM", (Metrics.calls tree : ℚ))]

/-- The record of a successfully analysed file before the aggregation loop. -/
def collected (w : World) (path : String) (tree : Node) (complex : ModuleReport) : Record :=
  setTreeMetrics tree complex
    (complex.methods.foldl methodStep (setFileMetrics w path complex initialValues))

/-- Two result objects have the same keys and the same records, except possibly the
record of the file `f`, which is present in both or in neither. -/
def AgreeOff (f : String) (m1 m2 : JSObject Record) : Prop :=
  m1.keys = m2.keys ∧ (∀ k, k ≠ f → m1.get k = m2.get k) ∧
    (m1.get f).isSome = (m2.get f).isSome

/-- A world in which `broken.js` does not parse, with or without the retry, and every
other file parses to an empty program. -/
def partlyBrokenWorld : World :=
  { babel := fun path _ =>
      if path = "broken.js" then Except.error (some "UnexpectedToken")
      else Except.ok (plainNode "Program" [])
    complexity := fun _ => some emptyReport
    comments := fun _ => 0 }

/-! ## `Metrics.getFilePaths` (metrics.js, lines 9-26 and 213-234) -/

/-- An entry returned by `fs.readdirSync(dirPath, \x7b withFileTypes: true \x7d)`: an entry
for which `isDirectory()` is true, with the entries of that directory, or any other
entry.  Names of directory entries contain no `/`. -/
inductive Dirent where
  | file (name : String)
  | dir (name : String) (entries : List Dirent)

/-- The array `#fileTypes`. -/
def fileTypes : List String := ["js", "ts", "cjs", "mjs", "es6", "jsx", "tsx", "es", "gs"]

/-- The test of line 224: the name contains `node_modules`, `instrumented`,
`bower_components` or `fixture`. -/
def excludedName (name : String) : Bool :=
  includes name "node_modules" || includes name "instrumented" ||
    includes name "bower_components" || includes name "fixture"

/-- A match of `(?<!crea|execu)test|spec|cypress` that starts in `rest`, where `before`
holds the characters in front of `rest`. -/
def testRegexFrom (before : List Char) : List Char → Bool
  | [] => false
  | c :: rest =>
    ("test".data.isPrefixOf (c :: rest) && !("crea".data.isSuffixOf before) &&
        !("execu".data.isSuffixOf before)) ||
      "spec".data.isPrefixOf (c :: rest) || "cypress".data.isPrefixOf (c :: rest) ||
      testRegexFrom (before ++ [c]) rest

/-- The call `Metrics.#testRegex.test(s)`. -/
def testRegexTest (s : String) : Bool :=
  testRegexFrom [] s.data

/-- The call `name.toLowerCase()`.  Only the letters `A` to `Z` are mapped; no other
character is mapped by JavaScript to a letter that occurs in `#testRegex`, so the
test of line 225 is not affected. -/
def toLowerCase (name : String) : String :=
  String.mk (name.data.map Char.toLower)

/-- The tests of lines 224-225: the directory is not descended into. -/
def excludedDir (name : String) : Bool :=
  excludedName name || testRegexTest (toLowerCase name)

/-- The call `path.extname(name)` on a name without `/`: the part from the last `.` on,
and the empty string when there is no `.`, when the only `.` is the first character,
or when the name is `..`. -/
def extname (name : String) : String :=
  let chars := name.data
  if '.' ∉ chars then ""
  else
    let ext := lastSplitChars '.' chars
    let stem := chars.take (chars.length - ext.length - 1)
    if stem = [] then ""
    else if chars = ['.', '.'] then ""
    else String.mk ('.' :: ext)

/-- The test of line 228: `#fileTypes` includes `path.extname(name).replace(/\\./, '')`
(the `replace` removes the first `.`). -/
def hasFileType (name : String) : Bool :=
  decide (String.mk ((extname name).data.erase '.') ∈ fileTypes)

/-- The test `name.match(Metrics.#skipFilesRegex) !== null` of line 229. -/
def skipFile (name : String) : Bool :=
  includes name "babelrc" || includes name "eslintrc" || includes name "prettierrc" ||
    includes name "commitlintrc" || includes name "Gruntfile" || includes name ".min" ||
    includes name "fixture" || includes name ".conf"

mutual
/-- The body of the loop of `Metrics.getFilePaths(dirPath)` for one entry: the paths it
pushes. -/
def direntPaths (dirPath : String) : Dirent → List String
  | Dirent.dir name entries =>
    if excludedName name then []
    else if testRegexTest (toLowerCase name) then []
    else getFilePaths (dirPath ++ name ++ "/") entries
  | Dirent.file name =>
    if hasFileType name then
      if skipFile name then [] else [dirPath ++ name]
    else []
/-- The function `Metrics.getFilePaths(dirPath)`, where `dirs` is what `readdirSync`
returns for `dirPath`. -/
def getFilePaths (dirPath : String) : List Dirent → List String
  | [] => []
  | entry :: rest => direntPaths dirPath entry ++ getFilePaths dirPath rest
end

/-- The function `Metrics.calcForDir(dirPath)` on the directory listed by `dirs`. -/
def Metrics.calcForDir (w : World) (dirPath : String) (dirs : List Dirent) : JSObject Record :=
  calcForPaths w (getFilePaths dirPath dirs)

/-! ### Vocabulary for the claim about `getFilePaths` -/

mutual
/-- Every file below an entry, once, each with the names of the directories on the way
from the root down to it (`chain` holds those above the entry). -/
def Dirent.files (chain : List String) : Dirent → List (List String × String)
  | Dirent.file name => [(chain, name)]
  | Dirent.dir name entries => filesBelow (chain ++ [name]) entries
/-- Every file below a list of entries, in order. -/
def filesBelow (chain : List String) : List Dirent → List (List String × String)
  | [] => []
  | entry :: rest => entry.files chain ++ filesBelow chain rest
end

/-- The three conditions for a file to be returned: no directory on the way down to it
is excluded, its extension is in `#fileTypes`, and its name does not match the skip
pattern. -/
def kept (file : List String × String) : Bool :=
  file.1.all (fun name => !excludedDir name) && hasFileType file.2 && !skipFile file.2

/-- The path built for a file: `dirPath`, then each directory name followed by `/`, then
the file name. -/
def pathOf (dirPath : String) (file : List String × String) : String :=
  file.1.foldl (fun path name => path ++ name ++ "/") dirPath ++ file.2

/-- A directory tree with sources, a minified file, a test directory and a
`node_modules` directory. -/
def sampleTree : List Dirent :=
  [Dirent.file "app.min.js",
   Dirent.file "index.js",
   Dirent.dir "src" [Dirent.file "utils.ts", Dirent.file "README.md",
     Dirent.dir "Creatests" [Dirent.file "utils.ts"],
     Dirent.dir "__tests__" [Dirent.file "utils.test.ts"]],
   Dirent.dir "node_modules" [Dirent.dir "lib" [Dirent.file "utils.ts"]]]

/-! ## Comparing computed numbers -/

/-- The relational comparison `a < b` of two computed numbers: false as soon as one of
them is `NaN`.  (`a > b` is `b < a`.) -/
def JSNum.lt : JSNum → JSNum → Bool
  | JSNum.fin a, JSNum.fin b => decide (a < b)
  | _, _ => false

/-- The relational comparison `a <= b` of two computed numbers: false as soon as one of
them is `NaN`. -/
def JSNum.le : JSNum → JSNum → Bool
  | JSNum.fin a, JSNum.fin b => decide (a ≤ b)
  | _, _ => false

/-- A reference dataset with an empty reference sequence for the metric `locM`. -/
def emptySeqData : ReferenceDataset :=
  { metrics := ["ccM", "locM"]
    values := fun metric =>
      if metric = "ccM" then some (RefEntry.flat [1, 2, 4, 8])
      else if metric = "locM" then some (RefEntry.flat [])
      else none
    moduleRanks := [10, 50, 90] }

/-- Two file records with one eligible metric each: `a.js` has `locM`, whose reference
sequence in `emptySeqData` is empty, and `b.js` has `ccM`. -/
def emptySeqMetrics : List (String × List (String × MetricValue)) :=
  [("a.js", [("locM", MetricValue.scalar (JSVal.num 5))]),
   ("b.js", [("ccM", MetricValue.scalar (JSVal.num 3))])]

/-! ## `calcScores` with the rounding of binary64

A second embedding of the arithmetic of `calcScores`, in which every operation on
doubles is followed by the rounding of IEEE 754 binary64 (to nearest, ties to even).
Overflow to an infinite double and subnormal doubles are not modelled: the numbers of
`calcScores` are quotients of counts, multiples of them by `100`, sums of those and
differences from `100`.  The operations on integers (`indexOf(...) + 1`, `total++`) are
exact. -/

/-- The integer nearest to `q`, the even one of the two when `q` is half-way. -/
def roundHalfEven (q : ℚ) : ℤ :=
  if q - ⌊q⌋ < 1 / 2 then ⌊q⌋
  else if 1 / 2 < q - ⌊q⌋ then ⌊q⌋ + 1
  else if ⌊q⌋ % 2 = 0 then ⌊q⌋ else ⌊q⌋ + 1

/-- The double nearest to a positive number `x`: with `2 ^ e ≤ x < 2 ^ (e + 1)`, the
doubles around `x` are the multiples of `2 ^ (e - 52)` (a significand of 53 bits). -/
def roundPos64 (x : ℚ) : ℚ :=
  (roundHalfEven (x / 2 ^ (Int.log 2 x - 52)) : ℚ) * 2 ^ (Int.log 2 x - 52)

/-- The double nearest to `x`, ties to even. -/
def round64 (x : ℚ) : ℚ :=
  if x = 0 then 0 else if 0 < x then roundPos64 x else - roundPos64 (-x)

/-- The sum `a + b` of two doubles. -/
def JSNum.add64 : JSNum → JSNum → JSNum
  | .fin a, .fin b => .fin (round64 (a + b))
  | _, _ => .nan

/-- The difference `a - b` of two doubles. -/
def JSNum.sub64 : JSNum → JSNum → JSNum
  | .fin a, .fin b => .fin (round64 (a - b))
  | _, _ => .nan

/-- The product `a * b` of two doubles. -/
def JSNum.mul64 : JSNum → JSNum → JSNum
  | .fin a, .fin b => .fin (round64 (a * b))
  | _, _ => .nan

/-- The quotient `a / n` of a double by a count (`length` or `total`); `0 / 0` is `NaN`,
and a non-zero number is never divided by `0` in `calcScores`. -/
def JSNum.divCount64 : JSNum → Nat → JSNum
  | .fin a, n => if n = 0 then .nan else .fin (round64 (a / (n : ℚ)))
  | .nan, _ => .nan

/-- The expression `(seq.indexOf(value) + 1) / seq.length * 100` in binary64. -/
def normalizedRank64 (seq : List ℚ) (value : JSVal) : JSNum :=
  ((JSNum.fin ((indexOf seq value + 1 : Int) : ℚ)).divCount64 seq.length).mul64 (JSNum.fin 100)

/-- The object literal pushed for the metric key `key`, reference sequence `seq` and
value `value`, with `normalizedRank` in binary64. -/
def rankedMetric64 (key : String) (seq : List ℚ) (value : JSVal) : RankedMetric :=
  { metric := key
    value := value
    rank := calcRank seq value
    normalizedRank := normalizedRank64 seq value }

/-- The body of the inner `forEach` over `Object.entries(value)` (lines 26-34), as
`aggrStep`, pushing `rankedMetric64`. -/
def aggrStep64 (data : ReferenceDataset) (metric : String) (ranks : List RankedMetric)
    (entry : String × JSVal) : Option (List RankedMetric) :=
  if entry.1 = "values" ∨ ¬ (metric ++ "_" ++ entry.1) ∈ data.metrics then some ranks
  else
    match lookupNested data metric entry.1 with
    | none => none
    | some seq => some (ranks ++ [rankedMetric64 (metric ++ "_" ++ entry.1) seq entry.2])

/-- The body of the `forEach` over `Object.entries(fileMetrics)` (lines 24-45), as
`metricStep`, pushing `rankedMetric64`. -/
def metricStep64 (data : ReferenceDataset) (ranks : List RankedMetric)
    (entry : String × MetricValue) : Option (List RankedMetric) :=
  match entry.2 with
  | .object entries => entries.foldlM (aggrStep64 data entry.1) ranks
  | .scalar value =>
    if ¬ entry.1 ∈ data.metrics then some ranks
    else
      match lookupFlat data entry.1 with
      | none => none
      | some seq => some (ranks ++ [rankedMetric64 entry.1 seq value])

/-- The list `levels[file].ranks` after the first pass over one file record, in
binary64. -/
def fileRanks64 (data : ReferenceDataset) (fileMetrics : List (String × MetricValue)) :
    Option (List RankedMetric) :=
  fileMetrics.foldlM (metricStep64 data) []

/-- The pair `(rankAcc, total)` after the loop of lines 51-54: every `rankAcc +=` is
rounded. -/
def accumulate64 (ranks : List RankedMetric) : JSNum × Nat :=
  ranks.foldl (fun acc rankInfo => (acc.1.add64 rankInfo.normalizedRank, acc.2 + 1))
    (JSNum.fin 0, 0)

/-- The value `rankAcc / total` stored in `fileData.accumulatedRank` (line 55), in
binary64. -/
def accumulatedRank64 (ranks : List RankedMetric) : JSNum :=
  (accumulate64 ranks).1.divCount64 (accumulate64 ranks).2

/-- The list element built for one file (lines 59-75), in binary64; the comparisons of
`calcRank` are exact. -/
def fileScore64 (data : ReferenceDataset) (file : String) (ranks : List RankedMetric) :
    FileScore :=
  { file := file
    rank := calcRank data.moduleRanks (JSVal.number (accumulatedRank64 ranks))
    metricRanks := ranks
    accumulatedRank := accumulatedRank64 ranks
    score := (JSNum.fin 100).sub64 (accumulatedRank64 ranks) }

/-- The object `levels` after the first pass (lines 19-46), in binary64. -/
def calcLevels64 (data : ReferenceDataset) :
    List (String × List (String × MetricValue)) → Option (List (String × List RankedMetric))
  | [] => some []
  | entry :: rest =>
    match fileRanks64 data entry.2 with
    | none => none
    | some ranks =>
      match calcLevels64 data rest with
      | none => none
      | some levels => some ((entry.1, ranks) :: levels)

/-- The list of lines 65-75 before it is sorted, in binary64. -/
def unsortedScores64 (data : ReferenceDataset) (levels : List (String × List RankedMetric)) :
    List FileScore :=
  levels.map (fun entry => fileScore64 data entry.1 entry.2)

/-- The function `calcScores(metrics)` in binary64: as `calcScores`, with every
operation on doubles rounded. -/
def calcScores64 (data : ReferenceDataset)
    (metrics : List (String × List (String × MetricValue))) : Option (List FileScore) :=
  (calcLevels64 data metrics).map
    (fun levels => (unsortedScores64 data levels).insertionSort (fun a b => b.rank ≤ a.rank))

/-- A ranked metric was pushed for the file record `fileMetrics` in binary64. -/
def PushedFor64 (data : ReferenceDataset) (fileMetrics : List (String × MetricValue))
    (rm : RankedMetric) : Prop :=
  rm.metric ∈ data.metrics ∧
    ∃ seq, Consults data fileMetrics seq ∧ rm = rankedMetric64 rm.metric seq rm.value

/-- A reference dataset with two scalar metrics, of three and of six reference values. -/
def roundData : ReferenceDataset :=
  { metrics := ["ccM", "locM"]
    values := fun metric =>
      if metric = "ccM" then some (RefEntry.flat [1, 2, 3])
      else if metric = "locM" then some (RefEntry.flat [1, 2, 3, 4, 5, 6])
      else none
    moduleRanks := [10, 25, 90] }

/-- Two file records with the two metrics of `roundData`. -/
def roundMetrics : List (String × List (String × MetricValue)) :=
  [("a.js", [("ccM", MetricValue.scalar (JSVal.num 7)),
             ("locM", MetricValue.scalar (JSVal.num 3))]),
   ("b.js", [("ccM", MetricValue.scalar (JSVal.num 1)),
             ("locM", MetricValue.scalar (JSVal.num 1))])]

/-! ## Facts about `indexOf` and the scan of `calcRank` -/

theorem indexOfFrom_range (xs : List ℚ) (v : JSVal) (i : Nat) :
    indexOfFrom xs v i = -1 ∨
      ((i : Int) ≤ indexOfFrom xs v i ∧ indexOfFrom xs v i < (i : Int) + xs.length) := by
  induction xs generalizing i with
  | nil => left; rfl
  | cons x rest ih =>
    unfold indexOfFrom
    split
    · right; simp only [List.length_cons]; push_cast; omega
    · rcases ih (i + 1) with h | ⟨h1, h2⟩
      · left; exact h
      · right; simp only [List.length_cons]; push_cast at h1 h2 ⊢; omega

theorem firstGreaterFrom_range (xs : List ℚ) (v : JSVal) (i : Nat) :
    (i : Int) ≤ firstGreaterFrom xs v i ∧ firstGreaterFrom xs v i ≤ (i : Int) + xs.length := by
  induction xs generalizing i with
  | nil => simp [firstGreaterFrom]
  | cons x rest ih =>
    unfold firstGreaterFrom
    split
    · simp only [List.length_cons]; push_cast; omega
    · have h := ih (i + 1)
      simp only [List.length_cons]; push_cast at h ⊢; omega

theorem strictEq_num (r q : ℚ) : strictEq r (JSVal.num q) = decide (r = q) := rfl

theorem jsGt_num (r q : ℚ) : jsGt r (JSVal.num q) = decide (q < r) := rfl

/-- When no element is strictly equal to `v`, `indexOf` answers `-1`. -/
theorem indexOfFrom_not_found (xs : List ℚ) (v : JSVal) (i : Nat)
    (h : ∀ x ∈ xs, strictEq x v = false) : indexOfFrom xs v i = -1 := by
  induction xs generalizing i with
  | nil => rfl
  | cons x rest ih =>
    unfold indexOfFrom
    rw [h x (List.mem_cons_self _ _)]
    simpa using ih (i + 1) (fun y hy => h y (List.mem_cons_of_mem _ hy))

/-- When `q` occurs, `indexOf` answers the first position holding `q`. -/
theorem indexOfFrom_found (xs : List ℚ) (q : ℚ) (i : Nat) (hmem : q ∈ xs) :
    ∃ j, ∃ hj : j < xs.length, xs[j] = q ∧
      (∀ k (hk : k < xs.length), k < j → xs[k] ≠ q) ∧
      indexOfFrom xs (JSVal.num q) i = ((i + j : Nat) : Int) := by
  induction xs generalizing i with
  | nil => cases hmem
  | cons x rest ih =>
    by_cases hx : x = q
    · refine ⟨0, by simp, by simpa using hx, fun k _ hk => absurd hk (Nat.not_lt_zero k), ?_⟩
      unfold indexOfFrom
      simp [strictEq_num, hx]
    · have hmem2 : q ∈ rest := by
        rcases List.mem_cons.mp hmem with h | h
        · exact absurd h.symm hx
        · exact h
      obtain ⟨j, hj, hq, hfirst, hidx⟩ := ih (i + 1) hmem2
      refine ⟨j + 1, by simpa using hj, by simpa using hq, ?_, ?_⟩
      · intro k hk hkj
        cases k with
        | zero => simpa using hx
        | succ k =>
          have hk2 : k < rest.length := by simpa using hk
          simpa using hfirst k hk2 (by omega)
      · unfold indexOfFrom
        simp only [strictEq_num, hx, decide_False, Bool.false_eq_true, if_false]
        rw [hidx]; congr 1; omega

/-- The scan for the first greater element stops at the first position whose element
is greater than `v`, or at the end of the array. -/
theorem firstGreaterFrom_spec (xs : List ℚ) (v : JSVal) (i : Nat) :
    ∃ k, k ≤ xs.length ∧ firstGreaterFrom xs v i = ((i + k : Nat) : Int) ∧
      (∀ j (hj : j < xs.length), j < k → jsGt xs[j] v = false) ∧
      (∀ hk : k < xs.length, jsGt xs[k] v = true) := by
  induction xs generalizing i with
  | nil => exact ⟨0, by simp, by simp [firstGreaterFrom], by simp, by simp⟩
  | cons x rest ih =>
    by_cases hx : jsGt x v = true
    · refine ⟨0, by simp, ?_, fun j _ hj => absurd hj (Nat.not_lt_zero j), fun _ => by simpa using hx⟩
      unfold firstGreaterFrom
      simp [hx]
    · obtain ⟨k, hk, hval, hbefore, hat⟩ := ih (i + 1)
      refine ⟨k + 1, by simpa using hk, ?_, ?_, ?_⟩
      · unfold firstGreaterFrom
        simp only [hx, Bool.false_eq_true, if_false]
        rw [hval]; congr 1; omega
      · intro j hj hjk
        cases j with
        | zero => simpa using hx
        | succ j =>
          have hj2 : j < rest.length := by simpa using hj
          simpa using hbefore j hj2 (by omega)
      · intro hk2
        have hk3 : k < rest.length := by simpa using hk2
        simpa using hat hk3

/-- On a sorted array the first position of an element `q` is the number of elements
below `q`. -/
theorem indexOfFrom_sorted (xs : List ℚ) (q : ℚ) (i : Nat) (hs : xs.Sorted (· ≤ ·))
    (hmem : q ∈ xs) :
    indexOfFrom xs (JSVal.num q) i = ((i + xs.countP (fun r => decide (r < q)) : Nat) : Int) := by
  induction xs generalizing i with
  | nil => cases hmem
  | cons x rest ih =>
    have hle : ∀ y ∈ rest, x ≤ y := fun y hy => List.rel_of_sorted_cons hs y hy
    by_cases hx : x = q
    · have hzero : (x :: rest).countP (fun r => decide (r < q)) = 0 := by
        rw [List.countP_eq_zero]
        intro y hy
        have : x ≤ y := by
          rcases List.mem_cons.mp hy with h | h
          · exact h ▸ le_refl x
          · exact hle y h
        simp only [decide_eq_true_eq, not_lt]
        exact hx ▸ this
      unfold indexOfFrom
      simp [strictEq_num, hx, hzero]
      subst hx
      simpa using hzero
    · have hmem2 : q ∈ rest := by
        rcases List.mem_cons.mp hmem with h | h
        · exact absurd h.symm hx
        · exact h
      have hlt : x < q := lt_of_le_of_ne (hle q hmem2) hx
      unfold indexOfFrom
      simp only [strictEq_num, hx, decide_False, Bool.false_eq_true, if_false]
      rw [ih (i + 1) (List.Sorted.of_cons hs) hmem2, List.countP_cons]
      simp only [hlt, decide_True, if_true]
      congr 1; omega

/-- On a sorted array the scan for the first element greater than `q` stops after the
elements that are at most `q`. -/
theorem firstGreaterFrom_sorted (xs : List ℚ) (q : ℚ) (i : Nat) (hs : xs.Sorted (· ≤ ·)) :
    firstGreaterFrom xs (JSVal.num q) i
      = ((i + xs.countP (fun r => decide (r ≤ q)) : Nat) : Int) := by
  induction xs generalizing i with
  | nil => simp [firstGreaterFrom]
  | cons x rest ih =>
    have hle : ∀ y ∈ rest, x ≤ y := fun y hy => List.rel_of_sorted_cons hs y hy
    by_cases hx : q < x
    · have hzero : (x :: rest).countP (fun r => decide (r ≤ q)) = 0 := by
        rw [List.countP_eq_zero]
        intro y hy
        have : x ≤ y := by
          rcases List.mem_cons.mp hy with h | h
          · exact h ▸ le_refl x
          · exact hle y h
        simp only [decide_eq_true_eq, not_le]
        exact lt_of_lt_of_le hx this
      unfold firstGreaterFrom
      simp only [jsGt_num, hx, decide_True, if_true]
      rw [hzero]; rfl
    · unfold firstGreaterFrom
      simp only [jsGt_num, hx, decide_False, Bool.false_eq_true, if_false]
      rw [ih (i + 1) (List.Sorted.of_cons hs), List.countP_cons]
      simp only [not_lt.mp hx, decide_True, if_true]
      congr 1; omega

/-- The rank of a number on a sorted array: the number of elements below it, plus one
when the number itself occurs. -/
theorem calcRank_sorted (R : List ℚ) (q : ℚ) (hs : R.Sorted (· ≤ ·)) :
    calcRank R (JSVal.num q)
      = ((R.countP (fun r => decide (r < q)) + (if q ∈ R then 1 else 0) : Nat) : Int) := by
  unfold calcRank indexOf
  by_cases hmem : q ∈ R
  · rw [indexOfFrom_sorted R q 0 hs hmem]
    simp only [hmem, if_true]
    rw [if_pos (by omega)]
    push_cast; omega
  · have hnf : indexOfFrom R (JSVal.num q) 0 = -1 :=
      indexOfFrom_not_found R _ 0 (fun x hx => by
        rw [strictEq_num]; simp only [decide_eq_false_iff_not]; rintro rfl; exact hmem hx)
    rw [hnf, firstGreaterFrom_sorted R q 0 hs]
    simp only [hmem, if_false, ne_eq, not_true_eq_false]
    have : R.countP (fun r => decide (r ≤ q)) = R.countP (fun r => decide (r < q)) := by
      apply List.countP_congr
      intro x hx
      have hne : x ≠ q := by rintro rfl; exact hmem hx
      simp only [decide_eq_true_eq]
      exact ⟨fun h => lt_of_le_of_ne h hne, le_of_lt⟩
    rw [this]; simp

/-! ## Claims about `calcRank` -/

/-- C1: when the number `q` occurs in the reference sequence `R`, `calcRank(R, q)` is
the first index at which `q` occurs, plus one.  (Neither sortedness nor a separate
non-emptiness assumption is needed: an array in which `q` occurs is non-empty.) -/
theorem calcRank_of_occurring (R : List ℚ) (q : ℚ) (hmem : q ∈ R) :
    ∃ i, ∃ hi : i < R.length, R[i] = q ∧
      (∀ k (hk : k < R.length), k < i → R[k] ≠ q) ∧
      calcRank R (JSVal.num q) = (i : Int) + 1 := by
  obtain ⟨j, hj, hq, hfirst, hidx⟩ := indexOfFrom_found R q 0 hmem
  refine ⟨j, hj, hq, hfirst, ?_⟩
  unfold calcRank indexOf
  rw [hidx]
  simp only [Nat.zero_add]
  rw [if_pos (by omega)]

theorem calcRank_of_occurring_witness :
    (2 : ℚ) ∈ ([1, 2, 2, 3] : List ℚ) ∧
    ∃ i, ∃ hi : i < ([1, 2, 2, 3] : List ℚ).length, ([1, 2, 2, 3] : List ℚ)[i] = 2 ∧
      (∀ k (hk : k < ([1, 2, 2, 3] : List ℚ).length), k < i → ([1, 2, 2, 3] : List ℚ)[k] ≠ 2) ∧
      calcRank [1, 2, 2, 3] (JSVal.num 2) = (i : Int) + 1 :=
  ⟨by simp, calcRank_of_occurring [1, 2, 2, 3] 2 (by simp)⟩

/-- C2: when the number `q` does not occur in the sorted reference sequence `R`,
`calcRank(R, q)` is the insertion position `k` of `q`: no element before index `k` is
greater than `q`, the element at index `k` (when there is one) is greater than `q`,
`k` is the number of elements of `R` that are less than `q`, and `k` is the length of
`R` when no element is greater than `q`. -/
theorem calcRank_of_absent (R : List ℚ) (q : ℚ) (hs : R.Sorted (· ≤ ·)) (hnot : q ∉ R) :
    ∃ k : Nat, calcRank R (JSVal.num q) = (k : Int) ∧ k ≤ R.length ∧
      (∀ j (hj : j < R.length), j < k → ¬ q < R[j]) ∧
      (∀ hk : k < R.length, q < R[k]) ∧
      k = R.countP (fun r => decide (r < q)) ∧
      ((∀ r ∈ R, ¬ q < r) → k = R.length) := by
  have hnf : indexOfFrom R (JSVal.num q) 0 = -1 :=
    indexOfFrom_not_found R _ 0 (fun x hx => by
      rw [strictEq_num]; simp only [decide_eq_false_iff_not]; rintro rfl; exact hnot hx)
  obtain ⟨k, hk, hval, hbefore, hat⟩ := firstGreaterFrom_spec R (JSVal.num q) 0
  have hrank : calcRank R (JSVal.num q) = (k : Int) := by
    unfold calcRank indexOf
    rw [hnf, hval]; simp
  refine ⟨k, hrank, hk, ?_, ?_, ?_, ?_⟩
  · intro j hj hjk
    have := hbefore j hj hjk
    rw [jsGt_num] at this
    simpa using this
  · intro hk2
    have := hat hk2
    rw [jsGt_num] at this
    simpa using this
  · have h := calcRank_sorted R q hs
    rw [hrank] at h
    simp only [hnot, if_false, Nat.add_zero] at h
    exact_mod_cast h
  · intro hall
    by_contra hne
    have hk2 : k < R.length := lt_of_le_of_ne hk hne
    have := hat hk2
    rw [jsGt_num] at this
    exact hall R[k] (List.getElem_mem _) (by simpa using this)

theorem calcRank_of_absent_witness :
    ([1, 2, 2, 4] : List ℚ).Sorted (· ≤ ·) ∧ (3 : ℚ) ∉ ([1, 2, 2, 4] : List ℚ) ∧
    ∃ k : Nat, calcRank [1, 2, 2, 4] (JSVal.num 3) = (k : Int) ∧
      k ≤ ([1, 2, 2, 4] : List ℚ).length ∧
      (∀ j (hj : j < ([1, 2, 2, 4] : List ℚ).length), j < k → ¬ (3 : ℚ) < ([1, 2, 2, 4] : List ℚ)[j]) ∧
      (∀ hk : k < ([1, 2, 2, 4] : List ℚ).length, (3 : ℚ) < ([1, 2, 2, 4] : List ℚ)[k]) ∧
      k = ([1, 2, 2, 4] : List ℚ).countP (fun r => decide (r < 3)) ∧
      ((∀ r ∈ ([1, 2, 2, 4] : List ℚ), ¬ (3 : ℚ) < r) → k = ([1, 2, 2, 4] : List ℚ).length) :=
  ⟨by norm_num [List.Sorted], by norm_num,
    calcRank_of_absent [1, 2, 2, 4] 3 (by norm_num [List.Sorted]) (by norm_num)⟩

theorem countP_lt_mono (R : List ℚ) (a b : ℚ) (h : a ≤ b) :
    R.countP (fun r => decide (r < a)) ≤ R.countP (fun r => decide (r < b)) := by
  induction R with
  | nil => simp
  | cons x rest ih =>
    rw [List.countP_cons, List.countP_cons]
    by_cases hx : x < a
    · have hxb : x < b := lt_of_lt_of_le hx h
      simp only [hx, hxb, decide_True, if_true]; omega
    · simp only [hx, decide_False, Bool.false_eq_true, if_false]
      split <;> omega

theorem countP_lt_succ_le (R : List ℚ) (a b : ℚ) (h : a < b) (hmem : a ∈ R) :
    R.countP (fun r => decide (r < a)) + 1 ≤ R.countP (fun r => decide (r < b)) := by
  induction R with
  | nil => cases hmem
  | cons x rest ih =>
    rw [List.countP_cons, List.countP_cons]
    by_cases hxa : x = a
    · subst hxa
      have hmono := countP_lt_mono rest x b (le_of_lt h)
      simp only [lt_irrefl, h, decide_True, decide_False, Bool.false_eq_true, if_true, if_false]
      omega
    · have hmem2 : a ∈ rest := by
        rcases List.mem_cons.mp hmem with h2 | h2
        · exact absurd h2.symm hxa
        · exact h2
      have := ih hmem2
      by_cases hx : x < a
      · have hxb : x < b := lt_trans hx h
        simp only [hx, hxb, decide_True, if_true]; omega
      · simp only [hx, decide_False, Bool.false_eq_true, if_false]
        split <;> omega

/-- C3: on a sorted reference sequence `R` (duplicates allowed), `calcRank(R, ·)` is
monotonically non-decreasing: `q1 ≤ q2` gives `calcRank(R, q1) ≤ calcRank(R, q2)`,
whether or not `q1` and `q2` occur in `R`. -/
theorem calcRank_monotone (R : List ℚ) (q1 q2 : ℚ) (hs : R.Sorted (· ≤ ·)) (h : q1 ≤ q2) :
    calcRank R (JSVal.num q1) ≤ calcRank R (JSVal.num q2) := by
  rw [calcRank_sorted R q1 hs, calcRank_sorted R q2 hs]
  rcases eq_or_lt_of_le h with heq | hlt
  · rw [heq]
  · have hmono := countP_lt_mono R q1 q2 h
    by_cases hm : q1 ∈ R
    · have hstep := countP_lt_succ_le R q1 q2 hlt hm
      simp only [hm, if_true]
      split <;> (push_cast; omega)
    · simp only [hm, if_false]
      split <;> (push_cast; omega)

theorem calcRank_monotone_witness :
    ([1, 2, 2, 3] : List ℚ).Sorted (· ≤ ·) ∧ (2 : ℚ) ≤ 5 / 2 ∧
    calcRank [1, 2, 2, 3] (JSVal.num 2) ≤ calcRank [1, 2, 2, 3] (JSVal.num (5 / 2)) :=
  ⟨by norm_num [List.Sorted], by norm_num,
    calcRank_monotone [1, 2, 2, 3] 2 (5 / 2) (by norm_num [List.Sorted]) (by norm_num)⟩

/-- C4: for every reference sequence `R` (in particular every non-empty sorted one) and
every value `v`, number or not, `calcRank(R, v)` lies in the closed interval
`[0, |R|]`. -/
theorem calcRank_bounds (R : List ℚ) (v : JSVal) :
    0 ≤ calcRank R v ∧ calcRank R v ≤ (R.length : Int) := by
  unfold calcRank indexOf
  have h1 := indexOfFrom_range R v 0
  have h2 := firstGreaterFrom_range R v 0
  simp only
  split
  · rcases h1 with h | ⟨ha, hb⟩
    · contradiction
    · push_cast at ha hb; omega
  · push_cast at h2; omega

/-! ## Claims about the normalized rank -/

/-- On a non-empty sequence the normalized rank is the finite number
`(indexOf + 1) / length * 100`. -/
theorem normalizedRank_of_ne_nil (R : List ℚ) (v : JSVal) (hne : R ≠ []) :
    normalizedRank R v
      = JSNum.fin (((indexOf R v + 1 : Int) : ℚ) / (R.length : ℚ) * 100) := by
  have hlen : R.length ≠ 0 := fun h => hne (List.length_eq_zero.mp h)
  simp [normalizedRank, JSNum.divCount, JSNum.mul, hlen]

/-- On a non-empty sequence the normalized rank is a finite number in `[0, 100]`. -/
theorem normalizedRank_range (R : List ℚ) (v : JSVal) (hne : R ≠ []) :
    ∃ x : ℚ, normalizedRank R v = JSNum.fin x ∧ 0 ≤ x ∧ x ≤ 100 := by
  refine ⟨_, normalizedRank_of_ne_nil R v hne, ?_, ?_⟩
  · have hidx : (0 : Int) ≤ indexOf R v + 1 := by
      rcases indexOfFrom_range R v 0 with h | ⟨h, _⟩
      · unfold indexOf; omega
      · unfold indexOf; push_cast at h; omega
    have h0 : (0 : ℚ) ≤ ((indexOf R v + 1 : Int) : ℚ) := by exact_mod_cast hidx
    positivity
  · have hlen : 0 < R.length := List.length_pos.mpr hne
    have hlenq : (0 : ℚ) < (R.length : ℚ) := by exact_mod_cast hlen
    have hidx : indexOf R v + 1 ≤ (R.length : Int) := by
      rcases indexOfFrom_range R v 0 with h | ⟨_, h⟩
      · unfold indexOf; omega
      · unfold indexOf; push_cast at h; omega
    have h1 : ((indexOf R v + 1 : Int) : ℚ) ≤ (R.length : ℚ) := by exact_mod_cast hidx
    have h2 : ((indexOf R v + 1 : Int) : ℚ) / (R.length : ℚ) ≤ 1 := (div_le_one hlenq).mpr h1
    linarith

/-- C5: for a non-empty reference sequence `R`, the `normalizedRank` of the object that
`calcScores` pushes for a value is `(first index + 1) / |R| * 100`, that is
`rank / |R| * 100`, when the value is a number occurring in `R`; it is `0` when no
element of `R` is strictly equal to the value; in both cases it is a number in
`[0, 100]`. -/
theorem rankedMetric_normalizedRank (key : String) (R : List ℚ) (hne : R ≠ []) :
    (∀ q : ℚ, q ∈ R → ∃ i, ∃ hi : i < R.length, R[i] = q ∧
        (∀ k (hk : k < R.length), k < i → R[k] ≠ q) ∧
        (rankedMetric key R (JSVal.num q)).normalizedRank
          = JSNum.fin (((i : ℚ) + 1) / (R.length : ℚ) * 100) ∧
        (rankedMetric key R (JSVal.num q)).normalizedRank
          = JSNum.fin (((rankedMetric key R (JSVal.num q)).rank : ℚ) / (R.length : ℚ) * 100)) ∧
    (∀ v : JSVal, (∀ r ∈ R, strictEq r v = false) →
        (rankedMetric key R v).normalizedRank = JSNum.fin 0) ∧
    (∀ v : JSVal, ∃ x : ℚ, (rankedMetric key R v).normalizedRank = JSNum.fin x ∧ 0 ≤ x ∧ x ≤ 100) := by
  refine ⟨?_, ?_, fun v => normalizedRank_range R v hne⟩
  · intro q hmem
    obtain ⟨j, hj, hq, hfirst, hidx⟩ := indexOfFrom_found R q 0 hmem
    have hidx2 : indexOf R (JSVal.num q) = (j : Int) := by
      unfold indexOf; rw [hidx]; simp
    have hrank : calcRank R (JSVal.num q) = (j : Int) + 1 := by
      unfold calcRank; rw [hidx2]; simp only; rw [if_pos (by omega)]
    refine ⟨j, hj, hq, hfirst, ?_, ?_⟩
    · show normalizedRank R (JSVal.num q) = _
      rw [normalizedRank_of_ne_nil R _ hne, hidx2]; push_cast; rfl
    · show normalizedRank R (JSVal.num q) = JSNum.fin (((calcRank R (JSVal.num q) : Int) : ℚ) / _ * 100)
      rw [normalizedRank_of_ne_nil R _ hne, hidx2, hrank]
  · intro v hnone
    show normalizedRank R v = _
    rw [normalizedRank_of_ne_nil R _ hne]
    have : indexOf R v = -1 := indexOfFrom_not_found R v 0 hnone
    rw [this]; simp

theorem rankedMetric_normalizedRank_witness :
    ([1, 2, 2, 3] : List ℚ) ≠ [] ∧
    (rankedMetric "ccM" [1, 2, 2, 3] (JSVal.num 2)).normalizedRank = JSNum.fin 50 ∧
    (rankedMetric "ccM" [1, 2, 2, 3] (JSVal.num (5 / 2))).normalizedRank = JSNum.fin 0 ∧
    (rankedMetric "ccM" [1, 2, 2, 3] (JSVal.num (5 / 2))).rank = 3 ∧
    ∃ x : ℚ, (rankedMetric "ccM" [1, 2, 2, 3] JSVal.null).normalizedRank = JSNum.fin x ∧
      0 ≤ x ∧ x ≤ 100 :=
  ⟨by simp,
    by norm_num [rankedMetric, normalizedRank, indexOf, indexOfFrom, strictEq, JSNum.divCount,
      JSNum.mul],
    (rankedMetric_normalizedRank "ccM" [1, 2, 2, 3] (by simp)).2.1 (JSVal.num (5 / 2))
      (by norm_num [strictEq]),
    by norm_num [rankedMetric, calcRank, indexOf, indexOfFrom, firstGreaterFrom, strictEq, jsGt,
      JSVal.toNumber],
    (rankedMetric_normalizedRank "ccM" [1, 2, 2, 3] (by simp)).2.2 JSVal.null⟩

/-! ## The structure of the result of `calcScores` -/

/-- What one step of the inner loop can do: push nothing, or push the ranked metric of
the composite key, which is then in `data.metrics` and is not a `values` field. -/
theorem aggrStep_cases (data : ReferenceDataset) (metric : String)
    (ranks ranks2 : List RankedMetric) (entry : String × JSVal)
    (h : aggrStep data metric ranks entry = some ranks2) :
    ranks2 = ranks ∨
      ∃ seq, entry.1 ≠ "values" ∧ (metric ++ "_" ++ entry.1) ∈ data.metrics ∧
        lookupNested data metric entry.1 = some seq ∧
        ranks2 = ranks ++ [rankedMetric (metric ++ "_" ++ entry.1) seq entry.2] := by
  unfold aggrStep at h
  split at h
  · left; exact (Option.some.inj h).symm
  · rename_i hcond
    rw [not_or, not_not] at hcond
    cases hl : lookupNested data metric entry.1 with
    | none => rw [hl] at h; cases h
    | some seq =>
      rw [hl] at h
      right
      exact ⟨seq, hcond.1, hcond.2, rfl, (Option.some.inj h).symm⟩

theorem aggrLoop_pushed (data : ReferenceDataset) (fileMetrics : List (String × MetricValue))
    (metric : String) (all : List (String × JSVal))
    (hall : (metric, MetricValue.object all) ∈ fileMetrics)
    (entries : List (String × JSVal)) (hsub : ∀ e ∈ entries, e ∈ all)
    (ranks ranks2 : List RankedMetric)
    (hranks : ∀ rm ∈ ranks, PushedFor data fileMetrics rm)
    (h : entries.foldlM (aggrStep data metric) ranks = some ranks2) :
    ∀ rm ∈ ranks2, PushedFor data fileMetrics rm := by
  induction entries generalizing ranks with
  | nil =>
    simp only [List.foldlM_nil] at h
    cases h; exact hranks
  | cons e rest ih =>
    rw [List.foldlM_cons] at h
    cases hstep : aggrStep data metric ranks e with
    | none => rw [hstep] at h; cases h
    | some mid =>
      rw [hstep] at h
      refine ih (fun x hx => hsub x (List.mem_cons_of_mem _ hx)) mid ?_ h
      rcases aggrStep_cases data metric ranks mid e hstep with heq | ⟨seq, hv, hkey, hl, heq⟩
      · rw [heq]; exact hranks
      · rw [heq]
        intro rm hrm
        rcases List.mem_append.mp hrm with hold | hnew
        · exact hranks rm hold
        · rw [List.mem_singleton] at hnew
          subst hnew
          refine ⟨hkey, seq, Or.inr ⟨metric, all, e.1, e.2, hall, ?_, hv, hkey, hl⟩, rfl⟩
          exact hsub e (List.mem_cons_self _ _)

theorem metricLoop_pushed (data : ReferenceDataset) (fileMetrics : List (String × MetricValue))
    (entries : List (String × MetricValue)) (hsub : ∀ e ∈ entries, e ∈ fileMetrics)
    (ranks ranks2 : List RankedMetric)
    (hranks : ∀ rm ∈ ranks, PushedFor data fileMetrics rm)
    (h : entries.foldlM (metricStep data) ranks = some ranks2) :
    ∀ rm ∈ ranks2, PushedFor data fileMetrics rm := by
  induction entries generalizing ranks with
  | nil =>
    simp only [List.foldlM_nil] at h
    cases h; exact hranks
  | cons e rest ih =>
    rw [List.foldlM_cons] at h
    cases hstep : metricStep data ranks e with
    | none => rw [hstep] at h; cases h
    | some mid =>
      rw [hstep] at h
      refine ih (fun x hx => hsub x (List.mem_cons_of_mem _ hx)) mid ?_ h
      have hmem : e ∈ fileMetrics := hsub e (List.mem_cons_self _ _)
      obtain ⟨metric, value⟩ := e
      cases value with
      | object all =>
        simp only [metricStep] at hstep
        exact aggrLoop_pushed data fileMetrics metric all hmem all (fun x hx => hx) ranks mid
          hranks hstep
      | scalar v =>
        simp only [metricStep] at hstep
        split at hstep
        · cases hstep; exact hranks
        · rename_i hkey
          rw [not_not] at hkey
          cases hl : lookupFlat data metric with
          | none => rw [hl] at hstep; cases hstep
          | some seq =>
            rw [hl] at hstep
            cases hstep
            intro rm hrm
            rcases List.mem_append.mp hrm with hold | hnew
            · exact hranks rm hold
            · rw [List.mem_singleton] at hnew
              subst hnew
              exact ⟨hkey, seq, Or.inl ⟨metric, v, hmem, hkey, hl⟩, rfl⟩

/-- Every ranked metric of a file was pushed for that file's record. -/
theorem fileRanks_pushed (data : ReferenceDataset) (fileMetrics : List (String × MetricValue))
    (ranks : List RankedMetric) (h : fileRanks data fileMetrics = some ranks) :
    ∀ rm ∈ ranks, PushedFor data fileMetrics rm :=
  metricLoop_pushed data fileMetrics fileMetrics (fun _ hx => hx) [] ranks
    (fun _ hrm => absurd hrm (List.not_mem_nil _)) h

/-- The first pass keeps one entry per file record, in order. -/
theorem calcLevels_forall₂ (data : ReferenceDataset)
    (metrics : List (String × List (String × MetricValue)))
    (levels : List (String × List RankedMetric)) (h : calcLevels data metrics = some levels) :
    List.Forall₂ (fun entry level => level.1 = entry.1 ∧ fileRanks data entry.2 = some level.2)
      metrics levels := by
  induction metrics generalizing levels with
  | nil =>
    simp only [calcLevels] at h
    cases h; exact List.Forall₂.nil
  | cons e rest ih =>
    simp only [calcLevels] at h
    cases hr : fileRanks data e.2 with
    | none => rw [hr] at h; cases h
    | some ranks =>
      rw [hr] at h
      cases hl : calcLevels data rest with
      | none => rw [hl] at h; cases h
      | some tail =>
        rw [hl] at h
        cases h
        exact List.Forall₂.cons ⟨rfl, hr⟩ (ih tail hl)

/-- The first pass succeeds when no file record makes a reference lookup throw. -/
theorem calcLevels_isSome (data : ReferenceDataset)
    (metrics : List (String × List (String × MetricValue)))
    (h : ∀ e ∈ metrics, (fileRanks data e.2).isSome = true) :
    (calcLevels data metrics).isSome = true := by
  induction metrics with
  | nil => rfl
  | cons e rest ih =>
    have he := h e (List.mem_cons_self _ _)
    have hrest := ih (fun x hx => h x (List.mem_cons_of_mem _ hx))
    obtain ⟨ranks, hr⟩ := Option.isSome_iff_exists.mp he
    obtain ⟨tail, hl⟩ := Option.isSome_iff_exists.mp hrest
    simp [calcLevels, hr, hl]

/-- The unsorted per-file results of a run of `calcScores`. -/
theorem calcScores_eq (data : ReferenceDataset)
    (metrics : List (String × List (String × MetricValue))) (out : List FileScore)
    (h : calcScores data metrics = some out) :
    ∃ levels, calcLevels data metrics = some levels ∧
      out = (unsortedScores data levels).insertionSort (fun a b => b.rank ≤ a.rank) := by
  unfold calcScores at h
  cases hl : calcLevels data metrics with
  | none => rw [hl] at h; cases h
  | some levels =>
    rw [hl] at h
    exact ⟨levels, rfl, (Option.some.inj h).symm⟩

/-- Every element of the result is the score of one input file record. -/
theorem calcScores_mem (data : ReferenceDataset)
    (metrics : List (String × List (String × MetricValue))) (out : List FileScore)
    (h : calcScores data metrics = some out) (fs : FileScore) (hfs : fs ∈ out) :
    ∃ e ∈ metrics, ∃ ranks, fileRanks data e.2 = some ranks ∧ fs = fileScore data e.1 ranks := by
  obtain ⟨levels, hl, hout⟩ := calcScores_eq data metrics out h
  rw [hout] at hfs
  have hfs2 : fs ∈ unsortedScores data levels :=
    (List.perm_insertionSort _ _).subset hfs
  unfold unsortedScores at hfs2
  obtain ⟨level, hlevel, hfs3⟩ := List.mem_map.mp hfs2
  have hall := calcLevels_forall₂ data metrics levels hl
  obtain ⟨i, hi, rfl⟩ := List.getElem_of_mem hlevel
  have hlen := hall.length_eq
  have hi2 : i < metrics.length := by omega
  have hrel := (List.forall₂_iff_get.mp hall).2 i hi2 hi
  simp only [List.get_eq_getElem] at hrel
  refine ⟨metrics[i], List.getElem_mem _, levels[i].2, hrel.2, ?_⟩
  rw [← hfs3, hrel.1]

/-- Every file record that passes the first pass has its score in the result. -/
theorem calcScores_mem_of (data : ReferenceDataset)
    (metrics : List (String × List (String × MetricValue))) (out : List FileScore)
    (h : calcScores data metrics = some out) (e : String × List (String × MetricValue))
    (he : e ∈ metrics) (ranks : List RankedMetric) (hr : fileRanks data e.2 = some ranks) :
    fileScore data e.1 ranks ∈ out := by
  obtain ⟨levels, hl, hout⟩ := calcScores_eq data metrics out h
  rw [hout]
  apply (List.perm_insertionSort _ _).symm.subset
  unfold unsortedScores
  have hall := calcLevels_forall₂ data metrics levels hl
  obtain ⟨i, hi, rfl⟩ := List.getElem_of_mem he
  have hi2 : i < levels.length := by rw [← hall.length_eq]; exact hi
  have hrel := (List.forall₂_iff_get.mp hall).2 i hi hi2
  simp only [List.get_eq_getElem] at hrel
  refine List.mem_map.mpr ⟨levels[i], List.getElem_mem _, ?_⟩
  have h2 : levels[i].2 = ranks := by
    have := hrel.2
    rw [hr] at this
    exact (Option.some.inj this).symm
  rw [hrel.1, h2]

/-! ## Claims about the accumulated rank and the score -/

theorem accumulate_foldl (ranks : List RankedMetric) (qs : List ℚ) (a : ℚ) (n : Nat)
    (h : ranks.map (fun rm => rm.normalizedRank) = qs.map JSNum.fin) :
    ranks.foldl (fun acc rankInfo => (acc.1.add rankInfo.normalizedRank, acc.2 + 1))
        (JSNum.fin a, n)
      = (JSNum.fin (a + qs.sum), n + qs.length) := by
  induction ranks generalizing qs a n with
  | nil =>
    cases qs with
    | nil => simp
    | cons q rest => simp at h
  | cons rm rest ih =>
    cases qs with
    | nil => simp at h
    | cons q qrest =>
      simp only [List.map_cons, List.cons.injEq] at h
      have hadd : (JSNum.fin a).add rm.normalizedRank = JSNum.fin (a + q) := by
        rw [h.1]; rfl
      rw [List.foldl_cons]
      show List.foldl _ ((JSNum.fin a).add rm.normalizedRank, n + 1) rest = _
      rw [hadd, ih qrest (a + q) (n + 1) h.2]
      simp only [List.sum_cons, List.length_cons]
      rw [add_assoc a q, Nat.add_assoc n 1, Nat.add_comm 1]

/-- When every normalized rank is finite, `rankAcc / total` is their arithmetic mean. -/
theorem accumulatedRank_of_fin (ranks : List RankedMetric) (qs : List ℚ) (hne : ranks ≠ [])
    (h : ranks.map (fun rm => rm.normalizedRank) = qs.map JSNum.fin) :
    accumulatedRank ranks = JSNum.fin (qs.sum / (qs.length : ℚ)) := by
  have hlen : qs.length = ranks.length := by
    have := congrArg List.length h
    simpa using this.symm
  have hpos : qs.length ≠ 0 := by
    rw [hlen]; exact fun h0 => hne (List.length_eq_zero.mp h0)
  unfold accumulatedRank accumulate
  rw [accumulate_foldl ranks qs 0 0 h]
  simp [JSNum.divCount, hpos]

theorem sum_bounds (qs : List ℚ) (h : ∀ x ∈ qs, 0 ≤ x ∧ x ≤ 100) :
    0 ≤ qs.sum ∧ qs.sum ≤ 100 * (qs.length : ℚ) := by
  induction qs with
  | nil => simp
  | cons q rest ih =>
    have hq := h q (List.mem_cons_self _ _)
    have hrest := ih (fun x hx => h x (List.mem_cons_of_mem _ hx))
    simp only [List.sum_cons, List.length_cons]
    push_cast
    constructor <;> linarith [hq.1, hq.2, hrest.1, hrest.2]

/-- A list of numbers that are all finite is the image of a list of rationals. -/
theorem exists_fin_list (xs : List JSNum)
    (h : ∀ x ∈ xs, ∃ q : ℚ, x = JSNum.fin q ∧ 0 ≤ q ∧ q ≤ 100) :
    ∃ qs : List ℚ, xs = qs.map JSNum.fin ∧ ∀ q ∈ qs, 0 ≤ q ∧ q ≤ 100 := by
  induction xs with
  | nil => exact ⟨[], rfl, fun _ hq => absurd hq (List.not_mem_nil _)⟩
  | cons x rest ih =>
    obtain ⟨q, hq, hb⟩ := h x (List.mem_cons_self _ _)
    obtain ⟨qs, hqs, hbs⟩ := ih (fun y hy => h y (List.mem_cons_of_mem _ hy))
    refine ⟨q :: qs, by simp [hq, hqs], ?_⟩
    intro y hy
    rcases List.mem_cons.mp hy with h1 | h1
    · rw [h1]; exact hb
    · exact hbs y h1

/-- C6: when `calcScores` returns, every file record that yields at least one ranked
metric, and whose consulted reference sequences are all non-empty, has its file score
in the result; the normalized ranks of that score are finite numbers `qs`, its
`accumulatedRank` is their arithmetic mean `sum qs / |qs|` and lies in `[0, 100]`, and
its `score` is `100 - accumulatedRank`, in `[0, 100]` as well. -/
theorem accumulatedRank_mean (data : ReferenceDataset)
    (metrics : List (String × List (String × MetricValue))) (out : List FileScore)
    (h : calcScores data metrics = some out)
    (e : String × List (String × MetricValue)) (he : e ∈ metrics)
    (ranks : List RankedMetric) (hr : fileRanks data e.2 = some ranks) (hne : ranks ≠ [])
    (hseq : ∀ seq, Consults data e.2 seq → seq ≠ []) :
    ∃ fs ∈ out, fs.file = e.1 ∧ fs.metricRanks = ranks ∧
      ∃ qs : List ℚ, qs ≠ [] ∧
        fs.metricRanks.map (fun rm => rm.normalizedRank) = qs.map JSNum.fin ∧
        fs.accumulatedRank = JSNum.fin (qs.sum / (qs.length : ℚ)) ∧
        0 ≤ qs.sum / (qs.length : ℚ) ∧ qs.sum / (qs.length : ℚ) ≤ 100 ∧
        fs.score = JSNum.fin (100 - qs.sum / (qs.length : ℚ)) ∧
        0 ≤ 100 - qs.sum / (qs.length : ℚ) ∧ 100 - qs.sum / (qs.length : ℚ) ≤ 100 := by
  refine ⟨fileScore data e.1 ranks, calcScores_mem_of data metrics out h e he ranks hr,
    rfl, rfl, ?_⟩
  have hpushed := fileRanks_pushed data e.2 ranks hr
  have hfin : ∀ x ∈ ranks.map (fun rm => rm.normalizedRank),
      ∃ q : ℚ, x = JSNum.fin q ∧ 0 ≤ q ∧ q ≤ 100 := by
    intro x hx
    obtain ⟨rm, hrm, rfl⟩ := List.mem_map.mp hx
    obtain ⟨_, seq, hcons, heq⟩ := hpushed rm hrm
    have hseqne := hseq seq hcons
    rw [heq]
    exact normalizedRank_range seq rm.value hseqne
  obtain ⟨qs, hqs, hbs⟩ := exists_fin_list _ hfin
  have hqne : qs ≠ [] := by
    rintro rfl
    simp only [List.map_nil, List.map_eq_nil_iff] at hqs
    exact hne hqs
  have hacc := accumulatedRank_of_fin ranks qs hne hqs
  have hlen : (0 : ℚ) < (qs.length : ℚ) := by
    exact_mod_cast List.length_pos.mpr hqne
  obtain ⟨hs0, hs1⟩ := sum_bounds qs hbs
  have hm0 : 0 ≤ qs.sum / (qs.length : ℚ) := div_nonneg hs0 (le_of_lt hlen)
  have hm1 : qs.sum / (qs.length : ℚ) ≤ 100 := by
    rw [div_le_iff₀ hlen]; exact hs1
  refine ⟨qs, hqne, hqs, hacc, hm0, hm1, ?_, by linarith, by linarith⟩
  show (JSNum.fin 100).sub (accumulatedRank ranks) = _
  rw [hacc]; rfl

/-- Every sequence of `sampleData` is non-empty. -/
theorem sampleData_consults (fileMetrics : List (String × MetricValue)) (seq : List ℚ)
    (h : Consults sampleData fileMetrics seq) : seq ≠ [] := by
  rcases h with ⟨metric, _, _, _, hl⟩ | ⟨metric, _, aggr, _, _, _, _, _, hl⟩
  · unfold lookupFlat sampleData at hl
    simp only at hl
    split at hl
    · rename_i hv
      split at hv
      · cases hv; cases hl; simp
      · split at hv
        · cases hv
        · cases hv
    · cases hl
  · unfold lookupNested sampleData at hl
    simp only at hl
    split at hl
    · rename_i hv
      split at hv
      · cases hv
      · split at hv
        · cases hv
          simp only at hl
          split at hl
          · cases hl; simp
          · cases hl
        · cases hv
    · cases hl

theorem accumulatedRank_mean_witness :
    (calcScores sampleData sampleMetrics).isSome = true ∧
    ∀ out, calcScores sampleData sampleMetrics = some out →
      ∃ fs ∈ out, fs.file = "a.js" ∧
        fs.metricRanks = [rankedMetric "ccF_avg" [1, 2, 4] (JSVal.num 2),
                          rankedMetric "ccM" [1, 2, 4, 8] (JSVal.num 3)] ∧
        ∃ qs : List ℚ, qs ≠ [] ∧
          fs.metricRanks.map (fun rm => rm.normalizedRank) = qs.map JSNum.fin ∧
          fs.accumulatedRank = JSNum.fin (qs.sum / (qs.length : ℚ)) ∧
          0 ≤ qs.sum / (qs.length : ℚ) ∧ qs.sum / (qs.length : ℚ) ≤ 100 ∧
          fs.score = JSNum.fin (100 - qs.sum / (qs.length : ℚ)) ∧
          0 ≤ 100 - qs.sum / (qs.length : ℚ) ∧ 100 - qs.sum / (qs.length : ℚ) ≤ 100 :=
  ⟨by decide, fun out hout =>
    accumulatedRank_mean sampleData sampleMetrics out hout
      ("a.js", [("noF", MetricValue.scalar (JSVal.num 1)),
             ("ccF", MetricValue.object [("total", JSVal.num 2), ("avg", JSVal.num 2),
                ("med", JSVal.num 2), ("min", JSVal.num 2), ("max", JSVal.num 2),
                ("values", JSVal.array [2])]),
             ("ccM", MetricValue.scalar (JSVal.num 3))])
      (List.mem_cons_self _ _)
      [rankedMetric "ccF_avg" [1, 2, 4] (JSVal.num 2),
        rankedMetric "ccM" [1, 2, 4, 8] (JSVal.num 3)]
      rfl (by simp) (fun seq hc => sampleData_consults _ seq hc)⟩

/-! ## A file without ranked metrics -/

theorem indexOfFrom_nan (xs : List ℚ) (i : Nat) :
    indexOfFrom xs (JSVal.number JSNum.nan) i = -1 :=
  indexOfFrom_not_found xs _ i (fun _ _ => rfl)

theorem firstGreaterFrom_nan (xs : List ℚ) (i : Nat) :
    firstGreaterFrom xs (JSVal.number JSNum.nan) i = ((i + xs.length : Nat) : Int) := by
  induction xs generalizing i with
  | nil => simp [firstGreaterFrom]
  | cons x rest ih =>
    unfold firstGreaterFrom
    have : jsGt x (JSVal.number JSNum.nan) = false := rfl
    rw [this]
    simp only [Bool.false_eq_true, if_false]
    rw [ih (i + 1)]
    simp only [List.length_cons]
    congr 1; omega

/-- The rank of `NaN` is the length of the reference sequence. -/
theorem calcRank_nan (R : List ℚ) : calcRank R (JSVal.number JSNum.nan) = (R.length : Int) := by
  unfold calcRank indexOf
  rw [indexOfFrom_nan, firstGreaterFrom_nan]
  simp

/-- C7: the code at a file record with zero eligible ranked metrics (the record left
for an unparsed file, none of whose keys is in `sampleData.metrics`): `calcScores`
reports nothing; it returns normally, `rankAcc / total` is `0 / 0`, and the file's
`accumulatedRank` and `score` are `NaN`, with `rank` the length of `moduleRanks`. -/
theorem calcScores_unparsed_is_nan :
    calcScores sampleData unparsedMetrics
      = some [{ file := "broken.js", rank := 3, metricRanks := [],
                accumulatedRank := JSNum.nan, score := JSNum.nan }] := by
  rfl

/-- The behaviour of `calcScores` on file records with zero eligible ranked metrics, in
general.  Whenever it returns, such a file record has a file score in the result, with
empty `metricRanks`, `accumulatedRank` `NaN`, `score` `NaN` and `rank` the length of
`moduleRanks`; and every file score with empty `metricRanks` has these values. -/
theorem calcScores_no_metrics (data : ReferenceDataset)
    (metrics : List (String × List (String × MetricValue))) (out : List FileScore)
    (h : calcScores data metrics = some out) :
    (∀ e ∈ metrics, fileRanks data e.2 = some [] →
      { file := e.1, rank := (data.moduleRanks.length : Int), metricRanks := [],
        accumulatedRank := JSNum.nan, score := JSNum.nan : FileScore } ∈ out) ∧
    (∀ fs ∈ out, fs.metricRanks = [] →
      fs.accumulatedRank = JSNum.nan ∧ fs.score = JSNum.nan ∧
        fs.rank = (data.moduleRanks.length : Int)) := by
  have hacc : accumulatedRank [] = JSNum.nan := rfl
  constructor
  · intro e he hr
    have := calcScores_mem_of data metrics out h e he [] hr
    unfold fileScore at this
    rw [hacc, calcRank_nan] at this
    exact this
  · intro fs hfs hempty
    obtain ⟨e, _, ranks, _, rfl⟩ := calcScores_mem data metrics out h fs hfs
    have hr : ranks = [] := hempty
    subst hr
    refine ⟨hacc, ?_, ?_⟩
    · show (JSNum.fin 100).sub (accumulatedRank []) = JSNum.nan
      rw [hacc]; rfl
    · show calcRank data.moduleRanks (JSVal.number (accumulatedRank [])) = _
      rw [hacc, calcRank_nan]

theorem calcScores_no_metrics_witness :
    calcScores sampleData unparsedMetrics
        = some [{ file := "broken.js", rank := 3, metricRanks := [],
                  accumulatedRank := JSNum.nan, score := JSNum.nan }] ∧
    ∀ fs ∈ [({ file := "broken.js", rank := 3, metricRanks := [],
               accumulatedRank := JSNum.nan, score := JSNum.nan } : FileScore)],
      fs.metricRanks = [] →
        fs.accumulatedRank = JSNum.nan ∧ fs.score = JSNum.nan ∧
          fs.rank = (sampleData.moduleRanks.length : Int) :=
  ⟨rfl, (calcScores_no_metrics sampleData unparsedMetrics _ rfl).2⟩

/-! ## Claims about the keys and the order of the result -/

/-- C8: every ranked metric of every file score returned by `calcScores` has a metric
key that is a member of `data.metrics`.  A scalar metric whose key is absent pushes
nothing; a field of an object metric pushes nothing when its composite key
`metric_field` is absent; the field `values` pushes nothing; and a field that does
push pushes under its composite key, which is then in `data.metrics`. -/
theorem rankedMetric_keys_relevant (data : ReferenceDataset)
    (metrics : List (String × List (String × MetricValue))) :
    (∀ out, calcScores data metrics = some out →
      ∀ fs ∈ out, ∀ rm ∈ fs.metricRanks, rm.metric ∈ data.metrics) ∧
    (∀ ranks metric value, metric ∉ data.metrics →
      metricStep data ranks (metric, MetricValue.scalar value) = some ranks) ∧
    (∀ ranks metric aggr value, (metric ++ "_" ++ aggr) ∉ data.metrics →
      aggrStep data metric ranks (aggr, value) = some ranks) ∧
    (∀ ranks metric value, aggrStep data metric ranks ("values", value) = some ranks) ∧
    (∀ ranks ranks2 metric aggr value,
      aggrStep data metric ranks (aggr, value) = some ranks2 →
      ranks2 = ranks ∨
        ∃ seq, ranks2 = ranks ++ [rankedMetric (metric ++ "_" ++ aggr) seq value] ∧
          (metric ++ "_" ++ aggr) ∈ data.metrics ∧ aggr ≠ "values") := by
  refine ⟨?_, ?_, ?_, ?_, ?_⟩
  · intro out h fs hfs rm hrm
    obtain ⟨e, _, ranks, hr, rfl⟩ := calcScores_mem data metrics out h fs hfs
    exact (fileRanks_pushed data e.2 ranks hr rm hrm).1
  · intro ranks metric value hkey
    simp [metricStep, hkey]
  · intro ranks metric aggr value hkey
    simp [aggrStep, hkey]
  · intro ranks metric value
    simp [aggrStep]
  · intro ranks ranks2 metric aggr value h
    rcases aggrStep_cases data metric ranks ranks2 (aggr, value) h with heq | ⟨seq, hv, hkey, _, heq⟩
    · left; exact heq
    · right; exact ⟨seq, heq, hkey, hv⟩

theorem rankedMetric_keys_relevant_witness :
    ∃ out, calcScores sampleData sampleMetrics = some out ∧
      (∀ fs ∈ out, ∀ rm ∈ fs.metricRanks, rm.metric ∈ sampleData.metrics) ∧
      metricStep sampleData [] ("noF", MetricValue.scalar (JSVal.num 1)) = some [] ∧
      aggrStep sampleData "ccF" [] ("total", JSVal.num 2) = some [] ∧
      aggrStep sampleData "ccF" [] ("values", JSVal.array [2]) = some [] := by
  obtain ⟨out, hout⟩ := Option.isSome_iff_exists.mp
    (show (calcScores sampleData sampleMetrics).isSome = true by decide)
  have hall := rankedMetric_keys_relevant sampleData sampleMetrics
  exact ⟨out, hout, hall.1 out hout, hall.2.1 [] "noF" _ (by decide),
    hall.2.2.1 [] "ccF" "total" _ (by decide), hall.2.2.2.1 [] "ccF" _⟩

/-- C9: `calcScores` returns whenever no file record makes a reference lookup throw, and
the sequence it returns is a permutation of the per-file results (one file score per
input file record, built from that record), is ordered by non-increasing `rank`, and
each `rank` is `calcRank(moduleRanks, accumulatedRank)`. -/
theorem calcScores_sorted_perm (data : ReferenceDataset)
    (metrics : List (String × List (String × MetricValue))) :
    ((∀ e ∈ metrics, (fileRanks data e.2).isSome = true) →
      (calcScores data metrics).isSome = true) ∧
    (∀ out, calcScores data metrics = some out →
      ∃ results : List FileScore,
        List.Forall₂ (fun e fs => ∃ ranks, fileRanks data e.2 = some ranks ∧
          fs = fileScore data e.1 ranks) metrics results ∧
        out.Perm results ∧ out.length = metrics.length ∧
        (out.map (fun fs => fs.file)).Perm (metrics.map (fun e => e.1)) ∧
        out.Sorted (fun a b => b.rank ≤ a.rank) ∧
        ∀ fs ∈ out, fs.rank = calcRank data.moduleRanks (JSVal.number fs.accumulatedRank)) := by
  constructor
  · intro hall
    obtain ⟨levels, hl⟩ := Option.isSome_iff_exists.mp (calcLevels_isSome data metrics hall)
    simp [calcScores, hl]
  · intro out h
    obtain ⟨levels, hl, hout⟩ := calcScores_eq data metrics out h
    have hall := calcLevels_forall₂ data metrics levels hl
    have hperm : out.Perm (unsortedScores data levels) := by
      rw [hout]; exact List.perm_insertionSort _ _
    have hres : List.Forall₂ (fun e fs => ∃ ranks, fileRanks data e.2 = some ranks ∧
        fs = fileScore data e.1 ranks) metrics (unsortedScores data levels) := by
      unfold unsortedScores
      rw [List.forall₂_map_right_iff]
      exact hall.imp (fun _ _ hab => ⟨_, hab.2, by rw [hab.1]⟩)
    have hfiles : (unsortedScores data levels).map (fun fs => fs.file)
        = metrics.map (fun e => e.1) := by
      have : List.Forall₂ (fun e fs => e.1 = fs.file) metrics (unsortedScores data levels) :=
        hres.imp (fun _ _ hab => by obtain ⟨ranks, _, hfs⟩ := hab; rw [hfs]; rfl)
      have h2 := List.forall₂_eq_eq_eq ▸
        (List.forall₂_map_left_iff.mpr (List.forall₂_map_right_iff.mpr this))
      exact h2.symm
    refine ⟨unsortedScores data levels, hres, hperm, ?_, ?_, ?_, ?_⟩
    · rw [hperm.length_eq, ← hres.length_eq]
    · rw [← hfiles]; exact hperm.map _
    · rw [hout]
      haveI : IsTotal FileScore (fun a b => b.rank ≤ a.rank) := ⟨fun a b => le_total _ _⟩
      haveI : IsTrans FileScore (fun a b => b.rank ≤ a.rank) :=
        ⟨fun _ _ _ hab hbc => le_trans hbc hab⟩
      exact List.sorted_insertionSort _ _
    · intro fs hfs
      obtain ⟨e, _, ranks, _, rfl⟩ := calcScores_mem data metrics out h fs hfs
      rfl

theorem calcScores_sorted_perm_witness :
    (∀ e ∈ sampleMetrics, (fileRanks sampleData e.2).isSome = true) ∧
    (calcScores sampleData sampleMetrics).isSome = true ∧
    ∃ out, calcScores sampleData sampleMetrics = some out ∧
      out.length = sampleMetrics.length ∧
      (out.map (fun fs => fs.file)).Perm (sampleMetrics.map (fun e => e.1)) ∧
      out.Sorted (fun a b => b.rank ≤ a.rank) ∧
      ∀ fs ∈ out,
        fs.rank = calcRank sampleData.moduleRanks (JSVal.number fs.accumulatedRank) := by
  have hall : ∀ e ∈ sampleMetrics, (fileRanks sampleData e.2).isSome = true := by decide
  have hsome := (calcScores_sorted_perm sampleData sampleMetrics).1 hall
  obtain ⟨out, hout⟩ := Option.isSome_iff_exists.mp hsome
  obtain ⟨_, _, _, hlen, hfiles, hsorted, hrank⟩ :=
    (calcScores_sorted_perm sampleData sampleMetrics).2 out hout
  exact ⟨hall, hsome, out, hout, hlen, hfiles, hsorted, hrank⟩

/-! ## Claims about `Metrics.median` -/

/-- The array sorted by `median` is the only ascending arrangement of the input. -/
theorem insertionSort_eq_of_sorted_perm (arr s : List ℚ) (hp : s.Perm arr)
    (hs : s.Sorted (· ≤ ·)) : arr.insertionSort (· ≤ ·) = s :=
  List.eq_of_perm_of_sorted ((List.perm_insertionSort _ arr).trans hp.symm)
    (List.sorted_insertionSort _ arr) hs

/-- C10: `Metrics.median` returns `null` for the empty array.  For a non-empty array,
with `s` its ascending arrangement, it returns the middle element `s[n / 2]` when the
length `n` is odd and the mean `(s[n / 2 - 1] + s[n / 2]) / 2` of the two middle
elements when `n` is even; the result does not depend on the order of the input;
`median([1,2,3]) = 2` and `median([1,2,3,4]) = 2.5`. -/
theorem median_spec :
    Metrics.median [] = JSVal.null ∧
    (∀ arr s : List ℚ, arr ≠ [] → s.Perm arr → s.Sorted (· ≤ ·) →
      (s.length % 2 = 1 →
        ∃ h : s.length / 2 < s.length, Metrics.median arr = JSVal.num s[s.length / 2]) ∧
      (s.length % 2 = 0 →
        ∃ h1 : s.length / 2 - 1 < s.length, ∃ h2 : s.length / 2 < s.length,
          Metrics.median arr = JSVal.num ((s[s.length / 2 - 1] + s[s.length / 2]) / 2))) ∧
    (∀ arr arr2 : List ℚ, arr.Perm arr2 → Metrics.median arr = Metrics.median arr2) ∧
    Metrics.median [1, 2, 3] = JSVal.num 2 ∧
    Metrics.median [1, 2, 3, 4] = JSVal.num (5 / 2) := by
  have hmain : ∀ arr s : List ℚ, arr ≠ [] → s.Perm arr → s.Sorted (· ≤ ·) →
      (s.length % 2 = 1 →
        ∃ h : s.length / 2 < s.length, Metrics.median arr = JSVal.num s[s.length / 2]) ∧
      (s.length % 2 = 0 →
        ∃ h1 : s.length / 2 - 1 < s.length, ∃ h2 : s.length / 2 < s.length,
          Metrics.median arr = JSVal.num ((s[s.length / 2 - 1] + s[s.length / 2]) / 2)) := by
    intro arr s hne hp hs
    have hsort := insertionSort_eq_of_sorted_perm arr s hp hs
    have hlen : arr.length ≠ 0 := fun h => hne (List.length_eq_zero.mp h)
    have hspos : 0 < s.length := by rw [hp.length_eq]; omega
    have h2 : s.length / 2 < s.length := Nat.div_lt_self hspos (by decide)
    have h1 : s.length / 2 - 1 < s.length := by omega
    constructor
    · intro hodd
      refine ⟨h2, ?_⟩
      unfold Metrics.median
      simp only [hlen, if_false, hsort, hodd, if_true]
      rw [List.getD_eq_getElem _ _ h2]
    · intro heven
      refine ⟨h1, h2, ?_⟩
      unfold Metrics.median
      have hnot : ¬ s.length % 2 = 1 := by omega
      simp only [hlen, if_false, hsort, hnot]
      rw [List.getD_eq_getElem _ _ h2, List.getD_eq_getElem _ _ h1]
  refine ⟨rfl, hmain, ?_, ?_, ?_⟩
  · intro arr arr2 hp
    unfold Metrics.median
    rw [hp.length_eq]
    have : arr.insertionSort (· ≤ ·) = arr2.insertionSort (· ≤ ·) :=
      insertionSort_eq_of_sorted_perm arr _ ((List.perm_insertionSort _ arr2).trans hp.symm)
        (List.sorted_insertionSort _ arr2)
    rw [this]
  · obtain ⟨_, h⟩ := (hmain [1, 2, 3] [1, 2, 3] (by simp) (List.Perm.refl _)
      (by norm_num [List.Sorted])).1 (by rfl)
    simpa using h
  · obtain ⟨_, _, h⟩ := (hmain [1, 2, 3, 4] [1, 2, 3, 4] (by simp) (List.Perm.refl _)
      (by norm_num [List.Sorted])).2 (by rfl)
    rw [h]
    norm_num

theorem median_spec_witness :
    ([3, 1, 2] : List ℚ) ≠ [] ∧ ([1, 2, 3] : List ℚ).Perm [3, 1, 2] ∧
    ([1, 2, 3] : List ℚ).Sorted (· ≤ ·) ∧ ([1, 2, 3] : List ℚ).length % 2 = 1 ∧
    (∃ h : ([1, 2, 3] : List ℚ).length / 2 < ([1, 2, 3] : List ℚ).length,
      Metrics.median [3, 1, 2] = JSVal.num ([1, 2, 3] : List ℚ)[([1, 2, 3] : List ℚ).length / 2]) ∧
    Metrics.median [3, 1, 2] = Metrics.median [1, 2, 3] :=
  ⟨by simp, by decide, by norm_num [List.Sorted], rfl,
    (median_spec.2.1 [3, 1, 2] [1, 2, 3] (by simp) (by decide)
      (by norm_num [List.Sorted])).1 rfl,
    median_spec.2.2.1 [3, 1, 2] [1, 2, 3] (by decide)⟩

/-! ## Claims about the aggregates -/

theorem foldl_add_eq_sum (arr : List ℚ) (a : ℚ) :
    arr.foldl (fun prev curr => prev + curr) a = a + arr.sum := by
  induction arr generalizing a with
  | nil => simp
  | cons x rest ih => rw [List.foldl_cons, ih, List.sum_cons]; ring

theorem sumReduce_eq_sum (arr : List ℚ) : sumReduce arr = arr.sum := by
  unfold sumReduce; rw [foldl_add_eq_sum]; ring

/-- The fold of `Math.max` ends on an argument that is at least every argument. -/
theorem foldl_max_spec (rest : List ℚ) (x : ℚ) :
    (rest.foldl (fun best y => if best < y then y else best) x) ∈ x :: rest ∧
    ∀ y ∈ x :: rest, y ≤ rest.foldl (fun best y => if best < y then y else best) x := by
  induction rest generalizing x with
  | nil => simp
  | cons z rest ih =>
    rw [List.foldl_cons]
    obtain ⟨hmem, hle⟩ := ih (if x < z then z else x)
    constructor
    · rcases List.mem_cons.mp hmem with h | h
      · rw [h]; split <;> simp
      · exact List.mem_cons_of_mem _ (List.mem_cons_of_mem _ h)
    · intro y hy
      have hstart := hle _ (List.mem_cons_self _ _)
      rcases List.mem_cons.mp hy with h | h
      · rw [h]
        refine le_trans ?_ hstart
        split <;> [exact le_of_lt ‹_›; exact le_refl _]
      · rcases List.mem_cons.mp h with h2 | h2
        · rw [h2]
          refine le_trans ?_ hstart
          split <;> [exact le_refl _; exact not_lt.mp ‹_›]
        · exact hle y (List.mem_cons_of_mem _ h2)

/-- The fold of `Math.min` ends on an argument that is at most every argument. -/
theorem foldl_min_spec (rest : List ℚ) (x : ℚ) :
    (rest.foldl (fun best y => if y < best then y else best) x) ∈ x :: rest ∧
    ∀ y ∈ x :: rest, rest.foldl (fun best y => if y < best then y else best) x ≤ y := by
  induction rest generalizing x with
  | nil => simp
  | cons z rest ih =>
    rw [List.foldl_cons]
    obtain ⟨hmem, hle⟩ := ih (if z < x then z else x)
    constructor
    · rcases List.mem_cons.mp hmem with h | h
      · rw [h]; split <;> simp
      · exact List.mem_cons_of_mem _ (List.mem_cons_of_mem _ h)
    · intro y hy
      have hstart := hle _ (List.mem_cons_self _ _)
      rcases List.mem_cons.mp hy with h | h
      · rw [h]
        refine le_trans hstart ?_
        split <;> [exact le_of_lt ‹_›; exact le_refl _]
      · rcases List.mem_cons.mp h with h2 | h2
        · rw [h2]
          refine le_trans hstart ?_
          split <;> [exact le_refl _; exact not_lt.mp ‹_›]
        · exact hle y (List.mem_cons_of_mem _ h2)

/-- C11: for every non-empty array `arr` of numbers, `Metrics.aggregatesFromArr(arr)` has
`total` the sum of `arr`, `avg` that sum divided by the length, `med` the median
`Metrics.median(arr)`, `min` the least and `max` the greatest element of `arr`, and
`values` equal to `arr` in its original order. -/
theorem aggregatesFromArr_spec (arr : List ℚ) (hne : arr ≠ []) :
    (Metrics.aggregatesFromArr arr).total = JSVal.num arr.sum ∧
    (Metrics.aggregatesFromArr arr).avg = JSVal.num (arr.sum / (arr.length : ℚ)) ∧
    (Metrics.aggregatesFromArr arr).med = Metrics.median arr ∧
    (∃ lo ∈ arr, (∀ x ∈ arr, lo ≤ x) ∧ (Metrics.aggregatesFromArr arr).min = JSVal.num lo) ∧
    (∃ hi ∈ arr, (∀ x ∈ arr, x ≤ hi) ∧ (Metrics.aggregatesFromArr arr).max = JSVal.num hi) ∧
    (Metrics.aggregatesFromArr arr).values = arr := by
  have hlen : arr.length ≠ 0 := fun h => hne (List.length_eq_zero.mp h)
  refine ⟨?_, ?_, rfl, ?_, ?_, rfl⟩
  · show Metrics.total arr = _
    unfold Metrics.total
    rw [if_neg hlen, sumReduce_eq_sum]
  · show Metrics.average arr = _
    unfold Metrics.average
    rw [if_neg hlen, sumReduce_eq_sum]
  · cases arr with
    | nil => exact absurd rfl hne
    | cons x rest =>
      obtain ⟨hmem, hle⟩ := foldl_min_spec rest x
      refine ⟨_, hmem, hle, ?_⟩
      show Metrics.min (x :: rest) = _
      unfold Metrics.min
      rw [if_neg hlen]; rfl
  · cases arr with
    | nil => exact absurd rfl hne
    | cons x rest =>
      obtain ⟨hmem, hle⟩ := foldl_max_spec rest x
      refine ⟨_, hmem, hle, ?_⟩
      show Metrics.max (x :: rest) = _
      unfold Metrics.max
      rw [if_neg hlen]; rfl

theorem aggregatesFromArr_spec_witness :
    ([3, 1, 2] : List ℚ) ≠ [] ∧
    (Metrics.aggregatesFromArr [3, 1, 2]).total = JSVal.num ([3, 1, 2] : List ℚ).sum ∧
    (Metrics.aggregatesFromArr [3, 1, 2]).values = [3, 1, 2] :=
  ⟨by simp, (aggregatesFromArr_spec [3, 1, 2] (by simp)).1,
    (aggregatesFromArr_spec [3, 1, 2] (by simp)).2.2.2.2.2⟩

/-! ## The normalized rank is not a function of the rank -/

/-- C20: on the sorted reference sequence `[1, 2]` the values `1` (which occurs) and
`3/2` (which does not) have the same `calcRank`, namely `1`, and different normalized
ranks as recorded by `calcScores`, namely `50` and `0`. -/
theorem normalizedRank_not_function_of_rank :
    ∃ (R : List ℚ) (v1 v2 : ℚ), R.Sorted (· ≤ ·) ∧ v1 ∈ R ∧ v2 ∉ R ∧
      (rankedMetric "ccM" R (JSVal.num v1)).rank = (rankedMetric "ccM" R (JSVal.num v2)).rank ∧
      (rankedMetric "ccM" R (JSVal.num v1)).normalizedRank = JSNum.fin 50 ∧
      (rankedMetric "ccM" R (JSVal.num v2)).normalizedRank = JSNum.fin 0 ∧
      (rankedMetric "ccM" R (JSVal.num v1)).normalizedRank
        ≠ (rankedMetric "ccM" R (JSVal.num v2)).normalizedRank := by
  refine ⟨[1, 2], 1, 3 / 2, by norm_num [List.Sorted], by simp, by norm_num, ?_, ?_, ?_, ?_⟩
  · norm_num [rankedMetric, calcRank, indexOf, indexOfFrom, firstGreaterFrom, strictEq, jsGt,
      JSVal.toNumber]
  · norm_num [rankedMetric, normalizedRank, indexOf, indexOfFrom, strictEq, JSNum.divCount,
      JSNum.mul]
  · norm_num [rankedMetric, normalizedRank, indexOf, indexOfFrom, strictEq, JSNum.divCount,
      JSNum.mul]
  · norm_num [rankedMetric, normalizedRank, indexOf, indexOfFrom, strictEq, JSNum.divCount,
      JSNum.mul]

/-! ## Claims about `Metrics.depth` and `Metrics.eachFunction` -/

mutual
theorem nesting_nonneg (node : Node) : 0 ≤ node.nesting := by
  match node with
  | .mk info children =>
    have h := maxNesting_nonneg children
    unfold Node.nesting
    split <;> omega
theorem maxNesting_nonneg (children : List Node) : 0 ≤ maxNesting children := by
  match children with
  | [] => simp [maxNesting]
  | child :: rest =>
    unfold maxNesting
    exact le_max_of_le_right (maxNesting_nonneg rest)
end

mutual
/-- The walk of `Metrics.depth` restores `currentLevel` and raises `maxLevel` to the
level reached inside the node. -/
theorem walk_depth (node : Node) (c m : Int) :
    walk depthEnter depthLeave node { currentLevel := c, maxLevel := m }
      = { currentLevel := c, maxLevel := max m (c + node.nesting) } := by
  match node with
  | .mk info children =>
    have hn := maxNesting_nonneg children
    unfold walk Node.nesting
    by_cases hb : info.type ∈ blockTypes
    · have henter : depthEnter (.mk info children) { currentLevel := c, maxLevel := m }
          = { currentLevel := c + 1, maxLevel := max (c + 1) m } := by
        simp [depthEnter, Node.type, Node.info, hb]
      rw [henter, walkChildren_depth children (c + 1) (max (c + 1) m) (le_max_left _ _)]
      simp only [depthLeave, Node.type, Node.info, hb, if_true]
      congr 1
      · omega
      · omega
    · have henter : depthEnter (.mk info children) { currentLevel := c, maxLevel := m }
          = { currentLevel := c, maxLevel := max c m } := by
        simp [depthEnter, Node.type, Node.info, hb]
      rw [henter, walkChildren_depth children c (max c m) (le_max_left _ _)]
      simp only [depthLeave, Node.type, Node.info, hb, if_false]
      congr 1
      omega
theorem walkChildren_depth (children : List Node) (c m : Int) (h : c ≤ m) :
    walkChildren depthEnter depthLeave children { currentLevel := c, maxLevel := m }
      = { currentLevel := c, maxLevel := max m (c + maxNesting children) } := by
  match children with
  | [] => simp [walkChildren, maxNesting, h]
  | child :: rest =>
    unfold walkChildren maxNesting
    rw [walk_depth child c m, walkChildren_depth rest c _ (le_max_of_le_left h)]
    congr 1
    omega
end

/-- The depth is the nesting computed bottom-up. -/
theorem depth_eq_nesting (tree : Node) : Metrics.depth tree = tree.nesting := by
  unfold Metrics.depth
  rw [walk_depth]
  have := nesting_nonneg tree
  simp only
  omega

mutual
theorem blockCounts_le (node : Node) (above : Int) :
    ∀ c ∈ node.blockCounts above, c ≤ above + node.nesting := by
  match node with
  | .mk info children =>
    intro c hc
    have hn := maxNesting_nonneg children
    unfold Node.blockCounts at hc
    unfold Node.nesting
    rcases List.mem_cons.mp hc with h | h
    · omega
    · have := blockCountsChildren_le children _ c h
      omega
theorem blockCountsChildren_le (children : List Node) (above : Int) :
    ∀ c ∈ blockCountsChildren above children, c ≤ above + maxNesting children := by
  match children with
  | [] => intro c hc; simp [blockCountsChildren] at hc
  | child :: rest =>
    intro c hc
    unfold blockCountsChildren at hc
    unfold maxNesting
    rcases List.mem_append.mp hc with h | h
    · have := blockCounts_le child above c h
      omega
    · have := blockCountsChildren_le rest above c h
      omega
end

mutual
theorem nesting_mem_blockCounts (node : Node) (above : Int) :
    above + node.nesting ∈ node.blockCounts above := by
  match node with
  | .mk info children =>
    unfold Node.blockCounts Node.nesting
    match children with
    | [] => simp [maxNesting]
    | child :: rest =>
      apply List.mem_cons_of_mem
      have := maxNesting_mem_blockCounts (child :: rest)
        (above + if info.type ∈ blockTypes then 1 else 0) (by simp)
      rw [← add_assoc]
      exact this
theorem maxNesting_mem_blockCounts (children : List Node) (above : Int)
    (hne : children ≠ []) :
    above + maxNesting children ∈ blockCountsChildren above children := by
  match children with
  | [] => exact absurd rfl hne
  | child :: rest =>
    unfold blockCountsChildren maxNesting
    match rest with
    | [] =>
      have h0 := nesting_nonneg child
      have : max child.nesting (maxNesting []) = child.nesting := by
        simp [maxNesting, h0]
      rw [this]
      exact List.mem_append_left _ (nesting_mem_blockCounts child above)
    | second :: more =>
      rcases le_total child.nesting (maxNesting (second :: more)) with h | h
      · rw [max_eq_right h]
        exact List.mem_append_right _
          (maxNesting_mem_blockCounts (second :: more) above (by simp))
      · rw [max_eq_left h]
        exact List.mem_append_left _ (nesting_mem_blockCounts child above)
end

mutual
theorem nesting_eq_zero (node : Node) (h : ∀ n ∈ node.preorder, n.type ∉ blockTypes) :
    node.nesting = 0 := by
  match node with
  | .mk info children =>
    unfold Node.preorder at h
    have hself : info.type ∉ blockTypes := h (.mk info children) (List.mem_cons_self _ _)
    have hrest := maxNesting_eq_zero children (fun n hn => h n (List.mem_cons_of_mem _ hn))
    unfold Node.nesting
    rw [hrest, if_neg hself]; rfl
theorem maxNesting_eq_zero (children : List Node)
    (h : ∀ n ∈ preorderChildren children, n.type ∉ blockTypes) : maxNesting children = 0 := by
  match children with
  | [] => rfl
  | child :: rest =>
    unfold preorderChildren at h
    unfold maxNesting
    rw [nesting_eq_zero child (fun n hn => h n (List.mem_append_left _ hn)),
      maxNesting_eq_zero rest (fun n hn => h n (List.mem_append_right _ hn))]
    rfl
end

theorem maxNesting_eq_foldr (children : List Node) :
    maxNesting children = (children.map Metrics.depth).foldr max 0 := by
  induction children with
  | nil => rfl
  | cons child rest ih =>
    unfold maxNesting
    rw [ih, List.map_cons, List.foldr_cons, depth_eq_nesting]

/-- C13: `Metrics.depth(tree)` is the maximum, over all nodes of the tree, of the number
of block nodes (`BlockStatement`, `ClassBody`, `FunctionBody`) on the path from the root
to that node, both included.  It is `0` when the tree has no block node; wrapping a
tree in one more block node raises the depth by exactly `1`; and the depth of a node is
its own contribution (`1` for a block node, `0` otherwise) plus the maximum of the
depths of its children, so sibling blocks do not add up. -/
theorem depth_spec (tree : Node) :
    Metrics.depth tree ∈ tree.blockCounts 0 ∧
    (∀ c ∈ tree.blockCounts 0, c ≤ Metrics.depth tree) ∧
    ((∀ n ∈ tree.preorder, n.type ∉ blockTypes) → Metrics.depth tree = 0) ∧
    (∀ info : NodeInfo, info.type ∈ blockTypes →
      Metrics.depth (Node.mk info [tree]) = Metrics.depth tree + 1) ∧
    (∀ (info : NodeInfo) (children : List Node), Node.mk info children = tree →
      Metrics.depth tree
        = (if info.type ∈ blockTypes then 1 else 0)
          + (children.map Metrics.depth).foldr max 0) := by
  refine ⟨?_, ?_, ?_, ?_, ?_⟩
  · rw [depth_eq_nesting]
    have := nesting_mem_blockCounts tree 0
    simpa using this
  · intro c hc
    rw [depth_eq_nesting]
    have := blockCounts_le tree 0 c hc
    simpa using this
  · intro h
    rw [depth_eq_nesting]
    exact nesting_eq_zero tree h
  · intro info hb
    rw [depth_eq_nesting, depth_eq_nesting]
    have h0 := nesting_nonneg tree
    have key : (Node.mk info [tree]).nesting = 1 + max tree.nesting 0 := by
      simp [Node.nesting, maxNesting, hb]
    rw [key, max_eq_left h0]
    omega
  · intro info children hmk
    subst hmk
    rw [depth_eq_nesting]
    unfold Node.nesting
    rw [maxNesting_eq_foldr]

theorem depth_spec_witness :
    (∀ n ∈ (plainNode "Program" [plainNode "Identifier" []]).preorder, n.type ∉ blockTypes) ∧
    Metrics.depth (plainNode "Program" [plainNode "Identifier" []]) = 0 ∧
    Metrics.depth (blockNode [plainNode "Program" [plainNode "Identifier" []]])
      = Metrics.depth (plainNode "Program" [plainNode "Identifier" []]) + 1 :=
  ⟨by decide,
    (depth_spec (plainNode "Program" [plainNode "Identifier" []])).2.2.1 (by decide),
    (depth_spec (plainNode "Program" [plainNode "Identifier" []])).2.2.2.1 _ (by decide)⟩

mutual
theorem walk_eachFunction {α : Type} (method : Node → α) (node : Node) (acc : List α) :
    walk (fun node result => if node.type ∈ functionTypes then result ++ [method node] else result)
        (fun _ result => result) node acc
      = acc ++ (node.preorder.filter (fun n => decide (n.type ∈ functionTypes))).map method := by
  match node with
  | .mk info children =>
    unfold walk Node.preorder
    rw [walkChildren_eachFunction method children]
    by_cases hf : info.type ∈ functionTypes
    · simp [Node.type, Node.info, hf, List.filter_cons]
    · simp [Node.type, Node.info, hf, List.filter_cons]
theorem walkChildren_eachFunction {α : Type} (method : Node → α) (children : List Node)
    (acc : List α) :
    walkChildren
        (fun node result => if node.type ∈ functionTypes then result ++ [method node] else result)
        (fun _ result => result) children acc
      = acc ++ ((preorderChildren children).filter
          (fun n => decide (n.type ∈ functionTypes))).map method := by
  match children with
  | [] => simp [walkChildren, preorderChildren]
  | child :: rest =>
    unfold walkChildren preorderChildren
    rw [walk_eachFunction method child, walkChildren_eachFunction method rest]
    simp [List.filter_append]
end

/-- C14: `Metrics.eachFunction(tree, Metrics.depth)` has exactly one entry per node of
type `FunctionExpression` or `ArrowFunctionExpression` of the tree, nested functions
included, in pre-order, and each entry is `Metrics.depth` of the subtree rooted at that
function node: wrapping the whole tree in one more block changes no entry. -/
theorem eachFunction_depth_spec (tree : Node) :
    Metrics.eachFunction tree Metrics.depth
      = (tree.preorder.filter (fun n => decide (n.type ∈ functionTypes))).map Metrics.depth ∧
    (Metrics.eachFunction tree Metrics.depth).length
      = tree.preorder.countP (fun n => decide (n.type ∈ functionTypes)) ∧
    Metrics.eachFunction (blockNode [tree]) Metrics.depth
      = Metrics.eachFunction tree Metrics.depth := by
  have h : ∀ t : Node, Metrics.eachFunction t Metrics.depth
      = (t.preorder.filter (fun n => decide (n.type ∈ functionTypes))).map Metrics.depth := by
    intro t
    unfold Metrics.eachFunction
    rw [walk_eachFunction]; simp
  refine ⟨h tree, ?_, ?_⟩
  · rw [h tree, List.length_map, List.countP_eq_length_filter]
  · rw [h, h tree]
    have hb : (blockNode [tree]).preorder = blockNode [tree] :: tree.preorder := by
      simp [blockNode, Node.preorder, preorderChildren]
    rw [hb, List.filter_cons]
    have : decide ((blockNode [tree]).type ∈ functionTypes) = false := by
      simp [blockNode, Node.type, Node.info, functionTypes]
    rw [this]; rfl

/-! ## Facts about objects and records -/

theorem JSObject.get_set {α : Type} (o : JSObject α) (key : String) (value : α) (k : String) :
    (o.set key value).get k = if k = key then some value else o.get k := rfl

theorem JSObject.keys_set {α : Type} (o : JSObject α) (key : String) (value : α) :
    (o.set key value).keys = if key ∈ o.keys then o.keys else o.keys ++ [key] := rfl

theorem JSObject.mem_keys_set {α : Type} (o : JSObject α) (key : String) (value : α)
    (k : String) : k ∈ (o.set key value).keys ↔ k ∈ o.keys ∨ k = key := by
  rw [JSObject.keys_set]
  split
  · constructor
    · exact Or.inl
    · rintro (h | h)
      · exact h
      · rw [h]; assumption
  · simp

theorem JSObject.mem_keys_set_of_mem {α : Type} (o : JSObject α) (key : String) (value : α)
    (k : String) (h : k ∈ o.keys) : k ∈ (o.set key value).keys :=
  (JSObject.mem_keys_set o key value k).mpr (Or.inl h)

theorem increment_get (key : String) (record : Record) (k : String) :
    (increment key record).get k
      = if k = key then
          (match record.get key with
            | some (RecVal.num q) => some (RecVal.num (q + 1))
            | other => other)
        else record.get k := by
  unfold increment
  by_cases hk : k = key
  · subst hk
    cases hq : record.get k with
    | none => simp [hq]
    | some v => cases v <;> simp [hq, JSObject.get_set]
  · cases hq : record.get key with
    | none => simp [hk]
    | some v => cases v <;> simp [hk, JSObject.get_set]

theorem increment_get_of_ne (key : String) (record : Record) (k : String) (h : k ≠ key) :
    (increment key record).get k = record.get k := by
  rw [increment_get, if_neg h]

theorem increment_get_self (key : String) (record : Record) (q : ℚ)
    (h : record.get key = some (RecVal.num q)) :
    (increment key record).get key = some (RecVal.num (q + 1)) := by
  rw [increment_get, if_pos rfl, h]

theorem increment_keys (key : String) (record : Record) (k : String) :
    k ∈ (increment key record).keys ↔ k ∈ record.keys ∨
      (k = key ∧ ∃ q, record.get key = some (RecVal.num q)) := by
  unfold increment
  split
  · rename_i q hq
    rw [JSObject.mem_keys_set]
    constructor
    · rintro (h | h)
      · exact Or.inl h
      · exact Or.inr ⟨h, q, hq⟩
    · rintro (h | ⟨h, _⟩)
      · exact Or.inl h
      · exact Or.inr h
  · rename_i hq
    constructor
    · exact Or.inl
    · rintro (h | ⟨_, q, hq2⟩)
      · exact h
      · exact absurd hq2 (hq q)

theorem pushTo_get (key : String) (x : ℚ) (record : Record) (k : String) :
    (pushTo key x record).get k
      = if k = key then
          (match record.get key with
            | some (RecVal.arr xs) => some (RecVal.arr (xs ++ [x]))
            | other => other)
        else record.get k := by
  unfold pushTo
  by_cases hk : k = key
  · subst hk
    cases hq : record.get k with
    | none => simp [hq]
    | some v => cases v <;> simp [hq, JSObject.get_set]
  · cases hq : record.get key with
    | none => simp [hk]
    | some v => cases v <;> simp [hk, JSObject.get_set]

theorem pushTo_keys (key : String) (x : ℚ) (record : Record) (k : String)
    (h : k ∈ record.keys) : k ∈ (pushTo key x record).keys := by
  unfold pushTo
  split
  · rw [JSObject.mem_keys_set]; exact Or.inl h
  · exact h

/-- With an identity `leave`, a walk is the fold of `enter` over the nodes in pre-order. -/
theorem walk_eq_foldl_aux {σ : Type} (enter : Node → σ → σ) :
    (∀ (node : Node) (s : σ), walk enter (fun _ state => state) node s
        = node.preorder.foldl (fun state n => enter n state) s) ∧
    (∀ (children : List Node) (s : σ), walkChildren enter (fun _ state => state) children s
        = (preorderChildren children).foldl (fun state n => enter n state) s) := by
  have hnode : ∀ node : Node, (∀ s : σ, walk enter (fun _ state => state) node s
        = node.preorder.foldl (fun state n => enter n state) s) := by
    intro node
    induction node using Node.rec
      (motive_2 := fun children => ∀ s : σ,
        walkChildren enter (fun _ state => state) children s
          = (preorderChildren children).foldl (fun state n => enter n state) s) with
    | mk info children ih =>
      intro s
      unfold walk Node.preorder
      rw [ih, List.foldl_cons]
    | nil => simp [walkChildren, preorderChildren]
    | cons child rest ihc ihr =>
      unfold walkChildren preorderChildren
      rw [ihc, ihr, List.foldl_append]
  refine ⟨hnode, ?_⟩
  intro children
  induction children with
  | nil => intro s; simp [walkChildren, preorderChildren]
  | cons child rest ih =>
    intro s
    unfold walkChildren preorderChildren
    rw [hnode child, ih, List.foldl_append]

theorem walk_eq_foldl {σ : Type} (enter : Node → σ → σ) (node : Node) (s : σ) :
    walk enter (fun _ state => state) node s
      = node.preorder.foldl (fun state n => enter n state) s :=
  (walk_eq_foldl_aux enter).1 node s

/-! ## Facts about the coupling pass -/

theorem field_set (m : JSObject Record) (p : String) (r : Record) (q k : String) :
    field (m.set p r) q k = if q = p then r.get k else field m q k := by
  unfold field
  rw [JSObject.get_set]
  split <;> rfl

/-- One step of the loop over `Object.keys(metrics)`. -/
theorem bumpStep_field (name : String) (m : JSObject Record) (t p k : String)
    (hk : k ≠ "acM") :
    field (if includes (lastSegment t) name then
        match m.get t with
        | some record => m.set t (increment "acM" record)
        | none => m
      else m) p k = field m p k := by
  split
  · cases ht : m.get t with
    | none => rfl
    | some record =>
      simp only
      rw [field_set]
      split
      · rename_i hpt
        subst hpt
        rw [increment_get_of_ne _ _ _ hk]
        unfold field; rw [ht]; rfl
      · rfl
  · rfl

/-- The loop over `Object.keys(metrics)` changes no property other than `acM`. -/
theorem bumpAfferent_field (name : String) (m : JSObject Record) (p k : String)
    (hk : k ≠ "acM") : field (bumpAfferent name m) p k = field m p k := by
  unfold bumpAfferent
  generalize m.keys = keys
  induction keys generalizing m with
  | nil => rfl
  | cons t rest ih =>
    rw [List.foldl_cons, ih, bumpStep_field name m t p k hk]

/-- A call of `enter` for the file `q` leaves `ecM` of every other file as it was. -/
theorem importEnter_ecM_other (q p : String) (hpq : p ≠ q) (node : Node) (state : ImportState) :
    field (importEnter q node state).metrics p "ecM" = field state.metrics p "ecM" := by
  unfold importEnter
  split
  · rfl
  · cases importPathOf node with
    | none => rfl
    | some importPath =>
      simp only
      cases state.metrics.get q with
      | none => rfl
      | some record =>
        cases importPath with
        | nonString =>
          simp only
          rw [field_set, if_neg hpq]
        | str s =>
          simp only
          rw [bumpAfferent_field _ _ _ _ (by decide), field_set, if_neg hpq]

/-- A call of `enter` for the file `p` on a node that is not an import with a
non-string source does not throw, and when the node is an import it adds one to `ecM`
of `p`. -/
theorem importEnter_ecM_self (p : String) (node : Node) (state : ImportState) (e : ℚ)
    (hthrown : state.thrown = false)
    (hec : field state.metrics p "ecM" = some (RecVal.num e))
    (hstr : importPathOf node ≠ some LitValue.nonString) :
    (importEnter p node state).thrown = false ∧
    field (importEnter p node state).metrics p "ecM"
      = some (RecVal.num (e + if (importPathOf node).isSome then 1 else 0)) := by
  unfold importEnter
  rw [hthrown]
  simp only [Bool.false_eq_true, if_false]
  cases hpath : importPathOf node with
  | none => simp [hthrown, hec]
  | some importPath =>
    simp only
    cases hget : state.metrics.get p with
    | none =>
      unfold field at hec
      rw [hget] at hec
      cases hec
    | some record =>
      have hrec : record.get "ecM" = some (RecVal.num e) := by
        unfold field at hec
        rw [hget] at hec
        exact hec
      cases importPath with
      | nonString => exact absurd hpath hstr
      | str s =>
        simp only
        refine ⟨trivial, ?_⟩
        rw [bumpAfferent_field _ _ _ _ (by decide), field_set, if_pos rfl,
          increment_get_self _ _ _ hrec]
        simp

theorem foldl_importEnter_ecM_other (q p : String) (hpq : p ≠ q) (nodes : List Node)
    (state : ImportState) :
    field (nodes.foldl (fun st n => importEnter q n st) state).metrics p "ecM"
      = field state.metrics p "ecM" := by
  induction nodes generalizing state with
  | nil => rfl
  | cons n rest ih => rw [List.foldl_cons, ih, importEnter_ecM_other q p hpq]

theorem foldl_importEnter_ecM_self (p : String) (nodes : List Node) (state : ImportState)
    (e : ℚ) (hthrown : state.thrown = false)
    (hec : field state.metrics p "ecM" = some (RecVal.num e))
    (hstr : ∀ n ∈ nodes, importPathOf n ≠ some LitValue.nonString) :
    field (nodes.foldl (fun st n => importEnter p n st) state).metrics p "ecM"
      = some (RecVal.num (e + (nodes.countP (fun n => (importPathOf n).isSome) : ℚ))) := by
  induction nodes generalizing state e with
  | nil => simpa using hec
  | cons n rest ih =>
    obtain ⟨h1, h2⟩ := importEnter_ecM_self p n state e hthrown hec
      (hstr n (List.mem_cons_self _ _))
    rw [List.foldl_cons, ih _ _ h1 h2 (fun x hx => hstr x (List.mem_cons_of_mem _ hx)),
      List.countP_cons]
    congr 2
    split <;> (push_cast; ring)

/-- The coupling pass over one file `q` leaves `ecM` of every other file as it was. -/
theorem importsOfFile_ecM_other (w : World) (m : JSObject Record) (q p : String)
    (hpq : p ≠ q) : field (importsOfFile w m q) p "ecM" = field m p "ecM" := by
  unfold importsOfFile
  cases Metrics.parse w q with
  | error _ => rfl
  | ok tree =>
    simp only
    rw [walk_eq_foldl, foldl_importEnter_ecM_other q p hpq]

/-- The coupling pass over a file whose import sources are all strings adds the number
of its import nodes to its `ecM`. -/
theorem importsOfFile_ecM_self (w : World) (m : JSObject Record) (p : String) (tree : Node)
    (e : ℚ) (hparse : Metrics.parse w p = Except.ok tree)
    (hec : field m p "ecM" = some (RecVal.num e))
    (hstr : ∀ n ∈ tree.preorder, importPathOf n ≠ some LitValue.nonString) :
    field (importsOfFile w m p) p "ecM"
      = some (RecVal.num (e + (tree.preorder.countP (fun n => (importPathOf n).isSome) : ℚ))) := by
  unfold importsOfFile
  rw [hparse]
  simp only
  rw [walk_eq_foldl]
  exact foldl_importEnter_ecM_self p tree.preorder _ e rfl hec hstr

theorem importsPerModule_ecM_not_mem (w : World) (paths : List String) (m : JSObject Record)
    (p : String) (hp : p ∉ paths) :
    field (Metrics.importsPerModule w paths m) p "ecM" = field m p "ecM" := by
  unfold Metrics.importsPerModule
  induction paths generalizing m with
  | nil => rfl
  | cons q rest ih =>
    have hpq : p ≠ q := fun h => hp (h ▸ List.mem_cons_self _ _)
    rw [List.foldl_cons, ih _ (fun h => hp (List.mem_cons_of_mem _ h))]
    exact importsOfFile_ecM_other w m q p hpq

/-- After `importsPerModule`, `ecM` of a file that parses and whose import sources are
all strings has grown by the number of its import nodes. -/
theorem importsPerModule_ecM (w : World) (paths : List String) (m : JSObject Record)
    (p : String) (tree : Node) (e : ℚ) (hnodup : paths.Nodup) (hp : p ∈ paths)
    (hparse : Metrics.parse w p = Except.ok tree)
    (hec : field m p "ecM" = some (RecVal.num e))
    (hstr : ∀ n ∈ tree.preorder, importPathOf n ≠ some LitValue.nonString) :
    field (Metrics.importsPerModule w paths m) p "ecM"
      = some (RecVal.num (e + (tree.preorder.countP (fun n => (importPathOf n).isSome) : ℚ))) := by
  induction paths generalizing m with
  | nil => cases hp
  | cons q rest ih =>
    have hnd := List.nodup_cons.mp hnodup
    show field (Metrics.importsPerModule w rest (importsOfFile w m q)) p "ecM" = _
    by_cases hpq : p = q
    · subst hpq
      rw [importsPerModule_ecM_not_mem w rest _ p hnd.1]
      exact importsOfFile_ecM_self w m p tree e hparse hec hstr
    · have hp2 : p ∈ rest := by
        rcases List.mem_cons.mp hp with h | h
        · exact absurd h hpq
        · exact h
      exact ih _ hnd.2 hp2 (by rw [importsOfFile_ecM_other w m q p hpq]; exact hec)

/-! ## Facts about the first pass -/

theorem firstPass_get_aux (w : World) (paths : List String) (o : JSObject Record) (p : String) :
    (paths.foldl (fun result path => result.set path (analyseFile w path)) o).get p
      = if p ∈ paths then some (analyseFile w p) else o.get p := by
  induction paths generalizing o with
  | nil => simp
  | cons q rest ih =>
    rw [List.foldl_cons, ih, JSObject.get_set]
    by_cases hrest : p ∈ rest
    · simp [hrest]
    · by_cases hpq : p = q
      · simp [hpq]
      · simp [hrest, hpq]

/-- After the first pass every discovered path has a record, and no other key has. -/
theorem firstPass_get (w : World) (paths : List String) (p : String) :
    (firstPass w paths).get p = if p ∈ paths then some (analyseFile w p) else none := by
  unfold firstPass
  rw [firstPass_get_aux]; rfl

theorem methodStep_get_column (column : String × (FunctionReport → ℚ))
    (hcol : column ∈ methodColumns) (m : Record) (method : FunctionReport) (xs : List ℚ)
    (h : m.get column.1 = some (RecVal.arr xs)) :
    (methodStep m method).get column.1 = some (RecVal.arr (xs ++ [column.2 method])) := by
  simp only [methodColumns, List.mem_cons, List.mem_singleton, List.not_mem_nil, or_false] at hcol
  rcases hcol with rfl | rfl | rfl | rfl | rfl | rfl | rfl | rfl | rfl | rfl | rfl <;>
    simp [methodStep, pushTo_get, increment_get] at h ⊢ <;> simp [h]

theorem methodStep_get_other (k : String) (hk : k ∉ methodColumns.map (fun c => c.1))
    (hnoF : k ≠ "noF") (m : Record) (method : FunctionReport) :
    (methodStep m method).get k = m.get k := by
  simp only [methodColumns, List.map_cons, List.map_nil, List.mem_cons, List.mem_singleton,
    List.not_mem_nil, or_false, not_or] at hk
  obtain ⟨h1, h2, h3, h4, h5, h6, h7, h8, h9, h10, h11⟩ := hk
  simp [methodStep, pushTo_get, increment_get, *]

theorem methodStep_get_noF (m : Record) (method : FunctionReport) (n : ℚ)
    (h : m.get "noF" = some (RecVal.num n)) :
    (methodStep m method).get "noF" = some (RecVal.num (n + 1)) := by
  simp [methodStep, pushTo_get, increment_get, h]

theorem foldl_methodStep_get_column (column : String × (FunctionReport → ℚ))
    (hcol : column ∈ methodColumns) (methods : List FunctionReport) (m : Record) (xs : List ℚ)
    (h : m.get column.1 = some (RecVal.arr xs)) :
    (methods.foldl methodStep m).get column.1
      = some (RecVal.arr (xs ++ methods.map column.2)) := by
  induction methods generalizing m xs with
  | nil => simpa using h
  | cons method rest ih =>
    rw [List.foldl_cons, ih _ _ (methodStep_get_column column hcol m method xs h)]
    simp

theorem foldl_methodStep_get_other (k : String) (hk : k ∉ methodColumns.map (fun c => c.1))
    (hnoF : k ≠ "noF") (methods : List FunctionReport) (m : Record) :
    (methods.foldl methodStep m).get k = m.get k := by
  induction methods generalizing m with
  | nil => rfl
  | cons method rest ih => rw [List.foldl_cons, ih, methodStep_get_other k hk hnoF]

theorem foldl_methodStep_get_noF (methods : List FunctionReport) (m : Record) (n : ℚ)
    (h : m.get "noF" = some (RecVal.num n)) :
    (methods.foldl methodStep m).get "noF" = some (RecVal.num (n + (methods.length : ℚ))) := by
  induction methods generalizing m n with
  | nil => simpa using h
  | cons method rest ih =>
    rw [List.foldl_cons, ih _ _ (methodStep_get_noF m method n h)]
    simp only [List.length_cons]
    push_cast
    congr 2; ring

theorem methodStep_keys (k : String) (m : Record) (method : FunctionReport)
    (h : k ∈ m.keys) : k ∈ (methodStep m method).keys := by
  unfold methodStep
  repeat apply pushTo_keys
  exact (increment_keys _ _ _).mpr (Or.inl h)

theorem foldl_methodStep_keys (k : String) (methods : List FunctionReport) (m : Record)
    (h : k ∈ m.keys) : k ∈ (methods.foldl methodStep m).keys := by
  induction methods generalizing m with
  | nil => exact h
  | cons method rest ih => rw [List.foldl_cons]; exact ih _ (methodStep_keys k m method h)

theorem setFileMetrics_keys (w : World) (path : String) (complex : ModuleReport)
    (m : Record) (k : String) (h : k ∈ m.keys) :
    k ∈ (setFileMetrics w path complex m).keys := by
  unfold setFileMetrics
  iterate 13 apply JSObject.mem_keys_set_of_mem
  exact h

theorem setTreeMetrics_keys (tree : Node) (complex : ModuleReport) (m : Record) (k : String)
    (h : k ∈ m.keys) : k ∈ (setTreeMetrics tree complex m).keys := by
  unfold setTreeMetrics
  iterate 4 apply JSObject.mem_keys_set_of_mem
  exact h

theorem initialValues_get (k : String) :
    initialValues.get k
      = if k = "acM" then some (RecVal.num 0) else if k = "ecM" then some (RecVal.num 0)
        else if k = "dpF" then some (RecVal.arr []) else if k = "paramF" then some (RecVal.arr [])
        else if k = "hvolF" then some (RecVal.arr []) else if k = "hvocabF" then some (RecVal.arr [])
        else if k = "htimeF" then some (RecVal.arr []) else if k = "hlengthF" then some (RecVal.arr [])
        else if k = "heffortF" then some (RecVal.arr []) else if k = "hdiffF" then some (RecVal.arr [])
        else if k = "hbugsF" then some (RecVal.arr []) else if k = "ccF" then some (RecVal.arr [])
        else if k = "loclF" then some (RecVal.arr []) else if k = "locF" then some (RecVal.arr [])
        else if k = "noF" then some (RecVal.num 0) else none := by
  simp [initialValues, JSObject.ofEntries, JSObject.set, JSObject.empty]

theorem initialValues_keys :
    initialValues.keys
      = ["noF", "locF", "loclF", "ccF", "hbugsF", "hdiffF", "heffortF", "hlengthF", "htimeF",
         "hvocabF", "hvolF", "paramF", "dpF", "ecM", "acM"] := by
  simp [initialValues, JSObject.ofEntries, JSObject.set, JSObject.empty]

theorem setFileMetrics_initial_keys (w : World) (path : String) (complex : ModuleReport) :
    (setFileMetrics w path complex initialValues).keys
      = ["noF", "locF", "loclF", "ccF", "hbugsF", "hdiffF", "heffortF", "hlengthF", "htimeF",
         "hvocabF", "hvolF", "paramF", "dpF", "ecM", "acM", "locM", "loccM", "loclM", "ccM",
         "hbugsM", "hdiffM", "heffortM", "hlengthM", "htimeM", "hvocabM", "hvolM", "paramM",
         "maintainM"] := by
  simp [setFileMetrics, JSObject.keys_set, initialValues_keys]

theorem collected_get_column (w : World) (path : String) (tree : Node) (complex : ModuleReport)
    (column : String × (FunctionReport → ℚ)) (hcol : column ∈ methodColumns) :
    (collected w path tree complex).get column.1
      = some (RecVal.arr (complex.methods.map column.2)) := by
  have hinit : (setFileMetrics w path complex initialValues).get column.1
      = some (RecVal.arr []) := by
    simp only [methodColumns, List.mem_cons, List.mem_singleton, List.not_mem_nil,
      or_false] at hcol
    rcases hcol with rfl | rfl | rfl | rfl | rfl | rfl | rfl | rfl | rfl | rfl | rfl <;>
      simp [setFileMetrics, JSObject.get_set, initialValues_get]
  have hfold := foldl_methodStep_get_column column hcol complex.methods _ [] hinit
  have hne : column.1 ≠ "nofM" ∧ column.1 ≠ "dpM" ∧ column.1 ≠ "dpF" ∧ column.1 ≠ "mcM" := by
    simp only [methodColumns, List.mem_cons, List.mem_singleton, List.not_mem_nil,
      or_false] at hcol
    rcases hcol with rfl | rfl | rfl | rfl | rfl | rfl | rfl | rfl | rfl | rfl | rfl <;> simp
  unfold collected setTreeMetrics
  simp only [JSObject.get_set, hne.1, hne.2.1, hne.2.2.1, hne.2.2.2, if_false]
  simpa using hfold

theorem collected_get_dpF (w : World) (path : String) (tree : Node) (complex : ModuleReport) :
    (collected w path tree complex).get "dpF"
      = some (RecVal.arr ((Metrics.eachFunction tree Metrics.depth).map (fun d => (d : ℚ)))) := by
  unfold collected setTreeMetrics
  simp [JSObject.get_set]

theorem collected_get_scalar (w : World) (path : String) (tree : Node) (complex : ModuleReport)
    (entry : String × ℚ) (h : entry ∈ assignedScalars w path tree complex) :
    (collected w path tree complex).get entry.1 = some (RecVal.num entry.2) := by
  simp only [assignedScalars, List.mem_cons, List.mem_singleton, List.not_mem_nil,
    or_false] at h
  have hnoF : (collected w path tree complex).get "noF"
      = some (RecVal.num (complex.methods.length : ℚ)) := by
    have h0 : (setFileMetrics w path complex initialValues).get "noF" = some (RecVal.num 0) := by
      simp [setFileMetrics, JSObject.get_set, initialValues_get]
    have := foldl_methodStep_get_noF complex.methods _ 0 h0
    unfold collected setTreeMetrics
    simp only [JSObject.get_set]
    simpa using this
  have hfile : ∀ k : String, k ∉ methodColumns.map (fun c => c.1) → k ≠ "noF" →
      k ≠ "nofM" → k ≠ "dpM" → k ≠ "dpF" → k ≠ "mcM" →
      (collected w path tree complex).get k
        = (setFileMetrics w path complex initialValues).get k := by
    intro k hk1 hk2 hk3 hk4 hk5 hk6
    unfold collected setTreeMetrics
    simp only [JSObject.get_set, hk3, hk4, hk5, hk6, if_false]
    exact foldl_methodStep_get_other k hk1 hk2 _ _
  rcases h with rfl | rfl | rfl | rfl | rfl | rfl | rfl | rfl | rfl | rfl | rfl | rfl | rfl |
    rfl | rfl | rfl | rfl
  · exact hnoF
  iterate 13
    (rw [hfile _ (by simp [methodColumns]) (by simp) (by simp) (by simp) (by simp) (by simp)]
     simp [setFileMetrics, JSObject.get_set])
  all_goals (unfold collected setTreeMetrics; simp [JSObject.get_set])

theorem collected_get_coupling (w : World) (path : String) (tree : Node)
    (complex : ModuleReport) (k : String) (hk : k = "ecM" ∨ k = "acM") :
    (collected w path tree complex).get k = some (RecVal.num 0) := by
  have hfile : (collected w path tree complex).get k
        = (setFileMetrics w path complex initialValues).get k := by
    unfold collected setTreeMetrics
    rcases hk with rfl | rfl
    · simp only [JSObject.get_set]
      rw [foldl_methodStep_get_other _ (by simp [methodColumns]) (by simp)]
      simp
    · simp only [JSObject.get_set]
      rw [foldl_methodStep_get_other _ (by simp [methodColumns]) (by simp)]
      simp
  rw [hfile]
  rcases hk with rfl | rfl <;> simp [setFileMetrics, JSObject.get_set, initialValues_get]

theorem collected_keys (w : World) (path : String) (tree : Node) (complex : ModuleReport)
    (k : String) (h : k ∈ initialValues.keys) : k ∈ (collected w path tree complex).keys :=
  setTreeMetrics_keys tree complex _ k
    (foldl_methodStep_keys k _ _ (setFileMetrics_keys w path complex _ k h))

theorem mem_entries {α : Type} (o : JSObject α) (e : String × α) (h : e ∈ o.entries) :
    e.1 ∈ o.keys ∧ o.get e.1 = some e.2 := by
  unfold JSObject.entries at h
  obtain ⟨k, hk, hmap⟩ := List.mem_filterMap.mp h
  cases hget : o.get k with
  | none => rw [hget] at hmap; cases hmap
  | some v =>
    rw [hget] at hmap
    simp only [Option.map_some', Option.some.injEq] at hmap
    subst hmap
    exact ⟨hk, hget⟩

theorem exists_entry {α : Type} (o : JSObject α) (k : String) (v : α) (hk : k ∈ o.keys)
    (hget : o.get k = some v) : (k, v) ∈ o.entries := by
  unfold JSObject.entries
  exact List.mem_filterMap.mpr ⟨k, hk, by rw [hget]; rfl⟩

theorem aggregateEntry_get (acc : Record) (e : String × RecVal) (k : String) :
    (aggregateEntry acc e).get k
      = if k = e.1 ∧ aggregated e.2 ≠ e.2 then some (aggregated e.2) else acc.get k := by
  obtain ⟨key, v⟩ := e
  cases v with
  | num q => simp [aggregateEntry, aggregated]
  | aggr a => simp [aggregateEntry, aggregated]
  | arr xs =>
    by_cases hlen : xs.length > 0
    · by_cases hk : k = key
      · simp [aggregateEntry, aggregated, hlen, JSObject.get_set, hk]
      · simp [aggregateEntry, aggregated, hlen, JSObject.get_set, hk]
    · simp [aggregateEntry, aggregated, hlen]

theorem foldl_aggregateEntry_get (m : Record) (k : String) (entries : List (String × RecVal))
    (acc : Record) (hentries : ∀ e ∈ entries, m.get e.1 = some e.2)
    (hacc : acc.get k = m.get k ∨ acc.get k = (m.get k).map aggregated) :
    (entries.foldl aggregateEntry acc).get k
      = if ∃ e ∈ entries, e.1 = k then (m.get k).map aggregated else acc.get k := by
  induction entries generalizing acc with
  | nil => simp
  | cons e rest ih =>
    have he := hentries e (List.mem_cons_self _ _)
    have hrest : ∀ x ∈ rest, m.get x.1 = some x.2 :=
      fun x hx => hentries x (List.mem_cons_of_mem _ hx)
    rw [List.foldl_cons]
    by_cases hk : e.1 = k
    · have hstep : (aggregateEntry acc e).get k = (m.get k).map aggregated := by
        rw [aggregateEntry_get]
        rw [← hk, he]
        by_cases hag : aggregated e.2 = e.2
        · have hacc2 : acc.get e.1 = some e.2 := by
            rcases hacc with h | h
            · rw [← hk] at h; rw [h, he]
            · rw [← hk] at h; rw [h, he]; simp [hag]
          simp [hag, hacc2]
        · simp [hag]
      rw [ih _ hrest (Or.inr hstep), hstep]
      have : ∃ x ∈ e :: rest, x.1 = k := ⟨e, List.mem_cons_self _ _, hk⟩
      simp only [this, if_true]
      split <;> rfl
    · have hstep : (aggregateEntry acc e).get k = acc.get k := by
        rw [aggregateEntry_get]
        have : ¬ (k = e.1 ∧ aggregated e.2 ≠ e.2) := fun h => hk h.1.symm
        rw [if_neg this]
      rw [ih _ hrest (by rw [hstep]; exact hacc), hstep]
      have hiff : (∃ x ∈ e :: rest, x.1 = k) ↔ (∃ x ∈ rest, x.1 = k) := by
        constructor
        · rintro ⟨x, hx, hxk⟩
          rcases List.mem_cons.mp hx with h | h
          · exact absurd (h ▸ hxk) hk
          · exact ⟨x, h, hxk⟩
        · rintro ⟨x, hx, hxk⟩
          exact ⟨x, List.mem_cons_of_mem _ hx, hxk⟩
      simp only [hiff]

/-- The aggregation loop replaces the value of every key of the record by its
aggregated form. -/
theorem aggregateArrays_get (m : Record) (k : String) (hk : k ∈ m.keys) :
    (aggregateArrays m).get k = (m.get k).map aggregated := by
  unfold aggregateArrays
  rw [foldl_aggregateEntry_get m k m.entries m (fun e he => (mem_entries m e he).2) (Or.inl rfl)]
  cases hget : m.get k with
  | none => simp
  | some v =>
    have : ∃ e ∈ m.entries, e.1 = k := ⟨(k, v), exists_entry m k v hk hget, rfl⟩
    simp [this]

/-- The record of a file that was parsed and analysed. -/
theorem analyseFile_of_ok (w : World) (path : String) (tree : Node) (complex : ModuleReport)
    (hparse : Metrics.parse w path = Except.ok tree)
    (hcomplex : w.complexity tree = some complex) :
    analyseFile w path = aggregateArrays (collected w path tree complex) := by
  unfold analyseFile
  rw [hparse]
  simp only [hcomplex]
  rfl

/-- In every record of the first pass `ecM` and `acM` are `0`. -/
theorem analyseFile_get_coupling (w : World) (path : String) (k : String)
    (hk : k = "ecM" ∨ k = "acM") : (analyseFile w path).get k = some (RecVal.num 0) := by
  have hinit : initialValues.get k = some (RecVal.num 0) := by
    rcases hk with rfl | rfl <;> simp [initialValues_get]
  have hkeys : k ∈ initialValues.keys := by
    rcases hk with rfl | rfl <;> simp [initialValues_keys]
  unfold analyseFile
  cases hparse : Metrics.parse w path with
  | error _ => exact hinit
  | ok tree =>
    simp only
    cases hcomplex : w.complexity tree with
    | none => exact hinit
    | some complex =>
      simp only
      show (aggregateArrays (collected w path tree complex)).get k = _
      rw [aggregateArrays_get _ _ (collected_keys w path tree complex k hkeys),
        collected_get_coupling w path tree complex k hk]
      rfl

/-- A call of `enter` changes no property other than `ecM` and `acM`. -/
theorem importEnter_field_other (q p k : String) (hec : k ≠ "ecM") (hac : k ≠ "acM")
    (node : Node) (state : ImportState) :
    field (importEnter q node state).metrics p k = field state.metrics p k := by
  unfold importEnter
  split
  · rfl
  · cases importPathOf node with
    | none => rfl
    | some importPath =>
      simp only
      cases hget : state.metrics.get q with
      | none => rfl
      | some record =>
        have hset : field (state.metrics.set q (increment "ecM" record)) p k
            = field state.metrics p k := by
          rw [field_set]
          split
          · rename_i hpq
            subst hpq
            rw [increment_get_of_ne _ _ _ hec]
            unfold field; rw [hget]; rfl
          · rfl
        cases importPath with
        | nonString => exact hset
        | str s =>
          simp only
          rw [bumpAfferent_field _ _ _ _ hac, hset]

theorem foldl_importEnter_field_other (q p k : String) (hec : k ≠ "ecM") (hac : k ≠ "acM")
    (nodes : List Node) (state : ImportState) :
    field (nodes.foldl (fun st n => importEnter q n st) state).metrics p k
      = field state.metrics p k := by
  induction nodes generalizing state with
  | nil => rfl
  | cons n rest ih => rw [List.foldl_cons, ih, importEnter_field_other q p k hec hac]

theorem importsOfFile_field_other (w : World) (m : JSObject Record) (q p k : String)
    (hec : k ≠ "ecM") (hac : k ≠ "acM") :
    field (importsOfFile w m q) p k = field m p k := by
  unfold importsOfFile
  cases Metrics.parse w q with
  | error _ => rfl
  | ok tree =>
    simp only
    rw [walk_eq_foldl, foldl_importEnter_field_other q p k hec hac]

/-- The coupling pass changes no property other than `ecM` and `acM`. -/
theorem importsPerModule_field_other (w : World) (paths : List String) (m : JSObject Record)
    (p k : String) (hec : k ≠ "ecM") (hac : k ≠ "acM") :
    field (Metrics.importsPerModule w paths m) p k = field m p k := by
  unfold Metrics.importsPerModule
  induction paths generalizing m with
  | nil => rfl
  | cons q rest ih => rw [List.foldl_cons, ih, importsOfFile_field_other w m q p k hec hac]

/-- The properties of a successfully analysed file after the first pass. -/
theorem firstPass_field (w : World) (paths : List String) (p k : String) (hp : p ∈ paths) :
    field (firstPass w paths) p k = (analyseFile w p).get k := by
  unfold field
  rw [firstPass_get, if_pos hp]; rfl

/-! ## Claims about `Metrics.calcForDir` and `Metrics.importsPerModule` -/

/-- C12 (refuted as stated): a file that is parsed and analysed successfully and has no
function keeps the empty array in `locF`; it is not replaced by an aggregate. -/
theorem calcForPaths_keeps_empty_array :
    Metrics.parse (worldOf (plainNode "Program" [])) "a.js"
      = Except.ok (plainNode "Program" []) ∧
    (worldOf (plainNode "Program" [])).complexity (plainNode "Program" []) = some emptyReport ∧
    field (calcForPaths (worldOf (plainNode "Program" [])) ["a.js"]) "a.js" "locF"
      = some (RecVal.arr []) ∧
    (∀ a : AggregateStat,
      field (calcForPaths (worldOf (plainNode "Program" [])) ["a.js"]) "a.js" "locF"
        ≠ some (RecVal.aggr a)) := by
  have h : field (calcForPaths (worldOf (plainNode "Program" [])) ["a.js"]) "a.js" "locF"
      = some (RecVal.arr []) := by decide
  refine ⟨rfl, rfl, h, ?_⟩
  intro a ha
  rw [h] at ha
  cases ha

/-- C12 (amended): in the record that `Metrics.calcForDir` produces for a file that is
parsed and analysed successfully, every per-function array with at least one element
is replaced by its aggregate, every empty per-function array stays an empty array,
and every scalar file-level metric assigned in the first pass keeps its value. -/
theorem calcForPaths_aggregates (w : World) (paths : List String) (p : String) (tree : Node)
    (complex : ModuleReport) (hp : p ∈ paths)
    (hparse : Metrics.parse w p = Except.ok tree)
    (hcomplex : w.complexity tree = some complex) :
    (∀ entry ∈ collectedArrays tree complex,
      field (calcForPaths w paths) p entry.1
        = some (if entry.2 = [] then RecVal.arr []
                else RecVal.aggr (Metrics.aggregatesFromArr entry.2))) ∧
    (∀ entry ∈ assignedScalars w p tree complex,
      field (calcForPaths w paths) p entry.1 = some (RecVal.num entry.2)) := by
  have hagg : ∀ xs : List ℚ, aggregated (RecVal.arr xs)
      = if xs = [] then RecVal.arr [] else RecVal.aggr (Metrics.aggregatesFromArr xs) := by
    intro xs
    cases xs with
    | nil => rfl
    | cons x rest => simp [aggregated]
  constructor
  · intro entry hentry
    have hne : entry.1 ≠ "ecM" ∧ entry.1 ≠ "acM" ∧ entry.1 ∈ initialValues.keys ∧
        (collected w p tree complex).get entry.1 = some (RecVal.arr entry.2) := by
      unfold collectedArrays at hentry
      rcases List.mem_append.mp hentry with h | h
      · obtain ⟨column, hcol, rfl⟩ := List.mem_map.mp h
        have hget := collected_get_column w p tree complex column hcol
        simp only [methodColumns, List.mem_cons, List.mem_singleton, List.not_mem_nil,
          or_false] at hcol
        rcases hcol with rfl | rfl | rfl | rfl | rfl | rfl | rfl | rfl | rfl | rfl | rfl <;>
          exact ⟨by simp, by simp, by simp [initialValues_keys], hget⟩
      · rw [List.mem_singleton] at h
        subst h
        exact ⟨by simp, by simp, by simp [initialValues_keys], collected_get_dpF w p tree complex⟩
    obtain ⟨h1, h2, h3, h4⟩ := hne
    show field (Metrics.importsPerModule w paths (firstPass w paths)) p entry.1 = _
    rw [importsPerModule_field_other w paths _ p _ h1 h2, firstPass_field w paths p _ hp,
      analyseFile_of_ok w p tree complex hparse hcomplex,
      aggregateArrays_get _ _ (collected_keys w p tree complex _ h3), h4]
    simp only [Option.map_some', hagg]
  · intro entry hentry
    have hget := collected_get_scalar w p tree complex entry hentry
    have hne : entry.1 ≠ "ecM" ∧ entry.1 ≠ "acM" ∧
        entry.1 ∈ (collected w p tree complex).keys := by
      have hmono : ∀ k, k ∈ initialValues.keys → k ∈ (collected w p tree complex).keys :=
        fun k hk => collected_keys w p tree complex k hk
      have hk1 : ∀ k, k ∈ (setFileMetrics w p complex initialValues).keys →
          k ∈ (collected w p tree complex).keys :=
        fun k hk => setTreeMetrics_keys tree complex _ k (foldl_methodStep_keys k _ _ hk)
      simp only [assignedScalars, List.mem_cons, List.mem_singleton, List.not_mem_nil,
        or_false] at hentry
      rcases hentry with rfl | rfl | rfl | rfl | rfl | rfl | rfl | rfl | rfl | rfl | rfl | rfl |
        rfl | rfl | rfl | rfl | rfl
      · exact ⟨by simp, by simp, hmono _ (by simp [initialValues_keys])⟩
      iterate 13 exact ⟨by simp, by simp, hk1 _ (by simp [setFileMetrics_initial_keys])⟩
      all_goals
        refine ⟨by simp, by simp, ?_⟩
        unfold collected setTreeMetrics
        simp [JSObject.mem_keys_set]
    obtain ⟨h1, h2, h3⟩ := hne
    show field (Metrics.importsPerModule w paths (firstPass w paths)) p entry.1 = _
    rw [importsPerModule_field_other w paths _ p _ h1 h2, firstPass_field w paths p _ hp,
      analyseFile_of_ok w p tree complex hparse hcomplex, aggregateArrays_get _ _ h3, hget]
    rfl

theorem calcForPaths_aggregates_witness :
    "a.js" ∈ ["a.js"] ∧
    Metrics.parse (worldWith twoFunctions twoMethodReport) "a.js" = Except.ok twoFunctions ∧
    (worldWith twoFunctions twoMethodReport).complexity twoFunctions = some twoMethodReport ∧
    collectedArrays twoFunctions twoMethodReport
      = [("locF", [3, 10]), ("loclF", [2, 7]), ("ccF", [2, 5]), ("hbugsF", [1, 2]),
         ("hdiffF", [3, 4]), ("heffortF", [30, 50]), ("hlengthF", [10, 20]),
         ("htimeF", [2, 3]), ("hvocabF", [5, 7]), ("hvolF", [8, 12]), ("paramF", [1, 2]),
         ("dpF", [1, 0])] ∧
    (∀ entry ∈ collectedArrays twoFunctions twoMethodReport,
      field (calcForPaths (worldWith twoFunctions twoMethodReport) ["a.js"]) "a.js" entry.1
        = some (RecVal.aggr (Metrics.aggregatesFromArr entry.2))) ∧
    field (calcForPaths (worldWith twoFunctions twoMethodReport) ["a.js"]) "a.js" "ccF"
      = some (RecVal.aggr (Metrics.aggregatesFromArr [2, 5])) ∧
    field (calcForPaths (worldWith twoFunctions twoMethodReport) ["a.js"]) "a.js" "ccM"
      = some (RecVal.num 6) := by
  have harr : collectedArrays twoFunctions twoMethodReport
      = [("locF", [3, 10]), ("loclF", [2, 7]), ("ccF", [2, 5]), ("hbugsF", [1, 2]),
         ("hdiffF", [3, 4]), ("heffortF", [30, 50]), ("hlengthF", [10, 20]),
         ("htimeF", [2, 3]), ("hvocabF", [5, 7]), ("hvolF", [8, 12]), ("paramF", [1, 2]),
         ("dpF", [1, 0])] := by
    have hdp : Metrics.eachFunction twoFunctions Metrics.depth = [1, 0] := by decide
    simp [collectedArrays, methodColumns, twoMethodReport, hdp]
  have hthm := calcForPaths_aggregates (worldWith twoFunctions twoMethodReport) ["a.js"] "a.js"
    twoFunctions twoMethodReport (by simp) rfl rfl
  refine ⟨by simp, rfl, rfl, harr, ?_, ?_, ?_⟩
  · intro entry hentry
    have h := hthm.1 entry hentry
    have hne : entry.2 ≠ [] := by
      rw [harr] at hentry
      simp only [List.mem_cons, List.mem_singleton, List.not_mem_nil, or_false] at hentry
      rcases hentry with rfl | rfl | rfl | rfl | rfl | rfl | rfl | rfl | rfl | rfl | rfl | rfl <;>
        simp
    rw [h, if_neg hne]
  · have h := hthm.1 ("ccF", [2, 5]) (by rw [harr]; simp)
    simpa using h
  · have h := hthm.2 ("ccM", 6) (by simp [assignedScalars, twoMethodReport])
    simpa using h

/-- C16: the code at two files.  The tree of `require(1); require('x')` has two
`require` calls with a literal argument; the callback counts the first, `importPath.split`
then throws and the walk of the file is abandoned, so `ecM` ends at `1`, not `2`.  The
tree of the dynamic import of `'./d'` has an `ImportExpression` node, which the callback
does not recognise, so `ecM` stays `0`, not `1`. -/
theorem ecM_misses_imports :
    (Metrics.parse (worldOf twoRequires) "a.js" = Except.ok twoRequires ∧
      twoRequires.preorder.countP isImportStatement = 2 ∧
      field (calcForPaths (worldOf twoRequires) ["a.js"]) "a.js" "ecM"
        = some (RecVal.num 1)) ∧
    (Metrics.parse (worldOf dynamicImport) "a.js" = Except.ok dynamicImport ∧
      dynamicImport.preorder.countP isImportStatement = 1 ∧
      field (calcForPaths (worldOf dynamicImport) ["a.js"]) "a.js" "ecM"
        = some (RecVal.num 0)) := by
  refine ⟨⟨rfl, by decide, ?_⟩, rfl, by decide, rfl⟩
  have h : field (calcForPaths (worldOf twoRequires) ["a.js"]) "a.js" "ecM"
      = some (RecVal.num (0 + 1)) := rfl
  rw [h]; norm_num

/-- After `Metrics.calcForDir` (whose second pass is `Metrics.importsPerModule`), `ecM`
of every discovered file that parses, and in which no source read by the callback is a
non-string literal, is the number of nodes for which the callback finds a source. -/
theorem ecM_counts_imports (w : World) (paths : List String) (p : String) (tree : Node)
    (hnodup : paths.Nodup) (hp : p ∈ paths)
    (hparse : Metrics.parse w p = Except.ok tree)
    (hstr : ∀ n ∈ tree.preorder, importPathOf n ≠ some LitValue.nonString) :
    field (calcForPaths w paths) p "ecM"
      = some (RecVal.num (tree.preorder.countP (fun n => (importPathOf n).isSome) : ℚ)) := by
  have h0 : field (firstPass w paths) p "ecM" = some (RecVal.num 0) := by
    rw [firstPass_field w paths p _ hp]
    exact analyseFile_get_coupling w p "ecM" (Or.inl rfl)
  have := importsPerModule_ecM w paths (firstPass w paths) p tree 0 hnodup hp hparse h0 hstr
  unfold calcForPaths
  rw [this]; simp

theorem ecM_counts_imports_witness :
    ["src/utils.js"].Nodup ∧ "src/utils.js" ∈ ["src/utils.js"] ∧
    Metrics.parse (worldOf requiresUtils) "src/utils.js" = Except.ok requiresUtils ∧
    (∀ n ∈ requiresUtils.preorder, importPathOf n ≠ some LitValue.nonString) ∧
    field (calcForPaths (worldOf requiresUtils) ["src/utils.js"]) "src/utils.js" "ecM"
      = some (RecVal.num (requiresUtils.preorder.countP (fun n => (importPathOf n).isSome) : ℚ)) :=
  ⟨by simp, by simp, rfl, by decide,
    ecM_counts_imports (worldOf requiresUtils) ["src/utils.js"] "src/utils.js" requiresUtils
      (by simp) (by simp) rfl (by decide)⟩

/-- C17: the code at a run with the single file `src/utils.js`, whose tree is the call
`require('./utils')`: there is no other discovered file, and the import inside the file
increments the file's own `acM`, which ends at `1`. -/
theorem acM_counts_own_import :
    Metrics.parse (worldOf requiresUtils) "src/utils.js" = Except.ok requiresUtils ∧
    (calcForPaths (worldOf requiresUtils) ["src/utils.js"]).keys = ["src/utils.js"] ∧
    field (calcForPaths (worldOf requiresUtils) ["src/utils.js"]) "src/utils.js" "acM"
      = some (RecVal.num 1) := by
  refine ⟨rfl, rfl, ?_⟩
  have h : field (calcForPaths (worldOf requiresUtils) ["src/utils.js"]) "src/utils.js" "acM"
      = some (RecVal.num (0 + 1)) := rfl
  rw [h]; norm_num

/-- C18: the code at a run with the files `broken.js`, which does not parse, and
`ok.js`: the result of `calcForDir` has a record for `broken.js` (the initial
`values`), processing continues with `ok.js`, and `calcScores` on that result returns
two file scores, one of them for `broken.js`. -/
theorem calcForPaths_keeps_unparsed_file :
    Metrics.parse partlyBrokenWorld "broken.js" = Except.error (some "UnexpectedToken") ∧
    (calcForPaths partlyBrokenWorld ["broken.js", "ok.js"]).keys = ["broken.js", "ok.js"] ∧
    field (calcForPaths partlyBrokenWorld ["broken.js", "ok.js"]) "broken.js" "noF"
      = some (RecVal.num 0) ∧
    field (calcForPaths partlyBrokenWorld ["broken.js", "ok.js"]) "broken.js" "locF"
      = some (RecVal.arr []) ∧
    field (calcForPaths partlyBrokenWorld ["broken.js", "ok.js"]) "ok.js" "locM"
      = some (RecVal.num 1) ∧
    ∃ out, calcScores sampleData
        (toScoresInput (calcForPaths partlyBrokenWorld ["broken.js", "ok.js"])) = some out ∧
      out.length = 2 ∧
      ∃ fs ∈ out, fs.file = "broken.js" ∧ fs.metricRanks = [] ∧
        fs.accumulatedRank = JSNum.nan ∧ fs.score = JSNum.nan := by
  refine ⟨rfl, rfl, rfl, rfl, rfl, ?_⟩
  have hsome : (calcScores sampleData
      (toScoresInput (calcForPaths partlyBrokenWorld ["broken.js", "ok.js"]))).isSome = true := by
    rfl
  obtain ⟨out, hout⟩ := Option.isSome_iff_exists.mp hsome
  have hmem : (unparsedMetrics.head (by simp [unparsedMetrics])) ∈
      toScoresInput (calcForPaths partlyBrokenWorld ["broken.js", "ok.js"]) := by
    have : (toScoresInput (calcForPaths partlyBrokenWorld ["broken.js", "ok.js"])).head?
        = some (unparsedMetrics.head (by simp [unparsedMetrics])) := rfl
    exact List.mem_of_mem_head? this
  have hfs := calcScores_mem_of sampleData _ out hout _ hmem [] rfl
  obtain ⟨levels, hl, hsort⟩ := calcScores_eq sampleData _ out hout
  refine ⟨out, hout, ?_, _, hfs, rfl, rfl, rfl, rfl⟩
  rw [hsort, List.length_insertionSort]
  unfold unsortedScores
  rw [List.length_map, ← (calcLevels_forall₂ sampleData _ levels hl).length_eq]
  rfl

/-! ## Isolation of a file that does not parse -/

theorem AgreeOff.set_other {f : String} {m1 m2 : JSObject Record} (h : AgreeOff f m1 m2)
    (p : String) (hp : p ≠ f) (r : Record) : AgreeOff f (m1.set p r) (m2.set p r) := by
  obtain ⟨hk, hg, hf⟩ := h
  refine ⟨?_, ?_, ?_⟩
  · rw [JSObject.keys_set, JSObject.keys_set, hk]
  · intro k hkf
    rw [JSObject.get_set, JSObject.get_set, hg k hkf]
  · rw [JSObject.get_set, JSObject.get_set, if_neg (Ne.symm hp), if_neg (Ne.symm hp)]
    exact hf

theorem AgreeOff.set_self {f : String} {m1 m2 : JSObject Record} (h : AgreeOff f m1 m2)
    (r1 r2 : Record) : AgreeOff f (m1.set f r1) (m2.set f r2) := by
  obtain ⟨hk, hg, _⟩ := h
  refine ⟨?_, ?_, ?_⟩
  · rw [JSObject.keys_set, JSObject.keys_set, hk]
  · intro k hkf
    rw [JSObject.get_set, JSObject.get_set, if_neg hkf, if_neg hkf]
    exact hg k hkf
  · rw [JSObject.get_set, JSObject.get_set, if_pos rfl, if_pos rfl]
    rfl

theorem bumpStep_agree (f name t : String) (m1 m2 : JSObject Record) (h : AgreeOff f m1 m2) :
    AgreeOff f
      (if includes (lastSegment t) name then
        match m1.get t with
        | some record => m1.set t (increment "acM" record)
        | none => m1
      else m1)
      (if includes (lastSegment t) name then
        match m2.get t with
        | some record => m2.set t (increment "acM" record)
        | none => m2
      else m2) := by
  split
  · by_cases htf : t = f
    · subst htf
      have hsome := h.2.2
      cases h1 : m1.get t with
      | none =>
        rw [h1] at hsome
        cases h2 : m2.get t with
        | none => exact h
        | some r2 => rw [h2] at hsome; cases hsome
      | some r1 =>
        rw [h1] at hsome
        cases h2 : m2.get t with
        | none => rw [h2] at hsome; cases hsome
        | some r2 => exact h.set_self _ _
    · rw [← h.2.1 t htf]
      cases m1.get t with
      | none => exact h
      | some r => exact h.set_other t htf _
  · exact h

theorem bumpAfferent_agree (f name : String) (m1 m2 : JSObject Record) (h : AgreeOff f m1 m2) :
    AgreeOff f (bumpAfferent name m1) (bumpAfferent name m2) := by
  unfold bumpAfferent
  rw [← h.1]
  generalize m1.keys = keys
  induction keys generalizing m1 m2 with
  | nil => exact h
  | cons t rest ih =>
    rw [List.foldl_cons, List.foldl_cons]
    exact ih _ _ (bumpStep_agree f name t m1 m2 h)

/-- A call of `enter` for a file other than `f` acts alike on two states that agree off
`f`. -/
theorem importEnter_agree (f q : String) (hq : q ≠ f) (node : Node) (s1 s2 : ImportState)
    (hthrown : s1.thrown = s2.thrown) (h : AgreeOff f s1.metrics s2.metrics) :
    (importEnter q node s1).thrown = (importEnter q node s2).thrown ∧
    AgreeOff f (importEnter q node s1).metrics (importEnter q node s2).metrics := by
  unfold importEnter
  rw [← hthrown]
  split
  · exact ⟨hthrown, h⟩
  · cases importPathOf node with
    | none => exact ⟨hthrown, h⟩
    | some importPath =>
      simp only
      rw [← h.2.1 q hq]
      cases s1.metrics.get q with
      | none => exact ⟨rfl, h⟩
      | some record =>
        cases importPath with
        | nonString => exact ⟨rfl, h.set_other q hq _⟩
        | str s => exact ⟨rfl, bumpAfferent_agree f _ _ _ (h.set_other q hq _)⟩

theorem foldl_importEnter_agree (f q : String) (hq : q ≠ f) (nodes : List Node)
    (s1 s2 : ImportState) (hthrown : s1.thrown = s2.thrown)
    (h : AgreeOff f s1.metrics s2.metrics) :
    AgreeOff f (nodes.foldl (fun st n => importEnter q n st) s1).metrics
      (nodes.foldl (fun st n => importEnter q n st) s2).metrics := by
  induction nodes generalizing s1 s2 with
  | nil => exact h
  | cons n rest ih =>
    rw [List.foldl_cons, List.foldl_cons]
    obtain ⟨h1, h2⟩ := importEnter_agree f q hq n s1 s2 hthrown h
    exact ih _ _ h1 h2

/-- A walk over nodes none of which is an import leaves the state as it was. -/
theorem foldl_importEnter_no_imports (q : String) (nodes : List Node) (state : ImportState)
    (h : ∀ n ∈ nodes, importPathOf n = none) :
    nodes.foldl (fun st n => importEnter q n st) state = state := by
  induction nodes generalizing state with
  | nil => rfl
  | cons n rest ih =>
    rw [List.foldl_cons]
    have hstep : importEnter q n state = state := by
      unfold importEnter
      rw [h n (List.mem_cons_self _ _)]
      split <;> rfl
    rw [hstep]
    exact ih state (fun x hx => h x (List.mem_cons_of_mem _ hx))

/-- The two parsers agree on every file other than `f`. -/
theorem parse_agree (w1 w2 : World) (f p : String) (hp : p ≠ f)
    (hbabel : ∀ q, q ≠ f → ∀ plugins, w1.babel q plugins = w2.babel q plugins) :
    Metrics.parse w1 p = Metrics.parse w2 p := by
  unfold Metrics.parse
  simp only [hbabel p hp]

theorem analyseFile_agree (w1 w2 : World) (f p : String) (hp : p ≠ f)
    (hbabel : ∀ q, q ≠ f → ∀ plugins, w1.babel q plugins = w2.babel q plugins)
    (hcomplexity : w1.complexity = w2.complexity)
    (hcomments : ∀ q, q ≠ f → w1.comments q = w2.comments q) :
    analyseFile w1 p = analyseFile w2 p := by
  unfold analyseFile
  rw [parse_agree w1 w2 f p hp hbabel, hcomplexity]
  cases Metrics.parse w2 p with
  | error _ => rfl
  | ok tree =>
    simp only
    cases w2.complexity tree with
    | none => rfl
    | some complex =>
      simp only
      unfold setFileMetrics
      rw [hcomments p hp]

theorem firstPass_agree_aux (w1 w2 : World) (f : String) (paths : List String)
    (hbabel : ∀ q, q ≠ f → ∀ plugins, w1.babel q plugins = w2.babel q plugins)
    (hcomplexity : w1.complexity = w2.complexity)
    (hcomments : ∀ q, q ≠ f → w1.comments q = w2.comments q)
    (o1 o2 : JSObject Record) (hstart : AgreeOff f o1 o2) :
    AgreeOff f (paths.foldl (fun result path => result.set path (analyseFile w1 path)) o1)
      (paths.foldl (fun result path => result.set path (analyseFile w2 path)) o2) := by
  induction paths generalizing o1 o2 with
  | nil => exact hstart
  | cons p rest ih =>
    rw [List.foldl_cons, List.foldl_cons]
    apply ih
    by_cases hp : p = f
    · rw [hp]; exact hstart.set_self _ _
    · rw [analyseFile_agree w1 w2 f p hp hbabel hcomplexity hcomments]
      exact hstart.set_other p hp _

theorem firstPass_agree (w1 w2 : World) (f : String) (paths : List String)
    (hbabel : ∀ q, q ≠ f → ∀ plugins, w1.babel q plugins = w2.babel q plugins)
    (hcomplexity : w1.complexity = w2.complexity)
    (hcomments : ∀ q, q ≠ f → w1.comments q = w2.comments q) :
    AgreeOff f (firstPass w1 paths) (firstPass w2 paths) :=
  firstPass_agree_aux w1 w2 f paths hbabel hcomplexity hcomments _ _
    ⟨rfl, fun _ _ => rfl, rfl⟩

theorem importsPerModule_agree (w1 w2 : World) (f : String) (paths : List String)
    (m1 m2 : JSObject Record) (tree : Node)
    (hbabel : ∀ q, q ≠ f → ∀ plugins, w1.babel q plugins = w2.babel q plugins)
    (hfails : ∀ t, Metrics.parse w1 f ≠ Except.ok t)
    (hparses : Metrics.parse w2 f = Except.ok tree)
    (hnone : ∀ n ∈ tree.preorder, importPathOf n = none)
    (h : AgreeOff f m1 m2) :
    AgreeOff f (Metrics.importsPerModule w1 paths m1) (Metrics.importsPerModule w2 paths m2) := by
  unfold Metrics.importsPerModule
  induction paths generalizing m1 m2 with
  | nil => exact h
  | cons p rest ih =>
    rw [List.foldl_cons, List.foldl_cons]
    apply ih
    by_cases hp : p = f
    · subst hp
      have h1 : importsOfFile w1 m1 p = m1 := by
        unfold importsOfFile
        cases hparse : Metrics.parse w1 p with
        | error _ => rfl
        | ok t => exact absurd hparse (hfails t)
      have h2 : importsOfFile w2 m2 p = m2 := by
        unfold importsOfFile
        rw [hparses]
        simp only
        rw [walk_eq_foldl, foldl_importEnter_no_imports p _ _ hnone]
      rw [h1, h2]; exact h
    · unfold importsOfFile
      rw [parse_agree w1 w2 f p hp hbabel]
      cases Metrics.parse w2 p with
      | error _ => exact h
      | ok t =>
        simp only
        rw [walk_eq_foldl, walk_eq_foldl]
        exact foldl_importEnter_agree f p hp _ _ _ rfl h

/-- C19: a file `f` that fails to parse (in both passes) does not affect the other
files.  Take two runs over the same discovered paths that differ only in `f`: in the
first `f` does not parse, in the second `f` parses to a tree without imports.  Then
the two results of `Metrics.calcForDir` have the same keys, every record of a file
other than `f` is identical in both, `ecM` and `acM` included, and the first run
produces a record for every discovered path. -/
theorem parse_failure_isolated (w1 w2 : World) (f : String) (paths : List String)
    (tree : Node)
    (hbabel : ∀ q, q ≠ f → ∀ plugins, w1.babel q plugins = w2.babel q plugins)
    (hcomplexity : w1.complexity = w2.complexity)
    (hcomments : ∀ q, q ≠ f → w1.comments q = w2.comments q)
    (hfails : ∀ t, Metrics.parse w1 f ≠ Except.ok t)
    (hparses : Metrics.parse w2 f = Except.ok tree)
    (hnone : ∀ n ∈ tree.preorder, importPathOf n = none) :
    (calcForPaths w1 paths).keys = (calcForPaths w2 paths).keys ∧
    (∀ g, g ≠ f → (calcForPaths w1 paths).get g = (calcForPaths w2 paths).get g) ∧
    (∀ g ∈ paths, ((calcForPaths w1 paths).get g).isSome = true) := by
  have hfirstAgree := firstPass_agree w1 w2 f paths hbabel hcomplexity hcomments
  have hagree : AgreeOff f (calcForPaths w1 paths) (calcForPaths w2 paths) := by
    exact importsPerModule_agree w1 w2 f paths _ _ tree hbabel hfails hparses hnone hfirstAgree
  refine ⟨hagree.1, hagree.2.1, ?_⟩
  intro g hg
  have hfield : field (calcForPaths w1 paths) g "noF" = field (firstPass w1 paths) g "noF" := by
    exact importsPerModule_field_other w1 paths _ g "noF" (by simp) (by simp)
  have hfirst : (field (firstPass w1 paths) g "noF").isSome = true := by
    rw [firstPass_field w1 paths g "noF" hg]
    unfold analyseFile
    cases hparse : Metrics.parse w1 g with
    | error _ => simp [initialValues_get]
    | ok t =>
      simp only
      cases hcomplex : w1.complexity t with
      | none => simp [initialValues_get]
      | some complex =>
        simp only
        show ((aggregateArrays (collected w1 g t complex)).get "noF").isSome = true
        rw [aggregateArrays_get _ _ (collected_keys w1 g t complex "noF"
          (by simp [initialValues_keys])),
          collected_get_scalar w1 g t complex ("noF", (complex.methods.length : ℚ))
            (by simp [assignedScalars])]
        rfl
  rw [← hfield] at hfirst
  unfold field at hfirst
  cases hget : (calcForPaths w1 paths).get g with
  | none => rw [hget] at hfirst; cases hfirst
  | some r => rfl

theorem parse_failure_isolated_witness :
    (∀ t, Metrics.parse partlyBrokenWorld "broken.js" ≠ Except.ok t) ∧
    Metrics.parse (worldOf (plainNode "Program" [])) "broken.js"
      = Except.ok (plainNode "Program" []) ∧
    (∀ n ∈ (plainNode "Program" []).preorder, importPathOf n = none) ∧
    (calcForPaths partlyBrokenWorld ["broken.js", "ok.js"]).keys
      = (calcForPaths (worldOf (plainNode "Program" [])) ["broken.js", "ok.js"]).keys ∧
    (∀ g, g ≠ "broken.js" →
      (calcForPaths partlyBrokenWorld ["broken.js", "ok.js"]).get g
        = (calcForPaths (worldOf (plainNode "Program" [])) ["broken.js", "ok.js"]).get g) ∧
    (∀ g ∈ ["broken.js", "ok.js"],
      ((calcForPaths partlyBrokenWorld ["broken.js", "ok.js"]).get g).isSome = true) :=
  ⟨(fun t h => by cases h), rfl, by decide,
    parse_failure_isolated partlyBrokenWorld (worldOf (plainNode "Program" [])) "broken.js"
      ["broken.js", "ok.js"] (plainNode "Program" [])
      (fun q hq plugins => by simp [partlyBrokenWorld, worldOf, hq])
      rfl (fun _ _ => rfl) (fun t h => by cases h) rfl (by decide)⟩

/-! ## Claims about `Metrics.getFilePaths` -/

theorem files_chain_aux :
    (∀ (entry : Dirent) (chain : List String), ∀ file ∈ entry.files chain, ∀ d ∈ chain, d ∈ file.1) ∧
    (∀ (entries : List Dirent) (chain : List String), ∀ file ∈ filesBelow chain entries,
      ∀ d ∈ chain, d ∈ file.1) := by
  have hentry : ∀ (entry : Dirent) (chain : List String), ∀ file ∈ entry.files chain,
      ∀ d ∈ chain, d ∈ file.1 := by
    intro entry
    induction entry using Dirent.rec
      (motive_2 := fun entries => ∀ (chain : List String), ∀ file ∈ filesBelow chain entries,
        ∀ d ∈ chain, d ∈ file.1) with
    | file name =>
      intro chain file hfile d hd
      simp only [Dirent.files, List.mem_singleton] at hfile
      rw [hfile]; exact hd
    | dir name entries ih =>
      intro chain file hfile d hd
      simp only [Dirent.files] at hfile
      exact ih _ file hfile d (List.mem_append_left _ hd)
    | nil =>
      rename_i chain file hfile d hd
      simp [filesBelow] at hfile
    | cons entry rest ihe ihr =>
      rename_i chain file hfile d hd
      simp only [filesBelow, List.mem_append] at hfile
      rcases hfile with h | h
      · exact ihe chain file h d hd
      · exact ihr chain file h d hd
  refine ⟨hentry, ?_⟩
  intro entries
  induction entries with
  | nil =>
    intro chain file hfile
    simp [filesBelow] at hfile
  | cons entry rest ih =>
    intro chain file hfile d hd
    simp only [filesBelow, List.mem_append] at hfile
    rcases hfile with h | h
    · exact hentry entry chain file h d hd
    · exact ih chain file h d hd

/-- Below an excluded directory no file is kept. -/
theorem filter_kept_of_excluded (entries : List Dirent) (chain : List String) (d : String)
    (hd : d ∈ chain) (hex : excludedDir d = true) :
    (filesBelow chain entries).filter kept = [] := by
  rw [List.filter_eq_nil_iff]
  intro file hfile
  have hmem := files_chain_aux.2 entries chain file hfile d hd
  have hall : file.1.all (fun name => !excludedDir name) = false := by
    rw [List.all_eq_false]
    exact ⟨d, hmem, by simp [hex]⟩
  simp [kept, hall]

theorem pathOf_snoc (dirPath : String) (chain : List String) (name file : String) :
    pathOf dirPath (chain ++ [name], file)
      = chain.foldl (fun path n => path ++ n ++ "/") dirPath ++ name ++ "/" ++ file := by
  simp [pathOf, List.foldl_append]

theorem getFilePaths_eq_aux (dirPath : String) :
    (∀ (entry : Dirent) (chain : List String),
      chain.all (fun name => !excludedDir name) = true →
      direntPaths (chain.foldl (fun path n => path ++ n ++ "/") dirPath) entry
        = ((entry.files chain).filter kept).map (pathOf dirPath)) ∧
    (∀ (entries : List Dirent) (chain : List String),
      chain.all (fun name => !excludedDir name) = true →
      getFilePaths (chain.foldl (fun path n => path ++ n ++ "/") dirPath) entries
        = ((filesBelow chain entries).filter kept).map (pathOf dirPath)) := by
  have hentry : ∀ (entry : Dirent) (chain : List String),
      chain.all (fun name => !excludedDir name) = true →
      direntPaths (chain.foldl (fun path n => path ++ n ++ "/") dirPath) entry
        = ((entry.files chain).filter kept).map (pathOf dirPath) := by
    intro entry
    induction entry using Dirent.rec
      (motive_2 := fun entries => ∀ (chain : List String),
        chain.all (fun name => !excludedDir name) = true →
        getFilePaths (chain.foldl (fun path n => path ++ n ++ "/") dirPath) entries
          = ((filesBelow chain entries).filter kept).map (pathOf dirPath)) with
    | file name =>
      intro chain hchain
      simp only [direntPaths, Dirent.files, List.filter_cons, List.filter_nil, kept, hchain,
        Bool.true_and]
      cases hasFileType name <;> cases skipFile name <;> simp [pathOf]
    | dir name entries ih =>
      intro chain hchain
      simp only [direntPaths, Dirent.files]
      by_cases hex : excludedDir name = true
      · rw [filter_kept_of_excluded entries (chain ++ [name]) name (by simp) hex]
        unfold excludedDir at hex
        rw [Bool.or_eq_true] at hex
        rcases hex with h | h
        · simp [h]
        · simp [h]
      · have hex2 : excludedDir name = false := by simpa using hex
        have hparts : excludedName name = false ∧ testRegexTest (toLowerCase name) = false := by
          unfold excludedDir at hex2
          rw [Bool.or_eq_false_iff] at hex2
          exact hex2
        have hchain2 : (chain ++ [name]).all (fun n => !excludedDir n) = true := by
          simp [List.all_append, hchain, hex2]
        have := ih (chain ++ [name]) hchain2
        rw [List.foldl_append] at this
        simp only [List.foldl_cons, List.foldl_nil] at this
        simp only [hparts.1, hparts.2, Bool.false_eq_true, if_false]
        exact this
    | nil =>
      simp [getFilePaths, filesBelow]
    | cons entry rest ihe ihr =>
      rename_i chain hchain
      simp only [getFilePaths, filesBelow, List.filter_append, List.map_append]
      rw [ihe chain hchain, ihr chain hchain]
  refine ⟨hentry, ?_⟩
  intro entries
  induction entries with
  | nil =>
    intro chain _
    simp [getFilePaths, filesBelow]
  | cons entry rest ih =>
    intro chain hchain
    simp only [getFilePaths, filesBelow, List.filter_append, List.map_append]
    rw [hentry entry chain hchain, ih chain hchain]

/-- C15: `Metrics.getFilePaths(root)` returns, in the order of the listing and once for
each file, exactly the paths of the files under `root` such that no directory on the
way down to the file is excluded (a name containing `node_modules`, `instrumented`,
`bower_components` or `fixture`, or a lower-cased name matching the test pattern), the
extension is in `#fileTypes`, and the name does not match the skip pattern.  A file
named `app.min.js` is never among them, nor is a file below a directory named
`node_modules`; a file named `utils.ts` is among them at any depth below directories
that are not excluded. -/
theorem getFilePaths_spec (dirPath : String) (dirs : List Dirent) :
    getFilePaths dirPath dirs = ((filesBelow [] dirs).filter kept).map (pathOf dirPath) ∧
    (getFilePaths dirPath dirs).length = (filesBelow [] dirs).countP kept ∧
    (∀ chain : List String, kept (chain, "app.min.js") = false) ∧
    (∀ (chain : List String) (name : String), "node_modules" ∈ chain →
      kept (chain, name) = false) ∧
    (∀ chain : List String, (∀ d ∈ chain, excludedDir d = false) →
      kept (chain, "utils.ts") = true) := by
  have hmain : getFilePaths dirPath dirs
      = ((filesBelow [] dirs).filter kept).map (pathOf dirPath) := by
    have := (getFilePaths_eq_aux dirPath).2 dirs [] (by simp)
    simpa using this
  refine ⟨hmain, ?_, ?_, ?_, ?_⟩
  · rw [hmain, List.length_map, List.countP_eq_length_filter]
  · intro chain
    have : skipFile "app.min.js" = true := by decide
    simp [kept, this]
  · intro chain name hmem
    have hex : excludedDir "node_modules" = true := by decide
    have hall : chain.all (fun n => !excludedDir n) = false := by
      rw [List.all_eq_false]
      exact ⟨"node_modules", hmem, by simp [hex]⟩
    simp [kept, hall]
  · intro chain hchain
    have h1 : hasFileType "utils.ts" = true := by decide
    have h2 : skipFile "utils.ts" = false := by decide
    have hall : chain.all (fun n => !excludedDir n) = true := by
      rw [List.all_eq_true]
      intro d hd
      simp [hchain d hd]
    simp [kept, hall, h1, h2]

theorem getFilePaths_spec_witness :
    getFilePaths "/p/" sampleTree
      = ["/p/index.js", "/p/src/utils.ts", "/p/src/Creatests/utils.ts"] ∧
    getFilePaths "/p/" sampleTree
      = ((filesBelow [] sampleTree).filter kept).map (pathOf "/p/") ∧
    "node_modules" ∈ ["node_modules", "lib"] ∧
    kept (["node_modules", "lib"], "utils.ts") = false ∧
    (∀ d ∈ ["src", "Creatests"], excludedDir d = false) ∧
    kept (["src", "Creatests"], "utils.ts") = true :=
  ⟨by decide, (getFilePaths_spec "/p/" sampleTree).1, by simp,
    (getFilePaths_spec "/p/" sampleTree).2.2.2.1 _ _ (by simp), by decide,
    (getFilePaths_spec "/p/" sampleTree).2.2.2.2 _ (by decide)⟩

/-! ## The rank of a greater number -/

/-- On a sorted reference sequence a greater rank comes from a greater number. -/
theorem lt_of_calcRank_lt (R : List ℚ) (x y : ℚ) (hs : R.Sorted (· ≤ ·))
    (h : calcRank R (JSVal.num y) < calcRank R (JSVal.num x)) : y < x := by
  by_contra hnot
  have hle : x ≤ y := not_lt.mp hnot
  rw [calcRank_sorted R x hs, calcRank_sorted R y hs] at h
  rcases eq_or_lt_of_le hle with heq | hlt
  · rw [heq] at h; exact lt_irrefl _ h
  · have hmono := countP_lt_mono R x y hle
    by_cases hm : x ∈ R
    · have hstep := countP_lt_succ_le R x y hlt hm
      simp only [hm, if_true] at h
      split at h <;> (push_cast at h; omega)
    · simp only [hm, if_false] at h
      split at h <;> (push_cast at h; omega)

/-! ## Rounding to binary64 -/

theorem roundHalfEven_floor_le (q : ℚ) : ⌊q⌋ ≤ roundHalfEven q := by
  unfold roundHalfEven
  split_ifs <;> omega

theorem roundHalfEven_le_floor_succ (q : ℚ) : roundHalfEven q ≤ ⌊q⌋ + 1 := by
  unfold roundHalfEven
  split_ifs <;> omega

theorem le_roundHalfEven (q : ℚ) (n : ℤ) (h : (n : ℚ) ≤ q) : n ≤ roundHalfEven q :=
  le_trans (Int.le_floor.mpr h) (roundHalfEven_floor_le q)

theorem roundHalfEven_le (q : ℚ) (n : ℤ) (h : q ≤ (n : ℚ)) : roundHalfEven q ≤ n := by
  rcases lt_or_eq_of_le h with hlt | heq
  · have : ⌊q⌋ < n := Int.floor_lt.mpr hlt
    have := roundHalfEven_le_floor_succ q
    omega
  · subst heq
    unfold roundHalfEven
    simp

theorem roundHalfEven_mono (p q : ℚ) (h : p ≤ q) : roundHalfEven p ≤ roundHalfEven q := by
  have hfl : ⌊p⌋ ≤ ⌊q⌋ := Int.floor_mono h
  rcases lt_or_eq_of_le hfl with hlt | heq
  · have := roundHalfEven_le_floor_succ p
    have := roundHalfEven_floor_le q
    omega
  · have hfr : p - ⌊p⌋ ≤ q - ⌊q⌋ := by rw [heq]; linarith
    unfold roundHalfEven
    rw [heq]
    rw [heq] at hfr
    split_ifs <;> first | omega | (exfalso; linarith)

theorem roundHalfEven_eq (q : ℚ) (m : ℤ) (h : |q - m| < 1 / 2) : roundHalfEven q = m := by
  rw [abs_lt] at h
  obtain ⟨h1, h2⟩ := h
  unfold roundHalfEven
  have hf1 : (⌊q⌋ : ℚ) ≤ q := Int.floor_le q
  have hf2 : q < ⌊q⌋ + 1 := Int.lt_floor_add_one q
  split_ifs with ha hb hc
  · have h3 : (m : ℚ) < ⌊q⌋ + 1 := by linarith
    have h4 : (⌊q⌋ : ℚ) < m + 1 := by linarith
    have h3 : m < ⌊q⌋ + 1 := by exact_mod_cast h3
    have h4 : ⌊q⌋ < m + 1 := by exact_mod_cast h4
    omega
  · have h3 : (m : ℚ) < ⌊q⌋ + 2 := by linarith
    have h4 : (⌊q⌋ : ℚ) < m := by linarith
    have h3 : m < ⌊q⌋ + 2 := by exact_mod_cast h3
    have h4 : ⌊q⌋ < m := by exact_mod_cast h4
    omega
  · have he : q - ⌊q⌋ = 1 / 2 := le_antisymm (not_lt.mp hb) (not_lt.mp ha)
    have h3 : (m : ℚ) < ⌊q⌋ + 1 := by linarith
    have h4 : (⌊q⌋ : ℚ) < m := by linarith
    have h3 : m < ⌊q⌋ + 1 := by exact_mod_cast h3
    have h4 : ⌊q⌋ < m := by exact_mod_cast h4
    omega
  · have he : q - ⌊q⌋ = 1 / 2 := le_antisymm (not_lt.mp hb) (not_lt.mp ha)
    have h3 : (m : ℚ) < ⌊q⌋ + 1 := by linarith
    have h4 : (⌊q⌋ : ℚ) < m := by linarith
    have h3 : m < ⌊q⌋ + 1 := by exact_mod_cast h3
    have h4 : ⌊q⌋ < m := by exact_mod_cast h4
    omega

theorem log_eq (x : ℚ) (e : ℤ) (hlo : (2 : ℚ) ^ e ≤ x) (hhi : x < 2 ^ (e + 1)) :
    Int.log 2 x = e := by
  have hpos : 0 < x := lt_of_lt_of_le (by positivity) hlo
  have h1 : e ≤ Int.log 2 x := (Int.zpow_le_iff_le_log (by norm_num) hpos).mp (by exact_mod_cast hlo)
  have h2 : Int.log 2 x < e + 1 := (Int.lt_zpow_iff_log_lt (by norm_num) hpos).mp (by exact_mod_cast hhi)
  omega

theorem two_zpow_split (e : ℤ) :
    (2 : ℚ) ^ e = 4503599627370496 * 2 ^ (e - 52) ∧
    (2 : ℚ) ^ (e + 1) = 9007199254740992 * 2 ^ (e - 52) := by
  have h52 : (4503599627370496 : ℚ) = 2 ^ (52 : ℤ) := by norm_num
  have h53 : (9007199254740992 : ℚ) = 2 ^ (53 : ℤ) := by norm_num
  rw [h52, h53, ← zpow_add₀ (by norm_num : (2 : ℚ) ≠ 0),
    ← zpow_add₀ (by norm_num : (2 : ℚ) ≠ 0)]
  constructor <;> congr 1 <;> omega

theorem roundPos64_bounds (x : ℚ) (hx : 0 < x) :
    (2 : ℚ) ^ Int.log 2 x ≤ roundPos64 x ∧ roundPos64 x ≤ 2 ^ (Int.log 2 x + 1) := by
  have hlo : ((2 : ℕ) : ℚ) ^ Int.log 2 x ≤ x := Int.zpow_log_le_self (by norm_num) hx
  have hhi : x < ((2 : ℕ) : ℚ) ^ (Int.log 2 x + 1) := Int.lt_zpow_succ_log_self (by norm_num) x
  have hlo : (2 : ℚ) ^ Int.log 2 x ≤ x := by exact_mod_cast hlo
  have hhi : x < (2 : ℚ) ^ (Int.log 2 x + 1) := by exact_mod_cast hhi
  unfold roundPos64
  generalize Int.log 2 x = e at hlo hhi ⊢
  have hu : (0 : ℚ) < 2 ^ (e - 52) := by positivity
  obtain ⟨e1, e2⟩ := two_zpow_split e
  have hq1 : ((4503599627370496 : ℤ) : ℚ) ≤ x / 2 ^ (e - 52) := by
    rw [le_div_iff₀ hu]; push_cast; rw [← e1]; exact hlo
  have hq2 : x / 2 ^ (e - 52) ≤ ((9007199254740992 : ℤ) : ℚ) := by
    rw [div_le_iff₀ hu]; push_cast; rw [← e2]; exact le_of_lt hhi
  have r1 := le_roundHalfEven _ _ hq1
  have r2 := roundHalfEven_le _ _ hq2
  have r1 : (4503599627370496 : ℚ) ≤ (roundHalfEven (x / 2 ^ (e - 52)) : ℚ) := by
    exact_mod_cast r1
  have r2 : (roundHalfEven (x / 2 ^ (e - 52)) : ℚ) ≤ (9007199254740992 : ℚ) := by
    exact_mod_cast r2
  constructor
  · rw [e1]; exact mul_le_mul_of_nonneg_right r1 (le_of_lt hu)
  · rw [e2]; exact mul_le_mul_of_nonneg_right r2 (le_of_lt hu)

theorem roundPos64_pos (x : ℚ) (hx : 0 < x) : 0 < roundPos64 x :=
  lt_of_lt_of_le (by positivity) (roundPos64_bounds x hx).1

theorem roundPos64_mono (x y : ℚ) (hx : 0 < x) (hxy : x ≤ y) : roundPos64 x ≤ roundPos64 y := by
  have hy : 0 < y := lt_of_lt_of_le hx hxy
  have hlog : Int.log 2 x ≤ Int.log 2 y := Int.log_mono_right hx hxy
  rcases lt_or_eq_of_le hlog with hlt | heq
  · have h1 := (roundPos64_bounds x hx).2
    have h2 := (roundPos64_bounds y hy).1
    have h3 : (2 : ℚ) ^ (Int.log 2 x + 1) ≤ 2 ^ Int.log 2 y :=
      zpow_le_zpow_right₀ (by norm_num) (by omega)
    linarith
  · unfold roundPos64
    rw [heq]
    have hu : (0 : ℚ) < 2 ^ (Int.log 2 y - 52) := by positivity
    have hq : x / 2 ^ (Int.log 2 y - 52) ≤ y / 2 ^ (Int.log 2 y - 52) :=
      div_le_div_of_nonneg_right hxy (le_of_lt hu)
    have hr := roundHalfEven_mono _ _ hq
    have hr : (roundHalfEven (x / 2 ^ (Int.log 2 y - 52)) : ℚ)
        ≤ (roundHalfEven (y / 2 ^ (Int.log 2 y - 52)) : ℚ) := by exact_mod_cast hr
    exact mul_le_mul_of_nonneg_right hr (le_of_lt hu)

theorem round64_mono (x y : ℚ) (hxy : x ≤ y) : round64 x ≤ round64 y := by
  unfold round64
  rcases lt_trichotomy x 0 with hx | hx | hx
  · rw [if_neg (ne_of_lt hx), if_neg (not_lt.mpr (le_of_lt hx))]
    have hnx : 0 < roundPos64 (-x) := roundPos64_pos _ (by linarith)
    rcases lt_trichotomy y 0 with hy | hy | hy
    · rw [if_neg (ne_of_lt hy), if_neg (not_lt.mpr (le_of_lt hy))]
      have := roundPos64_mono (-y) (-x) (by linarith) (by linarith)
      linarith
    · rw [if_pos hy]; linarith
    · rw [if_neg (ne_of_gt hy), if_pos hy]
      have := roundPos64_pos y hy
      linarith
  · rw [if_pos hx]
    have hy : 0 ≤ y := by linarith
    rcases lt_or_eq_of_le hy with hy | hy
    · rw [if_neg (ne_of_gt hy), if_pos hy]
      exact le_of_lt (roundPos64_pos y hy)
    · rw [if_pos hy.symm]
  · have hy : 0 < y := lt_of_lt_of_le hx hxy
    rw [if_neg (ne_of_gt hx), if_pos hx, if_neg (ne_of_gt hy), if_pos hy]
    exact roundPos64_mono x y hx hxy

/-- Evaluation of `round64` at a positive number. -/
theorem round64_eval (x : ℚ) (e m : ℤ) (hlo : (2 : ℚ) ^ e ≤ x) (hhi : x < 2 ^ (e + 1))
    (hm : |x / 2 ^ (e - 52) - m| < 1 / 2) : round64 x = m * 2 ^ (e - 52) := by
  have hpos : 0 < x := lt_of_lt_of_le (by positivity) hlo
  unfold round64 roundPos64
  rw [if_neg (ne_of_gt hpos), if_pos hpos, log_eq x e hlo hhi, roundHalfEven_eq _ m hm]

theorem round64_zero : round64 0 = 0 := by simp [round64]

/-! ## The structure of the result of `calcScores64` -/

/-- What one step of the inner loop can do in binary64: push nothing, or push the ranked metric of
the composite key, which is then in `data.metrics` and is not a `values` field. -/
theorem aggrStep64_cases (data : ReferenceDataset) (metric : String)
    (ranks ranks2 : List RankedMetric) (entry : String × JSVal)
    (h : aggrStep64 data metric ranks entry = some ranks2) :
    ranks2 = ranks ∨
      ∃ seq, entry.1 ≠ "values" ∧ (metric ++ "_" ++ entry.1) ∈ data.metrics ∧
        lookupNested data metric entry.1 = some seq ∧
        ranks2 = ranks ++ [rankedMetric64 (metric ++ "_" ++ entry.1) seq entry.2] := by
  unfold aggrStep64 at h
  split at h
  · left; exact (Option.some.inj h).symm
  · rename_i hcond
    rw [not_or, not_not] at hcond
    cases hl : lookupNested data metric entry.1 with
    | none => rw [hl] at h; cases h
    | some seq =>
      rw [hl] at h
      right
      exact ⟨seq, hcond.1, hcond.2, rfl, (Option.some.inj h).symm⟩

theorem aggrLoop64_pushed (data : ReferenceDataset) (fileMetrics : List (String × MetricValue))
    (metric : String) (all : List (String × JSVal))
    (hall : (metric, MetricValue.object all) ∈ fileMetrics)
    (entries : List (String × JSVal)) (hsub : ∀ e ∈ entries, e ∈ all)
    (ranks ranks2 : List RankedMetric)
    (hranks : ∀ rm ∈ ranks, PushedFor64 data fileMetrics rm)
    (h : entries.foldlM (aggrStep64 data metric) ranks = some ranks2) :
    ∀ rm ∈ ranks2, PushedFor64 data fileMetrics rm := by
  induction entries generalizing ranks with
  | nil =>
    simp only [List.foldlM_nil] at h
    cases h; exact hranks
  | cons e rest ih =>
    rw [List.foldlM_cons] at h
    cases hstep : aggrStep64 data metric ranks e with
    | none => rw [hstep] at h; cases h
    | some mid =>
      rw [hstep] at h
      refine ih (fun x hx => hsub x (List.mem_cons_of_mem _ hx)) mid ?_ h
      rcases aggrStep64_cases data metric ranks mid e hstep with heq | ⟨seq, hv, hkey, hl, heq⟩
      · rw [heq]; exact hranks
      · rw [heq]
        intro rm hrm
        rcases List.mem_append.mp hrm with hold | hnew
        · exact hranks rm hold
        · rw [List.mem_singleton] at hnew
          subst hnew
          refine ⟨hkey, seq, Or.inr ⟨metric, all, e.1, e.2, hall, ?_, hv, hkey, hl⟩, rfl⟩
          exact hsub e (List.mem_cons_self _ _)

theorem metricLoop64_pushed (data : ReferenceDataset) (fileMetrics : List (String × MetricValue))
    (entries : List (String × MetricValue)) (hsub : ∀ e ∈ entries, e ∈ fileMetrics)
    (ranks ranks2 : List RankedMetric)
    (hranks : ∀ rm ∈ ranks, PushedFor64 data fileMetrics rm)
    (h : entries.foldlM (metricStep64 data) ranks = some ranks2) :
    ∀ rm ∈ ranks2, PushedFor64 data fileMetrics rm := by
  induction entries generalizing ranks with
  | nil =>
    simp only [List.foldlM_nil] at h
    cases h; exact hranks
  | cons e rest ih =>
    rw [List.foldlM_cons] at h
    cases hstep : metricStep64 data ranks e with
    | none => rw [hstep] at h; cases h
    | some mid =>
      rw [hstep] at h
      refine ih (fun x hx => hsub x (List.mem_cons_of_mem _ hx)) mid ?_ h
      have hmem : e ∈ fileMetrics := hsub e (List.mem_cons_self _ _)
      obtain ⟨metric, value⟩ := e
      cases value with
      | object all =>
        simp only [metricStep64] at hstep
        exact aggrLoop64_pushed data fileMetrics metric all hmem all (fun x hx => hx) ranks mid
          hranks hstep
      | scalar v =>
        simp only [metricStep64] at hstep
        split at hstep
        · cases hstep; exact hranks
        · rename_i hkey
          rw [not_not] at hkey
          cases hl : lookupFlat data metric with
          | none => rw [hl] at hstep; cases hstep
          | some seq =>
            rw [hl] at hstep
            cases hstep
            intro rm hrm
            rcases List.mem_append.mp hrm with hold | hnew
            · exact hranks rm hold
            · rw [List.mem_singleton] at hnew
              subst hnew
              exact ⟨hkey, seq, Or.inl ⟨metric, v, hmem, hkey, hl⟩, rfl⟩

/-- Every ranked metric of a file was pushed for that file's record, in binary64. -/
theorem fileRanks64_pushed (data : ReferenceDataset) (fileMetrics : List (String × MetricValue))
    (ranks : List RankedMetric) (h : fileRanks64 data fileMetrics = some ranks) :
    ∀ rm ∈ ranks, PushedFor64 data fileMetrics rm :=
  metricLoop64_pushed data fileMetrics fileMetrics (fun _ hx => hx) [] ranks
    (fun _ hrm => absurd hrm (List.not_mem_nil _)) h

/-- The first pass in binary64 keeps one entry per file record, in order. -/
theorem calcLevels64_forall₂ (data : ReferenceDataset)
    (metrics : List (String × List (String × MetricValue)))
    (levels : List (String × List RankedMetric)) (h : calcLevels64 data metrics = some levels) :
    List.Forall₂ (fun entry level => level.1 = entry.1 ∧ fileRanks64 data entry.2 = some level.2)
      metrics levels := by
  induction metrics generalizing levels with
  | nil =>
    simp only [calcLevels64] at h
    cases h; exact List.Forall₂.nil
  | cons e rest ih =>
    simp only [calcLevels64] at h
    cases hr : fileRanks64 data e.2 with
    | none => rw [hr] at h; cases h
    | some ranks =>
      rw [hr] at h
      cases hl : calcLevels64 data rest with
      | none => rw [hl] at h; cases h
      | some tail =>
        rw [hl] at h
        cases h
        exact List.Forall₂.cons ⟨rfl, hr⟩ (ih tail hl)

/-- The unsorted per-file results of a run of `calcScores64`. -/
theorem calcScores64_eq (data : ReferenceDataset)
    (metrics : List (String × List (String × MetricValue))) (out : List FileScore)
    (h : calcScores64 data metrics = some out) :
    ∃ levels, calcLevels64 data metrics = some levels ∧
      out = (unsortedScores64 data levels).insertionSort (fun a b => b.rank ≤ a.rank) := by
  unfold calcScores64 at h
  cases hl : calcLevels64 data metrics with
  | none => rw [hl] at h; cases h
  | some levels =>
    rw [hl] at h
    exact ⟨levels, rfl, (Option.some.inj h).symm⟩

/-- Every element of the result in binary64 is the score of one input file record. -/
theorem calcScores64_mem (data : ReferenceDataset)
    (metrics : List (String × List (String × MetricValue))) (out : List FileScore)
    (h : calcScores64 data metrics = some out) (fs : FileScore) (hfs : fs ∈ out) :
    ∃ e ∈ metrics, ∃ ranks, fileRanks64 data e.2 = some ranks ∧ fs = fileScore64 data e.1 ranks := by
  obtain ⟨levels, hl, hout⟩ := calcScores64_eq data metrics out h
  rw [hout] at hfs
  have hfs2 : fs ∈ unsortedScores64 data levels :=
    (List.perm_insertionSort _ _).subset hfs
  unfold unsortedScores64 at hfs2
  obtain ⟨level, hlevel, hfs3⟩ := List.mem_map.mp hfs2
  have hall := calcLevels64_forall₂ data metrics levels hl
  obtain ⟨i, hi, rfl⟩ := List.getElem_of_mem hlevel
  have hlen := hall.length_eq
  have hi2 : i < metrics.length := by omega
  have hrel := (List.forall₂_iff_get.mp hall).2 i hi2 hi
  simp only [List.get_eq_getElem] at hrel
  refine ⟨metrics[i], List.getElem_mem _, levels[i].2, hrel.2, ?_⟩
  rw [← hfs3, hrel.1]

/-- Every file record that passes the first pass has its score in the result, in
binary64. -/
theorem calcScores64_mem_of (data : ReferenceDataset)
    (metrics : List (String × List (String × MetricValue))) (out : List FileScore)
    (h : calcScores64 data metrics = some out) (e : String × List (String × MetricValue))
    (he : e ∈ metrics) (ranks : List RankedMetric) (hr : fileRanks64 data e.2 = some ranks) :
    fileScore64 data e.1 ranks ∈ out := by
  obtain ⟨levels, hl, hout⟩ := calcScores64_eq data metrics out h
  rw [hout]
  apply (List.perm_insertionSort _ _).symm.subset
  unfold unsortedScores64
  have hall := calcLevels64_forall₂ data metrics levels hl
  obtain ⟨i, hi, rfl⟩ := List.getElem_of_mem he
  have hi2 : i < levels.length := by rw [← hall.length_eq]; exact hi
  have hrel := (List.forall₂_iff_get.mp hall).2 i hi hi2
  simp only [List.get_eq_getElem] at hrel
  refine List.mem_map.mpr ⟨levels[i], List.getElem_mem _, ?_⟩
  have h2 : levels[i].2 = ranks := by
    have := hrel.2
    rw [hr] at this
    exact (Option.some.inj this).symm
  rw [hrel.1, h2]

/-! ## A run of `calcScores64` in which two scores are rounded to the same double -/

/-- Evaluation of `round64` at a number given by an expression: `e` is the exponent
and `m` the rounded significand. -/
theorem round64_eval_to (x r : ℚ) (e m : ℤ) (hlo : (2 : ℚ) ^ e ≤ x) (hhi : x < 2 ^ (e + 1))
    (hm : |x / 2 ^ (e - 52) - m| < 1 / 2) (hr : (m : ℚ) * 2 ^ (e - 52) = r) :
    round64 x = r := by
  rw [round64_eval x e m hlo hhi hm, hr]

theorem round64_zero_of (x : ℚ) (h : x = 0) : round64 x = 0 := by
  rw [h, round64_zero]

/-- The two roundings of `(seq.indexOf(value) + 1) / seq.length * 100`. -/
theorem normalizedRank64_eval (seq : List ℚ) (v : JSVal) (i : Int) (q1 q2 : ℚ) (hne : seq ≠ [])
    (hidx : indexOf seq v = i)
    (h1 : round64 (((i + 1 : Int) : ℚ) / (seq.length : ℚ)) = q1)
    (h2 : round64 (q1 * 100) = q2) : normalizedRank64 seq v = JSNum.fin q2 := by
  have hlen : seq.length ≠ 0 := fun h0 => hne (List.length_eq_zero.mp h0)
  simp only [normalizedRank64, hidx, JSNum.divCount64, if_neg hlen, JSNum.mul64, h1, h2]

/-- The three roundings of `rankAcc / total` for a file with two ranked metrics. -/
theorem accumulatedRank64_pair (rm1 rm2 : RankedMetric) (q1 q2 s1 s2 r : ℚ)
    (h1 : rm1.normalizedRank = JSNum.fin q1) (h2 : rm2.normalizedRank = JSNum.fin q2)
    (hs1 : round64 (0 + q1) = s1) (hs2 : round64 (s1 + q2) = s2)
    (hr : round64 (s2 / ((2 : Nat) : ℚ)) = r) :
    accumulatedRank64 [rm1, rm2] = JSNum.fin r := by
  subst hs1 hs2 hr
  simp [accumulatedRank64, accumulate64, h1, h2, JSNum.add64, JSNum.divCount64]

theorem normalizedRank64_a_ccM : normalizedRank64 [1, 2, 3] (JSVal.num 7) = JSNum.fin 0 :=
  normalizedRank64_eval _ _ (-1) 0 0 (by simp) (by simp [indexOf, indexOfFrom, strictEq])
    (round64_zero_of _ (by norm_num)) (round64_zero_of _ (by norm_num))

theorem normalizedRank64_a_locM :
    normalizedRank64 [1, 2, 3, 4, 5, 6] (JSVal.num 3) = JSNum.fin 50 :=
  normalizedRank64_eval _ _ 2 (1 / 2) 50 (by simp) (by simp [indexOf, indexOfFrom, strictEq])
    (round64_eval_to _ _ (-1) 4503599627370496 (by norm_num) (by norm_num)
      (by rw [abs_lt]; norm_num) (by norm_num))
    (round64_eval_to _ _ 5 7036874417766400 (by norm_num) (by norm_num)
      (by rw [abs_lt]; norm_num) (by norm_num))

theorem normalizedRank64_b_ccM :
    normalizedRank64 [1, 2, 3] (JSVal.num 1) = JSNum.fin (4691249611844266 / 2 ^ 47) :=
  normalizedRank64_eval _ _ 0 (6004799503160661 / 2 ^ 54) _ (by simp)
    (by simp [indexOf, indexOfFrom, strictEq])
    (round64_eval_to _ _ (-2) 6004799503160661 (by norm_num) (by norm_num)
      (by rw [abs_lt]; norm_num) (by norm_num))
    (round64_eval_to _ _ 5 4691249611844266 (by norm_num) (by norm_num)
      (by rw [abs_lt]; norm_num) (by norm_num))

theorem normalizedRank64_b_locM :
    normalizedRank64 [1, 2, 3, 4, 5, 6] (JSVal.num 1)
      = JSNum.fin (4691249611844266 / 2 ^ 48) :=
  normalizedRank64_eval _ _ 0 (6004799503160661 / 2 ^ 55) _ (by simp)
    (by simp [indexOf, indexOfFrom, strictEq])
    (round64_eval_to _ _ (-3) 6004799503160661 (by norm_num) (by norm_num)
      (by rw [abs_lt]; norm_num) (by norm_num))
    (round64_eval_to _ _ 4 4691249611844266 (by norm_num) (by norm_num)
      (by rw [abs_lt]; norm_num) (by norm_num))

theorem accumulatedRank64_a :
    accumulatedRank64 [rankedMetric64 "ccM" [1, 2, 3] (JSVal.num 7),
      rankedMetric64 "locM" [1, 2, 3, 4, 5, 6] (JSVal.num 3)] = JSNum.fin 25 :=
  accumulatedRank64_pair _ _ 0 50 0 50 25 normalizedRank64_a_ccM normalizedRank64_a_locM
    (round64_zero_of _ (by norm_num))
    (round64_eval_to _ _ 5 7036874417766400 (by norm_num) (by norm_num)
      (by rw [abs_lt]; norm_num) (by norm_num))
    (round64_eval_to _ _ 4 7036874417766400 (by norm_num) (by norm_num)
      (by rw [abs_lt]; norm_num) (by norm_num))

theorem accumulatedRank64_b :
    accumulatedRank64 [rankedMetric64 "ccM" [1, 2, 3] (JSVal.num 1),
      rankedMetric64 "locM" [1, 2, 3, 4, 5, 6] (JSVal.num 1)]
      = JSNum.fin (7036874417766399 / 2 ^ 48) :=
  accumulatedRank64_pair _ _ _ _ (4691249611844266 / 2 ^ 47) (7036874417766399 / 2 ^ 47) _
    normalizedRank64_b_ccM normalizedRank64_b_locM
    (round64_eval_to _ _ 5 4691249611844266 (by norm_num) (by norm_num)
      (by rw [abs_lt]; norm_num) (by norm_num))
    (round64_eval_to _ _ 5 7036874417766399 (by norm_num) (by norm_num)
      (by rw [abs_lt]; norm_num) (by norm_num))
    (round64_eval_to _ _ 4 7036874417766399 (by norm_num) (by norm_num)
      (by rw [abs_lt]; norm_num) (by norm_num))

/-! ## The order of the result and the scores in binary64 -/

/-- With a non-empty reference sequence the normalized rank is a number. -/
theorem normalizedRank64_ne_nan (seq : List ℚ) (v : JSVal) (hne : seq ≠ []) :
    normalizedRank64 seq v ≠ JSNum.nan := by
  have hlen : seq.length ≠ 0 := fun h0 => hne (List.length_eq_zero.mp h0)
  simp [normalizedRank64, JSNum.divCount64, hlen, JSNum.mul64]

theorem rankedMetric64_ne_nan (key : String) (seq : List ℚ) (v : JSVal) (hne : seq ≠ []) :
    (rankedMetric64 key seq v).normalizedRank ≠ JSNum.nan :=
  normalizedRank64_ne_nan seq v hne

theorem accumulate64_fin (ranks : List RankedMetric)
    (h : ∀ rm ∈ ranks, rm.normalizedRank ≠ JSNum.nan) (a : ℚ) (n : Nat) :
    ∃ q : ℚ, ranks.foldl
        (fun acc rankInfo => (acc.1.add64 rankInfo.normalizedRank, acc.2 + 1)) (JSNum.fin a, n)
      = (JSNum.fin q, n + ranks.length) := by
  induction ranks generalizing a n with
  | nil => exact ⟨a, rfl⟩
  | cons rm rest ih =>
    have hrm := h rm (List.mem_cons_self _ _)
    cases hq : rm.normalizedRank with
    | nan => exact absurd hq hrm
    | fin q =>
      obtain ⟨r, hr⟩ := ih (fun x hx => h x (List.mem_cons_of_mem _ hx)) (round64 (a + q)) (n + 1)
      refine ⟨r, ?_⟩
      rw [List.foldl_cons]
      show List.foldl _ ((JSNum.fin a).add64 rm.normalizedRank, n + 1) rest = _
      rw [hq]
      show List.foldl _ (JSNum.fin (round64 (a + q)), n + 1) rest = _
      rw [hr, List.length_cons]
      congr 1
      omega

/-- A file with at least one ranked metric, none of them with a `NaN` normalized rank,
has a number as its accumulated rank. -/
theorem accumulatedRank64_fin (ranks : List RankedMetric) (hne : ranks ≠ [])
    (h : ∀ rm ∈ ranks, rm.normalizedRank ≠ JSNum.nan) :
    ∃ x : ℚ, accumulatedRank64 ranks = JSNum.fin x := by
  obtain ⟨q, hq⟩ := accumulate64_fin ranks h 0 0
  have hlen : ranks.length ≠ 0 := fun h0 => hne (List.length_eq_zero.mp h0)
  unfold accumulatedRank64 accumulate64
  rw [hq]
  simp [JSNum.divCount64, hlen]

/-- Two file scores whose accumulated ranks are numbers: the greater rank has the
greater accumulated rank, and a score that is not greater. -/
theorem fileScore64_order (data : ReferenceDataset) (hsorted : data.moduleRanks.Sorted (· ≤ ·))
    (fileA fileB : String) (ranksA ranksB : List RankedMetric) (x y : ℚ)
    (hx : accumulatedRank64 ranksA = JSNum.fin x) (hy : accumulatedRank64 ranksB = JSNum.fin y)
    (hrank : (fileScore64 data fileB ranksB).rank < (fileScore64 data fileA ranksA).rank) :
    JSNum.lt (fileScore64 data fileB ranksB).accumulatedRank
        (fileScore64 data fileA ranksA).accumulatedRank = true ∧
    JSNum.le (fileScore64 data fileA ranksA).score (fileScore64 data fileB ranksB).score
      = true := by
  simp only [fileScore64] at hrank ⊢
  rw [hx, hy] at hrank ⊢
  have hlt := lt_of_calcRank_lt data.moduleRanks x y hsorted hrank
  constructor
  · simp [JSNum.lt, hlt]
  · have hmono := round64_mono (100 - x) (100 - y) (by linarith)
    simp [JSNum.le, JSNum.sub64, hmono]

/-- The file records of `roundMetrics` in binary64: `a.js` has accumulated rank `25`,
rank `2` and score `75`; `b.js` has accumulated rank `25 - 2 ^ -48` (printed
`24.999999999999996`), rank `1`, and its score `100 - accumulatedRank` is rounded to
`75` as well. -/
theorem roundData_scores :
    calcScores64 roundData roundMetrics
      = some [{ file := "a.js", rank := 2,
                metricRanks := [rankedMetric64 "ccM" [1, 2, 3] (JSVal.num 7),
                  rankedMetric64 "locM" [1, 2, 3, 4, 5, 6] (JSVal.num 3)],
                accumulatedRank := JSNum.fin 25, score := JSNum.fin 75 },
              { file := "b.js", rank := 1,
                metricRanks := [rankedMetric64 "ccM" [1, 2, 3] (JSVal.num 1),
                  rankedMetric64 "locM" [1, 2, 3, 4, 5, 6] (JSVal.num 1)],
                accumulatedRank := JSNum.fin (7036874417766399 / 2 ^ 48),
                score := JSNum.fin 75 }] := by
  have hlevels : calcLevels64 roundData roundMetrics
      = some [("a.js", [rankedMetric64 "ccM" [1, 2, 3] (JSVal.num 7),
                  rankedMetric64 "locM" [1, 2, 3, 4, 5, 6] (JSVal.num 3)]),
              ("b.js", [rankedMetric64 "ccM" [1, 2, 3] (JSVal.num 1),
                  rankedMetric64 "locM" [1, 2, 3, 4, 5, 6] (JSVal.num 1)])] := rfl
  have hsA : round64 (100 - 25) = 75 :=
    round64_eval_to _ _ 6 5277655813324800 (by norm_num) (by norm_num)
      (by rw [abs_lt]; norm_num) (by norm_num)
  have hsB : round64 (100 - 7036874417766399 / 2 ^ 48) = 75 :=
    round64_eval_to _ _ 6 5277655813324800 (by norm_num) (by norm_num)
      (by rw [abs_lt]; norm_num) (by norm_num)
  have hA : fileScore64 roundData "a.js" [rankedMetric64 "ccM" [1, 2, 3] (JSVal.num 7),
        rankedMetric64 "locM" [1, 2, 3, 4, 5, 6] (JSVal.num 3)]
      = { file := "a.js", rank := 2,
          metricRanks := [rankedMetric64 "ccM" [1, 2, 3] (JSVal.num 7),
            rankedMetric64 "locM" [1, 2, 3, 4, 5, 6] (JSVal.num 3)],
          accumulatedRank := JSNum.fin 25, score := JSNum.fin 75 } := by
    simp only [fileScore64]
    rw [accumulatedRank64_a]
    simp only [JSNum.sub64, hsA]
    norm_num [roundData, calcRank, indexOf, indexOfFrom, firstGreaterFrom, strictEq, jsGt,
      JSVal.toNumber]
  have hB : fileScore64 roundData "b.js" [rankedMetric64 "ccM" [1, 2, 3] (JSVal.num 1),
        rankedMetric64 "locM" [1, 2, 3, 4, 5, 6] (JSVal.num 1)]
      = { file := "b.js", rank := 1,
          metricRanks := [rankedMetric64 "ccM" [1, 2, 3] (JSVal.num 1),
            rankedMetric64 "locM" [1, 2, 3, 4, 5, 6] (JSVal.num 1)],
          accumulatedRank := JSNum.fin (7036874417766399 / 2 ^ 48),
          score := JSNum.fin 75 } := by
    simp only [fileScore64]
    rw [accumulatedRank64_b]
    simp only [JSNum.sub64, hsB]
    norm_num [roundData, calcRank, indexOf, indexOfFrom, firstGreaterFrom, strictEq, jsGt,
      JSVal.toNumber]
  unfold calcScores64
  rw [hlevels]
  simp only [Option.map_some', unsortedScores64, List.map_cons, List.map_nil, hA, hB]
  simp [List.insertionSort, List.orderedInsert]

/-- The file records of `emptySeqMetrics` in binary64: the accumulated rank of `a.js`
is `NaN`, that of `b.js` is `0`. -/
theorem emptySeq_accumulatedRank64 :
    accumulatedRank64 [rankedMetric64 "locM" [] (JSVal.num 5)] = JSNum.nan ∧
    accumulatedRank64 [rankedMetric64 "ccM" [1, 2, 4, 8] (JSVal.num 3)] = JSNum.fin 0 := by
  constructor
  · rfl
  · norm_num [accumulatedRank64, accumulate64, rankedMetric64, normalizedRank64, indexOf,
      indexOfFrom, strictEq, JSNum.divCount64, JSNum.mul64, JSNum.add64, round64_zero]

/-- C21 (refuted as stated), two runs of `calcScores` in binary64 with a sorted
`moduleRanks` in which `a.js` and `b.js` have at least one ranked metric each and
`a.rank > b.rank`.  In the first every reference sequence is non-empty, `a.js` has rank
`2` and `b.js` rank `1`, the accumulated ranks are `25` and `24.999999999999996`, and
both scores are `75`, because `100 - 24.999999999999996` is rounded to `75`: `a.score <
b.score` fails.  In the second the reference sequence of `a.js` is empty, so its
accumulated rank is `NaN` and its rank is `3`, above the rank `0` of `b.js`:
`a.accumulatedRank > b.accumulatedRank` and `a.score < b.score` both fail. -/
theorem score_order_fails :
    (roundData.moduleRanks.Sorted (· ≤ ·) ∧
      ∃ out a b, calcScores64 roundData roundMetrics = some out ∧ a ∈ out ∧ b ∈ out ∧
        a.file = "a.js" ∧ b.file = "b.js" ∧
        a.metricRanks ≠ [] ∧ b.metricRanks ≠ [] ∧
        (∀ rm ∈ a.metricRanks ++ b.metricRanks, rm.normalizedRank ≠ JSNum.nan) ∧
        a.rank = 2 ∧ b.rank = 1 ∧ b.rank < a.rank ∧
        a.accumulatedRank = JSNum.fin 25 ∧
        b.accumulatedRank = JSNum.fin (7036874417766399 / 2 ^ 48) ∧
        a.score = JSNum.fin 75 ∧ b.score = JSNum.fin 75 ∧
        JSNum.lt a.score b.score = false) ∧
    (emptySeqData.moduleRanks.Sorted (· ≤ ·) ∧
      ∃ out a b, calcScores64 emptySeqData emptySeqMetrics = some out ∧ a ∈ out ∧ b ∈ out ∧
        a.file = "a.js" ∧ b.file = "b.js" ∧
        a.metricRanks ≠ [] ∧ b.metricRanks ≠ [] ∧
        a.rank = 3 ∧ b.rank = 0 ∧ b.rank < a.rank ∧
        a.accumulatedRank = JSNum.nan ∧
        JSNum.lt b.accumulatedRank a.accumulatedRank = false ∧
        JSNum.lt a.score b.score = false) := by
  constructor
  · refine ⟨by norm_num [roundData, List.Sorted], _, _, _, roundData_scores,
      List.mem_cons_self _ _, List.mem_cons_of_mem _ (List.mem_cons_self _ _), rfl, rfl,
      by simp, by simp, ?_, rfl, rfl, by norm_num, rfl, rfl, rfl, rfl, ?_⟩
    · intro rm hrm
      simp only [List.cons_append, List.nil_append, List.mem_cons, List.mem_singleton,
        List.not_mem_nil, or_false] at hrm
      rcases hrm with rfl | rfl | rfl | rfl <;>
        exact rankedMetric64_ne_nan _ _ _ (by simp)
    · simp [JSNum.lt]
  · refine ⟨by norm_num [emptySeqData, List.Sorted], ?_⟩
    obtain ⟨out, hout⟩ := Option.isSome_iff_exists.mp
      (show (calcScores64 emptySeqData emptySeqMetrics).isSome = true by decide)
    have hmemA := calcScores64_mem_of emptySeqData emptySeqMetrics out hout
      ("a.js", [("locM", MetricValue.scalar (JSVal.num 5))]) (by simp [emptySeqMetrics])
      [rankedMetric64 "locM" [] (JSVal.num 5)] rfl
    have hmemB := calcScores64_mem_of emptySeqData emptySeqMetrics out hout
      ("b.js", [("ccM", MetricValue.scalar (JSVal.num 3))]) (by simp [emptySeqMetrics])
      [rankedMetric64 "ccM" [1, 2, 4, 8] (JSVal.num 3)] rfl
    obtain ⟨haccA, haccB⟩ := emptySeq_accumulatedRank64
    have hrankA : (fileScore64 emptySeqData "a.js"
        [rankedMetric64 "locM" [] (JSVal.num 5)]).rank = 3 := by
      simp only [fileScore64]
      rw [haccA, calcRank_nan]; rfl
    have hrankB : (fileScore64 emptySeqData "b.js"
        [rankedMetric64 "ccM" [1, 2, 4, 8] (JSVal.num 3)]).rank = 0 := by
      simp only [fileScore64]
      rw [haccB]
      norm_num [emptySeqData, calcRank, indexOf, indexOfFrom, firstGreaterFrom, strictEq, jsGt,
        JSVal.toNumber]
    refine ⟨out, _, _, hout, hmemA, hmemB, rfl, rfl, by simp [fileScore64],
      by simp [fileScore64], hrankA, hrankB, by rw [hrankA, hrankB]; norm_num, haccA, ?_, ?_⟩
    · simp only [fileScore64]
      rw [haccA, haccB]; rfl
    · simp only [fileScore64]
      rw [haccA]; rfl

/-- C21 (amended): let `moduleRanks` be sorted, and let `a` and `b` be two file scores
returned by `calcScores`, computed in binary64, each with at least one ranked metric and
with no `NaN` among the normalized ranks of its ranked metrics.  Then `a.rank > b.rank`
gives `a.accumulatedRank > b.accumulatedRank` and `a.score <= b.score` (the scores can be
equal, because `100 - accumulatedRank` is rounded); consequently, in the output, a file
score placed before another one with a different rank never has the greater score.  No
normalized rank of a file score is `NaN` when every reference sequence consulted for
its file record is non-empty. -/
theorem rank_gt_implies_score_le (data : ReferenceDataset)
    (metrics : List (String × List (String × MetricValue))) (out : List FileScore)
    (h : calcScores64 data metrics = some out)
    (hsorted : data.moduleRanks.Sorted (· ≤ ·)) :
    (∀ a ∈ out, ∀ b ∈ out, a.metricRanks ≠ [] → b.metricRanks ≠ [] →
      (∀ rm ∈ a.metricRanks, rm.normalizedRank ≠ JSNum.nan) →
      (∀ rm ∈ b.metricRanks, rm.normalizedRank ≠ JSNum.nan) → b.rank < a.rank →
      JSNum.lt b.accumulatedRank a.accumulatedRank = true ∧
      JSNum.le a.score b.score = true) ∧
    (∀ (i j : Nat) (hi : i < out.length) (hj : j < out.length), i < j →
      out[i].metricRanks ≠ [] → out[j].metricRanks ≠ [] →
      (∀ rm ∈ out[i].metricRanks, rm.normalizedRank ≠ JSNum.nan) →
      (∀ rm ∈ out[j].metricRanks, rm.normalizedRank ≠ JSNum.nan) →
      out[i].rank ≠ out[j].rank →
      JSNum.le out[i].score out[j].score = true) ∧
    (∀ a ∈ out, ∃ e ∈ metrics, a.file = e.1 ∧ fileRanks64 data e.2 = some a.metricRanks ∧
      ((∀ seq, Consults data e.2 seq → seq ≠ []) →
        ∀ rm ∈ a.metricRanks, rm.normalizedRank ≠ JSNum.nan)) := by
  have hpair : ∀ a ∈ out, ∀ b ∈ out, a.metricRanks ≠ [] → b.metricRanks ≠ [] →
      (∀ rm ∈ a.metricRanks, rm.normalizedRank ≠ JSNum.nan) →
      (∀ rm ∈ b.metricRanks, rm.normalizedRank ≠ JSNum.nan) → b.rank < a.rank →
      JSNum.lt b.accumulatedRank a.accumulatedRank = true ∧
      JSNum.le a.score b.score = true := by
    intro a ha b hb hna hnb hfa hfb hrank
    obtain ⟨ea, _, ranksA, _, rfl⟩ := calcScores64_mem data metrics out h a ha
    obtain ⟨eb, _, ranksB, _, rfl⟩ := calcScores64_mem data metrics out h b hb
    obtain ⟨x, hx⟩ := accumulatedRank64_fin ranksA hna hfa
    obtain ⟨y, hy⟩ := accumulatedRank64_fin ranksB hnb hfb
    exact fileScore64_order data hsorted ea.1 eb.1 ranksA ranksB x y hx hy hrank
  refine ⟨hpair, ?_, ?_⟩
  · intro i j hi hj hij hni hnj hfi hfj hne
    obtain ⟨levels, _, hout⟩ := calcScores64_eq data metrics out h
    have hsort : out.Sorted (fun a b => b.rank ≤ a.rank) := by
      rw [hout]
      haveI : IsTotal FileScore (fun a b => b.rank ≤ a.rank) := ⟨fun a b => le_total _ _⟩
      haveI : IsTrans FileScore (fun a b => b.rank ≤ a.rank) :=
        ⟨fun _ _ _ hab hbc => le_trans hbc hab⟩
      exact List.sorted_insertionSort _ _
    have hle : out[j].rank ≤ out[i].rank := List.pairwise_iff_getElem.mp hsort i j hi hj hij
    have hlt : out[j].rank < out[i].rank := lt_of_le_of_ne hle (Ne.symm hne)
    exact (hpair out[i] (List.getElem_mem _) out[j] (List.getElem_mem _) hni hnj hfi hfj hlt).2
  · intro a ha
    obtain ⟨e, he, ranks, hr, rfl⟩ := calcScores64_mem data metrics out h a ha
    refine ⟨e, he, rfl, hr, ?_⟩
    intro hseq rm hrm
    obtain ⟨_, seq, hcons, heq⟩ := fileRanks64_pushed data e.2 ranks hr rm hrm
    rw [heq]
    exact normalizedRank64_ne_nan seq rm.value (hseq seq hcons)

theorem rank_gt_implies_score_le_witness :
    roundData.moduleRanks.Sorted (· ≤ ·) ∧
    ∃ out a b, calcScores64 roundData roundMetrics = some out ∧ a ∈ out ∧ b ∈ out ∧
      a.file = "a.js" ∧ b.file = "b.js" ∧ a.metricRanks ≠ [] ∧ b.metricRanks ≠ [] ∧
      (∀ rm ∈ a.metricRanks, rm.normalizedRank ≠ JSNum.nan) ∧
      (∀ rm ∈ b.metricRanks, rm.normalizedRank ≠ JSNum.nan) ∧ b.rank < a.rank ∧
      JSNum.lt b.accumulatedRank a.accumulatedRank = true ∧
      JSNum.le a.score b.score = true :=
  have hA : ∀ rm ∈ [rankedMetric64 "ccM" [1, 2, 3] (JSVal.num 7),
      rankedMetric64 "locM" [1, 2, 3, 4, 5, 6] (JSVal.num 3)],
      rm.normalizedRank ≠ JSNum.nan := by
    intro rm hrm
    simp only [List.mem_cons, List.mem_singleton, List.not_mem_nil, or_false] at hrm
    rcases hrm with rfl | rfl <;> exact rankedMetric64_ne_nan _ _ _ (by simp)
  have hB : ∀ rm ∈ [rankedMetric64 "ccM" [1, 2, 3] (JSVal.num 1),
      rankedMetric64 "locM" [1, 2, 3, 4, 5, 6] (JSVal.num 1)],
      rm.normalizedRank ≠ JSNum.nan := by
    intro rm hrm
    simp only [List.mem_cons, List.mem_singleton, List.not_mem_nil, or_false] at hrm
    rcases hrm with rfl | rfl <;> exact rankedMetric64_ne_nan _ _ _ (by simp)
  ⟨by norm_num [roundData, List.Sorted], _, _, _, roundData_scores,
    List.mem_cons_self _ _, List.mem_cons_of_mem _ (List.mem_cons_self _ _), rfl, rfl,
    by simp, by simp, hA, hB, by norm_num,
    (rank_gt_implies_score_le roundData roundMetrics _ roundData_scores
      (by norm_num [roundData, List.Sorted])).1 _ (List.mem_cons_self _ _) _
      (List.mem_cons_of_mem _ (List.mem_cons_self _ _)) (by simp) (by simp) hA hB
      (by norm_num)⟩

end JSTS
